import Mathlib

/-!
Shallow embedding of `src/scheduler.hpp` (namespace `es`, class
`EventScheduler`) together with `src/event.hpp` and `src/event_id.hpp`.

Modelling conventions:
* `TimeMs` (`int64_t`) is `Int`; the slot index and generation fields of
  `EventID` (`uint32_t`) are `Nat`, with the sentinel `u32::MAX` kept as the
  explicit constant `U32M`.  Generation counters and the `size_t` counters are
  `Nat`; the one `size_t` decrement that is reachable at zero
  (`--cancelled` in `try_pop_cancelled`, `--alive` in `reuse`/`cancel`) is
  modelled with the explicit wrap `decSize` (`0 - 1 = 2^64 - 1`).
* `std::priority_queue` is a bag of `EventID`s (`List EventID`); `top`/`pop`
  extract the comparator minimum (leftmost among comparator-equal entries).
  The comparator `EventCompare` reads the event records live, exactly as the
  source does.
* Callbacks (`std::function<void()>` capturing the scheduler) are modelled as
  programs in a small command language `Cmd` covering the re-entrant calls the
  source supports from inside a dispatch: `schedule_after`, `cancel`,
  `clear`, `set_next_fire` and `delay`.
* `assert(...)` statements on user-supplied arguments (`_assert_eid`, the
  repeat-interval check in `schedule_after`, `!ticking` in `tick`) are
  contracts: a call whose asserted precondition fails aborts the C++ program
  in debug builds; it is modelled as a no-op.  Internal consistency asserts
  (such as `i == 0` in `handle_clear_op`) are modelled by the release
  behaviour of the surrounding code.
* The unbounded loops in `tick`/`run`/`rebuild_pq` take explicit fuel
  (`rebuild_pq`'s fuel is its exact bound `pq.length`).
* Two ghost fields (`log`, `issued`) record the fired events and the handles
  returned by the `schedule_*` family; no operation reads them.
-/

namespace ES

def U32M : Nat := 4294967295

def SIZEM : Nat := 18446744073709551615

/-- `size_t` decrement with wrap at zero (`--x` on `size_t`). -/
def decSize (n : Nat) : Nat := if n = 0 then SIZEM else n - 1

/-- `TimeMs` in `event.hpp` is `int64_t`; times are `Int` throughout. -/
abbrev TimeMs := Int

structure EventID where
  index : Nat
  gen : Nat
deriving DecidableEq, Repr

def EventID.invalid : EventID := ⟨U32M, U32M⟩

def EventID.is_valid (e : EventID) : Bool :=
  decide (e.index ≠ U32M) && decide (e.gen ≠ U32M)

inductive EventType where
  | Once
  | Repeat
deriving DecidableEq, Repr

inductive TimeMode where
  | Relative
  | Absolute
deriving DecidableEq, Repr

inductive ExceptionPolicy where
  | Swallow
  | Cancel
  | Rethrow
deriving DecidableEq, Repr

inductive EventPriority where
  | System
  | User
  | Debug
deriving DecidableEq, Repr

/-- Enum rank of `EventPriority` (`uint8_t` value: System 0, User 1, Debug 2). -/
def EventPriority.rank : EventPriority → Nat
  | .System => 0
  | .User => 1
  | .Debug => 2

inductive CatchUp where
  | All
  | Latest
deriving DecidableEq, Repr

inductive EventStatus where
  | Alive
  | Cancelled
deriving DecidableEq, Repr

/-- Re-entrant calls a callback can make on the owning scheduler.  The
`schedule` command carries the full argument list of `schedule_after`,
including the scheduled event's own callback program. -/
inductive Cmd where
  | schedule (time_ms : Int) (type : EventType) (interval_ms : Int)
      (ep : ExceptionPolicy) (pri : EventPriority) (cu : CatchUp)
      (cb : List Cmd)
  | cancel (eid : EventID)
  | clear
  | set_next_fire (eid : EventID) (next_fire : Int)
  | delay (eid : EventID) (ms : Int)
  | set_interval (eid : EventID) (ms : Int)
  | set_type (eid : EventID) (ty : EventType)
  | set_exp_policy (eid : EventID) (p : ExceptionPolicy)
  | set_priority (eid : EventID) (p : EventPriority)
  | set_catchup (eid : EventID) (cu : CatchUp)
  | pause

abbrev Callback := List Cmd

/-- `EventDesc` from `event.hpp`. -/
structure EventDesc where
  type : EventType := .Once
  interval_ms : Int := 0
  callback : Callback := []
  ep : ExceptionPolicy := .Swallow
  pri : EventPriority := .User
  cu : CatchUp := .All

/-- `EventScheduler::Event`: a slab slot. -/
structure Event where
  desc : EventDesc := {}
  status : EventStatus := .Cancelled
  next_fire : Int := 0

/-- `EventScheduler::Op`: a journaled mutation. -/
inductive Op where
  | schedule (next_fire : Int) (desc : EventDesc) (eid : EventID)
  | clear
  | delay (eid : EventID) (next_fire : Int)

/-- Ghost record of one callback invocation by `fire_top`: the fired entry
and its key (`next_fire`, priority rank, slot index) at fire time. -/
structure FireRec where
  index : Nat
  gen : Nat
  next_fire : Int
  rank : Nat
deriving DecidableEq, Repr

structure Sched where
  events : List Event := []
  pq : List EventID := []
  fl : List Nat := []
  gens : List Nat := []
  delay_ops : List Op := []
  current : Int := 0
  paused_time : Int := 0
  alive : Nat := 0
  cancelled : Nat := 0
  fire_count : Nat := 0
  pending_clear : Nat := 0
  paused : Bool := false
  ticking : Bool := false
  log : List FireRec := []
  issued : List EventID := []

def fresh : Sched := {}

/-- Slab read `events[i]` (out of range yields the default record; in the
source such a read is out-of-contract). -/
def evGet (s : Sched) (i : Nat) : Event := s.events.getD i {}

/-- `gens[i]`. -/
def genGet (s : Sched) (i : Nat) : Nat := s.gens.getD i 0

/-- `EventCompare::tie_break` (`le`/`re` are the records of the two slots). -/
def tie_break (s : Sched) (lhs rhs : EventID) : Bool :=
  if (evGet s lhs.index).desc.pri = (evGet s rhs.index).desc.pri then
    decide (lhs.index > rhs.index)
  else
    decide ((evGet s lhs.index).desc.pri.rank >
      (evGet s rhs.index).desc.pri.rank)

/-- `EventCompare::operator()`: `lhs` sorts after `rhs` (min-heap). -/
def cmpAfter (s : Sched) (lhs rhs : EventID) : Bool :=
  if (evGet s lhs.index).next_fire = (evGet s rhs.index).next_fire then
    tie_break s lhs rhs
  else decide ((evGet s lhs.index).next_fire > (evGet s rhs.index).next_fire)

/-- `pq.top()`: the comparator minimum of the queue (the entry that sorts
after no other).  The scan replaces the running best only on a strict
improvement, so among comparator-equal entries the leftmost wins.  Meaningful
only on a nonempty queue, as in the source. -/
def pqTopGet (s : Sched) : EventID :=
  match s.pq with
  | [] => EventID.invalid
  | e :: rest => rest.foldl (fun b x => if cmpAfter s b x then x else b) e

/-- `pq.pop()`: removes the top entry (the first occurrence of the value
`pqTopGet` designates). -/
def pqPop (s : Sched) : Sched := { s with pq := s.pq.erase (pqTopGet s) }

/-- `pq.push(eid)`. -/
def pqPush (s : Sched) (eid : EventID) : Sched := { s with pq := s.pq ++ [eid] }

/-- `set_event`. -/
def set_event (s : Sched) (next_fire : Int) (d : EventDesc) (eid : EventID) :
    Sched :=
  let e := evGet s eid.index
  let s := { s with
    events := s.events.set eid.index
      { e with desc := d, status := .Alive, next_fire := next_fire } }
  let s := pqPush s eid
  { s with alive := s.alive + 1 }

/-- `append`. -/
def append (s : Sched) : EventID × Sched :=
  let id := s.events.length
  (⟨id, 0⟩,
    { s with events := s.events ++ [{}], gens := s.gens ++ [0] })

/-- `reuse`. -/
def reuse (s : Sched) (eid : EventID) : Sched :=
  let e := evGet s eid.index
  let al := if e.status = .Alive then decSize s.alive else s.alive
  { s with
    alive := al
    events := s.events.set eid.index { e with status := .Cancelled }
    fl := s.fl ++ [eid.index]
    gens := s.gens.set eid.index (genGet s eid.index + 1) }

/-- `pop_fl` (does not touch `gens`). -/
def pop_fl (s : Sched) : EventID × Sched :=
  let i := (s.fl.getLast?).getD 0
  (⟨i, genGet s i⟩, { s with fl := s.fl.dropLast })

/-- `try_pop_cancelled`. -/
def try_pop_cancelled (s : Sched) : Bool × Sched :=
  let top := pqTopGet s
  let e := evGet s top.index
  if e.status ≠ .Cancelled then (false, s)
  else
    let s := pqPop s
    (true, { s with
      fl := s.fl ++ [top.index]
      gens := s.gens.set top.index (genGet s top.index + 1)
      cancelled := decSize s.cancelled })

/-- `try_reuse`. -/
def try_reuse (s : Sched) (eid : EventID) : Bool × Sched :=
  let e := evGet s eid.index
  if e.status ≠ .Cancelled then (false, s)
  else
    (true, { s with
      fl := s.fl ++ [eid.index]
      gens := s.gens.set eid.index (genGet s eid.index + 1) })

/-- `try_update_pause`. -/
def try_update_pause (s : Sched) (delta_ms : Int) : Bool × Sched :=
  if ¬s.paused then (false, s)
  else (true, { s with paused_time := s.paused_time + delta_ms })

/-- `add_schedule`. -/
def add_schedule (s : Sched) (next_fire : Int) (d : EventDesc)
    (eid : EventID) : Sched :=
  { s with delay_ops := s.delay_ops ++ [Op.schedule next_fire d eid] }

/-- `add_clear` (discards the journal so far, then records the clear). -/
def add_clear (s : Sched) : Sched :=
  { s with pending_clear := s.pending_clear + 1, delay_ops := [Op.clear] }

/-- `add_delay`. -/
def add_delay (s : Sched) (eid : EventID) (next_fire : Int) : Sched :=
  { s with delay_ops := s.delay_ops ++ [Op.delay eid next_fire] }

/-- `clear_in_tick`: empty the queue, mark every slot cancelled, add the
accumulated `pending_clear` to every generation, and rebuild the free list
from the slots not reserved by journaled schedules. -/
def clear_in_tick (s : Sched) (reserved : List Nat) : Sched :=
  { s with
    pq := []
    fl := (List.range s.events.length).filter (fun i => ¬ reserved.contains i)
    events := s.events.map (fun e => { e with status := .Cancelled })
    gens := s.gens.map (fun g => g + s.pending_clear)
    alive := 0
    cancelled := 0
    fire_count := 0 }

def Op.eidIdx : Op → Nat
  | .schedule _ _ eid => eid.index
  | .clear => U32M
  | .delay eid _ => eid.index

/-- The reserved slot indices `handle_clear_op` collects from `ops[1..]`. -/
def reservedIdxs (all : List Op) : List Nat := (all.drop 1).map Op.eidIdx

/-- `default_set_next_fire`.  The source's only textual call with arguments is
`flush_delay_ops`; the call at the end of `set_next_fire` is written
`default_set_next_fire()` with no arguments (scheduler.hpp:546), which is
ill-formed when instantiated — it is modelled here, following the spec's
§4.1/§4.4 description, as `default_set_next_fire(eid, next_fire)`. -/
def default_set_next_fire (s : Sched) (eid : EventID) (next_fire : Int) :
    Sched :=
  let e := evGet s eid.index
  let new_id : EventID := ⟨eid.index, eid.gen + 1⟩
  let s := { s with gens := s.gens.set eid.index (genGet s eid.index + 1) }
  let s := pqPush s new_id
  { s with events := s.events.set eid.index { e with next_fire := next_fire } }

/-- One pass of `flush_delay_ops` over the drained journal (`all` is the full
drained list, used by the clear case to collect reserved slots). -/
def flushLoop (all : List Op) : List Op → Sched → Sched
  | [], s => s
  | op :: rest, s =>
    let s :=
      match op with
      | .schedule nf d eid => set_event s nf d eid
      | .clear => clear_in_tick s (reservedIdxs all)
      | .delay eid nf => default_set_next_fire s eid nf
    flushLoop all rest s

/-- `flush_delay_ops`. -/
def flush_delay_ops (s : Sched) : Sched :=
  let ops := s.delay_ops
  flushLoop ops ops { s with delay_ops := [] }

/-- `default_clear`: empties every structure and zeroes the counters.  It
leaves `current`, `paused_time` and `paused` untouched. -/
def default_clear (s : Sched) : Sched :=
  { s with
    events := []
    pq := []
    fl := []
    gens := []
    alive := 0
    cancelled := 0
    fire_count := 0 }

/-- `is_alive`. -/
def is_alive (s : Sched) (eid : EventID) : Bool :=
  if eid.index ≥ s.events.length then false
  else if eid.gen ≠ genGet s eid.index then false
  else decide ((evGet s eid.index).status = .Alive)

/-- `reschedule` (contract: a valid, alive, `Repeat` handle). -/
def reschedule (s : Sched) (eid : EventID) : Sched :=
  if ¬(eid.is_valid && is_alive s eid) then s
  else
    let e := evGet s eid.index
    if e.desc.type ≠ .Repeat then s
    else
      let s := { s with
        events := s.events.set eid.index
          { e with next_fire := e.next_fire + e.desc.interval_ms } }
      pqPush s eid

/-- `rebuild_pq`'s drain loop; `acc` is the fresh heap `tmp` in push order. -/
def rebuildAux : Nat → Sched → List EventID → Sched
  | 0, s, acc => { s with pq := acc, cancelled := 0 }
  | fuel + 1, s, acc =>
    match s.pq with
    | [] => { s with pq := acc, cancelled := 0 }
    | _ :: _ =>
      let eid := pqTopGet s
      let s := pqPop s
      let (ok, s) := try_reuse s eid
      if ok then rebuildAux fuel s acc
      else rebuildAux fuel s (acc ++ [eid])

/-- `rebuild_pq`. -/
def rebuild_pq (s : Sched) : Sched := rebuildAux s.pq.length s []

/-- `cancel`. -/
def cancel (s : Sched) (eid : EventID) : Bool × Sched :=
  if ¬(eid.is_valid && is_alive s eid) then (false, s)
  else
    let e := evGet s eid.index
    if e.status = .Cancelled then (false, s)
    else
      let s := { s with
        events := s.events.set eid.index { e with status := .Cancelled }
        alive := decSize s.alive
        cancelled := s.cancelled + 1 }
      if s.cancelled > s.alive then (true, rebuild_pq s) else (true, s)

/-- `schedule_after`.  The returned handle is also recorded in the ghost
`issued` list.  A `Repeat` descriptor with a non-positive interval violates
the asserted contract and is a no-op returning the invalid handle. -/
def schedule_after (s : Sched) (time_ms : Int) (cb : Callback)
    (type : EventType := .Once) (interval_ms : Int := 0)
    (ep : ExceptionPolicy := .Swallow) (pri : EventPriority := .User)
    (cu : CatchUp := .All) : EventID × Sched :=
  if type = .Repeat ∧ interval_ms ≤ 0 then (EventID.invalid, s)
  else
    let (eid0, s) := if s.fl.isEmpty then append s else pop_fl s
    let d : EventDesc :=
      { type := type, interval_ms := interval_ms, callback := cb, ep := ep
        pri := pri, cu := cu }
    let next_fire := s.current + time_ms
    let eid : EventID := ⟨eid0.index, eid0.gen + s.pending_clear⟩
    let s :=
      if s.ticking then add_schedule s next_fire d eid
      else set_event s next_fire d eid
    (eid, { s with issued := s.issued ++ [eid] })

/-- `schedule_at`. -/
def schedule_at (s : Sched) (time_ms : Int) (cb : Callback)
    (type : EventType := .Once) (interval_ms : Int := 0)
    (ep : ExceptionPolicy := .Swallow) (pri : EventPriority := .User)
    (cu : CatchUp := .All) : EventID × Sched :=
  schedule_after s (time_ms - s.current) cb type interval_ms ep pri cu

/-- `set_next_fire` (public).  Contract-guarded by `_assert_eid`; a no-op when
the target already fires at `next_fire`; journaled when called during a tick
with `next_fire ≤ current`, applied immediately otherwise. -/
def set_next_fire (s : Sched) (eid : EventID) (next_fire : Int) : Sched :=
  if ¬(eid.is_valid && is_alive s eid) then s
  else
    let e := evGet s eid.index
    if e.next_fire = next_fire then s
    else if s.ticking ∧ next_fire ≤ s.current then add_delay s eid next_fire
    else default_set_next_fire s eid next_fire

/-- `delay`. -/
def delay (s : Sched) (eid : EventID) (ms : Int) : Sched :=
  set_next_fire s eid ((evGet s eid.index).next_fire + ms)

/-- `clear` (public). -/
def clear (s : Sched) : Sched :=
  if s.ticking then add_clear s else default_clear s

/-- `pause`. -/
def pause (s : Sched) : Sched := { s with paused := true }

/-- `set_interval` (scheduler.hpp:504-510).  Contract-guarded by
`_assert_eid` and by the asserts `type == Repeat` and `new_interval > 0`;
a direct descriptor write, in or out of a dispatch window. -/
def set_interval (s : Sched) (eid : EventID) (new_interval : Int) : Sched :=
  if ¬(eid.is_valid && is_alive s eid) then s
  else
    let e := evGet s eid.index
    if ¬(e.desc.type = .Repeat ∧ 0 < new_interval) then s
    else { s with
      events := s.events.set eid.index
        { e with desc := { e.desc with interval_ms := new_interval } } }

/-- `set_type` (scheduler.hpp:512-515): a direct descriptor write. -/
def set_type (s : Sched) (eid : EventID) (new_type : EventType) : Sched :=
  if ¬(eid.is_valid && is_alive s eid) then s
  else
    let e := evGet s eid.index
    { s with
      events := s.events.set eid.index
        { e with desc := { e.desc with type := new_type } } }

/-- `set_exp_policy` (scheduler.hpp:517-520): a direct descriptor write. -/
def set_exp_policy (s : Sched) (eid : EventID) (new_policy : ExceptionPolicy) :
    Sched :=
  if ¬(eid.is_valid && is_alive s eid) then s
  else
    let e := evGet s eid.index
    { s with
      events := s.events.set eid.index
        { e with desc := { e.desc with ep := new_policy } } }

/-- `set_priority` (scheduler.hpp:522-525): a direct descriptor write — it
edits a pending event's comparator key in place, with no generation bump
and no re-push. -/
def set_priority (s : Sched) (eid : EventID) (new_pri : EventPriority) :
    Sched :=
  if ¬(eid.is_valid && is_alive s eid) then s
  else
    let e := evGet s eid.index
    { s with
      events := s.events.set eid.index
        { e with desc := { e.desc with pri := new_pri } } }

/-- `set_catchup` (scheduler.hpp:527-530): a direct descriptor write. -/
def set_catchup (s : Sched) (eid : EventID) (new_cu : CatchUp) : Sched :=
  if ¬(eid.is_valid && is_alive s eid) then s
  else
    let e := evGet s eid.index
    { s with
      events := s.events.set eid.index
        { e with desc := { e.desc with cu := new_cu } } }

/-- Interpret one re-entrant callback command (the public call it denotes). -/
def execCmd (s : Sched) : Cmd → Sched
  | .schedule t ty iv ep pri cu cb =>
    (schedule_after s t cb ty iv ep pri cu).2
  | .cancel eid => (cancel s eid).2
  | .clear => clear s
  | .set_next_fire eid nf => set_next_fire s eid nf
  | .delay eid ms => delay s eid ms
  | .set_interval eid ms => set_interval s eid ms
  | .set_type eid ty => set_type s eid ty
  | .set_exp_policy eid p => set_exp_policy s eid p
  | .set_priority eid p => set_priority s eid p
  | .set_catchup eid cu => set_catchup s eid cu
  | .pause => pause s

def execCmds (s : Sched) : List Cmd → Sched
  | [] => s
  | c :: cs => execCmds (execCmd s c) cs

/-- `fire_top`.  Increments `fire_count`, pops the top, and when the record is
alive invokes its callback and retires (`reuse`) or reschedules it.  The
fired key is recorded in the ghost `log`. -/
def fire_top (s : Sched) : Sched :=
  let s := { s with fire_count := s.fire_count + 1 }
  let top := pqTopGet s
  let s := pqPop s
  let e := evGet s top.index
  if e.status ≠ .Alive then s
  else
    let s := { s with
      log := s.log ++
        [{ index := top.index, gen := top.gen, next_fire := e.next_fire
           rank := e.desc.pri.rank }] }
    let s := execCmds s e.desc.callback
    let e := evGet s top.index
    if e.desc.type = .Repeat ∧ e.status ≠ .Cancelled then reschedule s top
    else reuse s top

/-- `try_skip_repeat`. -/
def try_skip_repeat (s : Sched) : Bool × Sched :=
  let top := pqTopGet s
  let e := evGet s top.index
  if e.desc.type ≠ .Repeat then (false, s)
  else if e.desc.cu ≠ .Latest then (false, s)
  else
    let delta := s.current - e.next_fire
    if delta ≤ 0 then (false, s)
    else
      let ts := delta.tdiv e.desc.interval_ms
      if ts = 0 then (false, s)
      else
        let s := pqPop s
        let s := { s with
          events := s.events.set top.index
            { e with next_fire := e.next_fire + ts * e.desc.interval_ms } }
        (true, pqPush s top)

/-- `try_skip_old`. -/
def try_skip_old (s : Sched) : Bool × Sched :=
  let eid := pqTopGet s
  if eid.gen = genGet s eid.index then (false, s)
  else (true, pqPop s)

/-- The dispatch loop of `tick` (fuel-bounded). -/
def tickLoop : Nat → Sched → Sched
  | 0, s => s
  | fuel + 1, s =>
    if s.pq.isEmpty then s
    else
      let (b, s1) := try_pop_cancelled s
      if b then tickLoop fuel s1
      else
        let (b, s2) := try_skip_old s1
        if b then tickLoop fuel s2
        else
          let (b, s3) := try_skip_repeat s2
          if b then tickLoop fuel s3
          else
            let top := pqTopGet s3
            let e := evGet s3 top.index
            if s3.current < e.next_fire then s3
            else tickLoop fuel (fire_top s3)

/-- `tick`.  `fuel` bounds the dispatch loop; every property proved below
holds for every fuel value.  The `!ticking` precondition is contract-guarded;
the `TickGuard` scope is the `ticking := true` window around the loop, with
the journal flushed and `pending_clear` reset on exit. -/
def tick (s : Sched) (delta_ms : Int) (fuel : Nat) : Sched :=
  if s.ticking then s
  else
    let (b, s) := try_update_pause s delta_ms
    if b then s
    else
      let s := { s with ticking := true, current := s.current + delta_ms }
      let s := tickLoop fuel s
      let s := flush_delay_ops s
      { s with pending_clear := 0, ticking := false }

/-- `tick_until`. -/
def tick_until (s : Sched) (end_time : Int) (fuel : Nat) : Sched :=
  if end_time ≤ s.current then s
  else tick s (end_time - s.current) fuel

/-- `peek`. -/
def peek (s : Sched) : Option (EventID × TimeMs) :=
  if s.pq.isEmpty then none
  else
    let eid := pqTopGet s
    some (eid, (evGet s eid.index).next_fire)

/-- The dispatch loop of `run` (note the source order: cancelled filter, then
repeat collapse, then stale filter). -/
def runLoop : Nat → Sched → Sched
  | 0, s => s
  | fuel + 1, s =>
    if s.pq.isEmpty then s
    else
      let (b, s1) := try_pop_cancelled s
      if b then runLoop fuel s1
      else
        let (b, s2) := try_skip_repeat s1
        if b then runLoop fuel s2
        else
          let (b, s3) := try_skip_old s2
          if b then runLoop fuel s3
          else
            let top := pqTopGet s3
            let e := evGet s3 top.index
            let s4 := { s3 with current := e.next_fire }
            runLoop fuel (fire_top s4)

/-- `run`. -/
def run (s : Sched) (fuel : Nat) : Sched :=
  if s.ticking then s
  else if s.paused then s
  else
    let s := { s with ticking := true }
    let s := runLoop fuel s
    let s := flush_delay_ops s
    { s with pending_clear := 0, ticking := false }

/-- `resume`. -/
def resume (s : Sched) (fuel : Nat) : Sched :=
  let s := { s with paused := false }
  let s := tick s s.paused_time fuel
  { s with paused_time := 0 }

/-!
### Derived notions used by the theorems

The comparator of §4.7 is the lexicographic strict order on the key
`(next_fire, priority rank, slot index)`; `key` reads that key off a queue
entry exactly as `EventCompare` reads the records.
-/

abbrev Key := Int × Nat × Nat

def key (s : Sched) (e : EventID) : Key :=
  ((evGet s e.index).next_fire, (evGet s e.index).desc.pri.rank, e.index)

/-- Strict lexicographic order on keys: ascending `next_fire`, then ascending
priority rank (System < User < Debug), then ascending slot index. -/
def keyLt (a b : Key) : Prop :=
  a.1 < b.1 ∨ (a.1 = b.1 ∧ (a.2.1 < b.2.1 ∨ (a.2.1 = b.2.1 ∧ a.2.2 < b.2.2)))

instance (a b : Key) : Decidable (keyLt a b) := by unfold keyLt; infer_instance

/-- The key of a ghost fire record. -/
def fireKey (r : FireRec) : Key := (r.next_fire, r.rank, r.index)

/-- The ghost record `fire_top` logs for the current queue top. -/
def fireRec (s : Sched) : FireRec :=
  { index := (pqTopGet s).index, gen := (pqTopGet s).gen,
    next_fire := (evGet s (pqTopGet s).index).next_fire,
    rank := (evGet s (pqTopGet s).index).desc.pri.rank }

/-- Top-level operations of the public contract (§4.1), each carrying the
fuel its dispatch loop may consume. -/
inductive TopOp where
  | schedule_after (time_ms : Int) (cb : Callback) (type : EventType)
      (interval_ms : Int) (ep : ExceptionPolicy) (pri : EventPriority)
      (cu : CatchUp)
  | schedule_at (time_ms : Int) (cb : Callback) (type : EventType)
      (interval_ms : Int) (ep : ExceptionPolicy) (pri : EventPriority)
      (cu : CatchUp)
  | cancel (eid : EventID)
  | clear
  | tick (delta_ms : Int) (fuel : Nat)
  | tick_until (end_time : Int) (fuel : Nat)
  | run (fuel : Nat)
  | pause
  | resume (fuel : Nat)
  | set_next_fire (eid : EventID) (next_fire : Int)
  | delay (eid : EventID) (ms : Int)

def execOp (s : Sched) : TopOp → Sched
  | .schedule_after t cb ty iv ep pri cu =>
    (schedule_after s t cb ty iv ep pri cu).2
  | .schedule_at t cb ty iv ep pri cu => (schedule_at s t cb ty iv ep pri cu).2
  | .cancel eid => (cancel s eid).2
  | .clear => clear s
  | .tick d fuel => tick s d fuel
  | .tick_until t fuel => tick_until s t fuel
  | .run fuel => run s fuel
  | .pause => pause s
  | .resume fuel => resume s fuel
  | .set_next_fire eid nf => set_next_fire s eid nf
  | .delay eid ms => delay s eid ms

def execOps (s : Sched) : List TopOp → Sched
  | [] => s
  | op :: ops => execOps (execOp s op) ops

/-- Structural consistency of a scheduler at rest, the facts §3 states as
invariants between operations: every queue entry is in range, slots are
referenced by at most one entry, `alive`/`cancelled` count the queue entries
whose record is alive resp. cancelled, every alive slot is referenced, and
`cancelled ≤ alive` (the rebuild rule's residue). -/
def Consistent (s : Sched) : Prop :=
  (∀ e ∈ s.pq, e.index < s.events.length) ∧
  (s.pq.map EventID.index).Nodup ∧
  s.alive = s.pq.countP (fun e => decide ((evGet s e.index).status = .Alive)) ∧
  s.cancelled =
    s.pq.countP (fun e => decide ((evGet s e.index).status = .Cancelled)) ∧
  (∀ i ∈ List.range s.events.length,
    (evGet s i).status = .Alive → i ∈ s.pq.map EventID.index) ∧
  s.cancelled ≤ s.alive

instance (s : Sched) : Decidable (Consistent s) := by
  unfold Consistent; infer_instance

/-- The generation table covers the slab (`gens` and `events` are grown and
cleared together). -/
def GensLen (s : Sched) : Prop := s.gens.length = s.events.length

instance (s : Sched) : Decidable (GensLen s) := by
  unfold GensLen; infer_instance

/-- Generation bound: no queue entry is ahead of its slot's generation. -/
def GenB (s : Sched) : Prop := ∀ e ∈ s.pq, e.gen ≤ genGet s e.index

instance (s : Sched) : Decidable (GenB s) := by
  unfold GenB; infer_instance

/-- Every `Repeat` descriptor in the slab has a positive interval (the
precondition `schedule_after` asserts; reads past the slab default to the
`Once` descriptor, so the bounded quantifier covers every read). -/
def RepPos (s : Sched) : Prop :=
  ∀ i ∈ List.range s.events.length,
    (evGet s i).desc.type = .Repeat → 0 < (evGet s i).desc.interval_ms

instance (s : Sched) : Decidable (RepPos s) := by
  unfold RepPos; infer_instance

/-- Per-slot uniqueness of the current-generation queue entry: the entry
`(i, gens[i])` occurs at most once in the queue. -/
def CurCnt (s : Sched) : Prop :=
  ∀ e ∈ s.pq, s.pq.count (⟨e.index, genGet s e.index⟩ : EventID) ≤ 1

instance (s : Sched) : Decidable (CurCnt s) := by
  unfold CurCnt; infer_instance

/-- Every free-list slot's record is `Cancelled` (retirement marks the slot
before the index is recycled). -/
def FlCanc (s : Sched) : Prop :=
  ∀ i ∈ s.fl, (evGet s i).status = .Cancelled

instance (s : Sched) : Decidable (FlCanc s) := by
  unfold FlCanc; infer_instance

/-- The comparator order on ghost fire records. -/
def fireLt (a b : FireRec) : Prop := keyLt (fireKey a) (fireKey b)

instance (a b : FireRec) : Decidable (fireLt a b) := by
  unfold fireLt; infer_instance

instance : IsTrans FireRec fireLt :=
  ⟨fun a b c h1 h2 => by
    unfold fireLt keyLt at h1 h2 ⊢
    omega⟩

/-- The key of the last event fired in the current dispatch window (`n` is
the log length when the window opened). -/
def lastK (n : Nat) (s : Sched) : Option Key :=
  ((s.log.drop n).getLast?).map fireKey

/-- Every record fired in the current window carries a generation that is
still bounded by its slot's counter, and an in-range slot. -/
def LogG (n : Nat) (s : Sched) : Prop :=
  ∀ r ∈ s.log.drop n, r.gen ≤ genGet s r.index ∧ r.index < s.events.length

/-- Free-list slots are strictly ahead (in generation) of every record fired
on them in the current window. -/
def FlGen (n : Nat) (s : Sched) : Prop :=
  ∀ i ∈ s.fl, ∀ r ∈ s.log.drop n, r.index = i → r.gen < genGet s i

/-- Handles issued inside the current dispatch window (`m` is the issued
count when the window opened): their slot is still `Cancelled` (installation
happens only at the journal flush), and no record fired in this window
matches them. -/
def IssNew (m n : Nat) (s : Sched) : Prop :=
  ∀ h ∈ s.issued.drop m, (evGet s h.index).status = .Cancelled ∧
    ∀ r ∈ s.log.drop n, ¬(r.index = h.index ∧ r.gen = h.gen)

/-- Strict lower bound: every live current-generation queue entry sorts
strictly after `κ`. -/
def LBs (κ : Key) (s : Sched) : Prop :=
  ∀ e ∈ s.pq, e.gen = genGet s e.index →
    (evGet s e.index).status = .Alive → keyLt κ (key s e)

def OptLB : Option Key → Sched → Prop
  | none, _ => True
  | some κ, s => LBs κ s

def OptNfLe : Option Key → Int → Prop
  | none, _ => True
  | some κ, c => κ.1 ≤ c

/-- Statuses can only move from `Alive` to `Cancelled` between `s` and `s'`
(slots alive in `s'` were alive in `s`; out-of-range reads default to
`Cancelled`, so this also covers freshly appended slots). -/
def statusLe (s s' : Sched) : Prop :=
  ∀ i, (evGet s' i).status = .Alive → (evGet s i).status = .Alive

/-- The dispatch-window invariant: `n`/`m` are the log/issued lengths when
the window opened.  Beyond the structural components, it carries the strict
lower bound at the key of the last fire of the window and the
comparator-sortedness of the window's fire log. -/
structure MInv (n m : Nat) (s : Sched) : Prop where
  tk : s.ticking = true
  glen : GensLen s
  genb : GenB s
  reppos : RepPos s
  curcnt : CurCnt s
  flcanc : FlCanc s
  logg : LogG n s
  flgen : FlGen n s
  issnew : IssNew m n s
  nlog : n ≤ s.log.length
  miss : m ≤ s.issued.length
  optlb : OptLB (lastK n s) s
  optnf : OptNfLe (lastK n s) s.current
  chain : (s.log.drop n).Chain' fireLt

/-- The facts one re-entrant callback command preserves between `s` and the
state it returns: the clock, the fire log and the slab length are framed,
generations only grow, a slot whose generation did not move keeps its firing
time and descriptor, statuses only move towards `Cancelled`, and no queue
entry at a generation the slot had already reached gains occurrences. -/
def CbStep (s s' : Sched) : Prop :=
  s'.ticking = s.ticking ∧
  s'.current = s.current ∧
  s'.log = s.log ∧
  s.events.length ≤ s'.events.length ∧
  (∀ i, genGet s i ≤ genGet s' i) ∧
  (∀ i, genGet s' i = genGet s i →
    (evGet s' i).next_fire = (evGet s i).next_fire ∧
    (evGet s' i).desc = (evGet s i).desc) ∧
  statusLe s s' ∧
  (∀ v : EventID, v.gen ≤ genGet s v.index → s'.pq.count v ≤ s.pq.count v)

/-- Permanent death of a handle relative to a pending journal `ops`: the
slot is in range, any journaled clear has been counted in `pending_clear`,
and either the slot's generation has moved past the handle, or the handle
is exactly current but its slot is retired — `Cancelled`, not on the free
list, and not the target of any journaled schedule. -/
def DeadF (h : EventID) (ops : List Op) (s : Sched) : Prop :=
  GensLen s ∧ h.index < s.events.length ∧
  (Op.clear ∈ ops → 1 ≤ s.pending_clear) ∧
  (h.gen < genGet s h.index ∨
    (h.gen = genGet s h.index ∧ (evGet s h.index).status = .Cancelled ∧
      h.index ∉ s.fl ∧
      ∀ nf d eid, Op.schedule nf d eid ∈ ops → eid.index ≠ h.index))

/-- Permanent death of a handle (journal = the state's own journal). -/
def DeadP (h : EventID) (s : Sched) : Prop := DeadF h s.delay_ops s

/-- Whether a top-level operation is the `clear()` call. -/
def TopOp.isClear : TopOp → Bool
  | .clear => true
  | _ => false

/-- Whether a re-entrant command is one of the descriptor setters
(`set_interval`/`set_type`/`set_exp_policy`/`set_priority`/`set_catchup`) —
the calls that edit a pending event's comparator data in place. -/
def Cmd.isSetter : Cmd → Bool
  | .set_interval _ _ => true
  | .set_type _ _ => true
  | .set_exp_policy _ _ => true
  | .set_priority _ _ => true
  | .set_catchup _ _ => true
  | _ => false

/-- Whether a re-entrant command is a `schedule_*` call. -/
def Cmd.isSchedule : Cmd → Bool
  | .schedule _ _ _ _ _ _ _ => true
  | _ => false

/-- No callback stored in the slab uses a descriptor setter.  Only the
top-level commands matter: a nested callback is installed by `set_event` at
a journal flush and cannot run in the current window. -/
def CbOk (s : Sched) : Prop :=
  ∀ i, ∀ c ∈ (evGet s i).desc.callback, c.isSetter = false

instance (s : Sched) : Decidable (CbOk s) :=
  decidable_of_iff (∀ i ∈ List.range s.events.length,
      ∀ c ∈ (evGet s i).desc.callback, c.isSetter = false) (by
    constructor
    · intro h i c hc
      by_cases hi : i < s.events.length
      · exact h i (List.mem_range.mpr hi) c hc
      · rw [show evGet s i = {} from
          List.getD_eq_default _ _ (by omega)] at hc
        exact absurd hc (List.not_mem_nil c)
    · intro h i _ c hc
      exact h i c hc)

/-- The window invariant for handle freshness (the part of the dispatch
story that survives arbitrary re-entrant callbacks, descriptor setters
included): generations cover and bound the queue, free-list slots are
retired, window fires are generation-bounded and behind every free-list
slot they touched, and window-issued handles sit on `Cancelled` slots and
match no window fire. -/
structure WInv (n m : Nat) (s : Sched) : Prop where
  tk : s.ticking = true
  glen : GensLen s
  genb : GenB s
  flcanc : FlCanc s
  logg : LogG n s
  flgen : FlGen n s
  issnew : IssNew m n s
  nlog : n ≤ s.log.length
  miss : m ≤ s.issued.length

/-!
### Concrete scenario states

Each `cNsK` state is reached from the fresh scheduler by the public calls
listed in its comment.
-/

/-- C1: `tick(5); pause(); tick(3); clear()`. -/
def c1s : Sched := clear (tick (pause (tick fresh 5 1)) 3 1)

/-- C4: `h = schedule_after(5, f)` (handle `(0,0)`). -/
def c4s1 : Sched := (schedule_after fresh 5 []).2

/-- C4: then `clear()`. -/
def c4s2 : Sched := clear c4s1

/-- C4: then `schedule_after(7, g)`. -/
def c4s3 : Sched := (schedule_after c4s2 7 []).2

/-- C4 (amended): a scheduler at rest holding a dead handle `(0,0)` — one
event scheduled and then cancelled, which triggers a rebuild that retires
slot 0 with a generation bump (`gens = [1]`, `fl = [0]`). -/
def c4rs : Sched := (cancel (schedule_after fresh 5 []).2 ⟨0, 0⟩).2

/-- C4 (amended): a clear-free operation sequence to run after `c4rs`. -/
def c4ops : List TopOp :=
  [.schedule_after 3 [] .Once 0 .Swallow .User .All, .tick 10 5, .run 5]

/-- C5: the trigger's callback — schedule, then `clear()`, then two more
schedules (all `Once` at delay 0 with empty callbacks). -/
def c5cb : Callback :=
  [.schedule 0 .Once 0 .Swallow .User .All [],
   .clear,
   .schedule 0 .Once 0 .Swallow .User .All [],
   .schedule 0 .Once 0 .Swallow .User .All []]

/-- C5: the trigger's descriptor (callback `c5cb`). -/
def c5d0 : EventDesc :=
  { type := .Once, interval_ms := 0, callback := c5cb, ep := .Swallow,
    pri := .User, cu := .All }

/-- C5: a plain `Once` descriptor with an empty callback. -/
def c5d1 : EventDesc :=
  { type := .Once, interval_ms := 0, callback := [], ep := .Swallow,
    pri := .User, cu := .All }

/-- C5: the trigger scheduled at `T` plus a bystander event at `T + d`. -/
def c5pre (T d : Int) : Sched :=
  (schedule_after (schedule_after fresh T c5cb).2 (T + d) []).2

/-- C5: the dispatch pass — `tick(T)` on `c5pre`. -/
def c5post (T d : Int) : Sched := tick (c5pre T d) T 3

/-- C5 window snapshot at loop entry: trigger (slot 0, due at `a`) and
bystander (slot 1, due at `b`), window open, clock at `a`. -/
def c5w1 (a b : Int) : Sched :=
  { events := [{ desc := c5d0, status := .Alive, next_fire := a },
               { desc := c5d1, status := .Alive, next_fire := b }]
    pq := [⟨0, 0⟩, ⟨1, 0⟩]
    gens := [0, 0]
    current := a
    alive := 2
    ticking := true
    issued := [⟨0, 0⟩, ⟨1, 0⟩] }

/-- C5 window snapshot after the trigger fires: slots 2–4 eagerly
allocated, the journal holding the clear and the two post-clear schedules
(the pre-clear schedule's op was discarded by `add_clear`), the post-clear
handles generation-offset by `pending_clear = 1`. -/
def c5w2 (a b : Int) : Sched :=
  { events := [{ desc := c5d0, status := .Cancelled, next_fire := a },
               { desc := c5d1, status := .Alive, next_fire := b },
               {}, {}, {}]
    pq := [⟨1, 0⟩]
    fl := [0]
    gens := [1, 0, 0, 0, 0]
    delay_ops := [Op.clear, Op.schedule a c5d1 ⟨3, 1⟩,
      Op.schedule a c5d1 ⟨4, 1⟩]
    current := a
    alive := 1
    fire_count := 1
    pending_clear := 1
    ticking := true
    log := [{ index := 0, gen := 0, next_fire := a, rank := 1 }]
    issued := [⟨0, 0⟩, ⟨1, 0⟩, ⟨2, 0⟩, ⟨3, 1⟩, ⟨4, 1⟩] }

/-- C5 snapshot after the journal flush: the clear retired every slot and
added `pending_clear = 1` to every generation, then the two post-clear
schedules were installed in slots 3 and 4 at generation 1. -/
def c5w3 (a b : Int) : Sched :=
  { events := [{ desc := c5d0, status := .Cancelled, next_fire := a },
               { desc := c5d1, status := .Cancelled, next_fire := b },
               {},
               { desc := c5d1, status := .Alive, next_fire := a },
               { desc := c5d1, status := .Alive, next_fire := a }]
    pq := [⟨3, 1⟩, ⟨4, 1⟩]
    fl := [0, 1, 2]
    gens := [2, 1, 1, 1, 1]
    current := a
    alive := 2
    pending_clear := 1
    ticking := true
    log := [{ index := 0, gen := 0, next_fire := a, rank := 1 }]
    issued := [⟨0, 0⟩, ⟨1, 0⟩, ⟨2, 0⟩, ⟨3, 1⟩, ⟨4, 1⟩] }

/-- A C5 journal entry — the `(next_fire, descriptor, handle)` of one
post-clear schedule — as the `Op` it journals. -/
def c5op (x : Int × EventDesc × EventID) : Op := Op.schedule x.1 x.2.1 x.2.2

/-- A C5 journal entry's eagerly issued handle. -/
def c5eid (x : Int × EventDesc × EventID) : EventID := x.2.2

/-- Mid-callback invariant after a re-entrant `clear()` followed by some
schedules: the journal holds exactly the clear and the post-clear schedules
`J`; their handles are offset by the incremented `pending_clear`, target
pairwise distinct slots that are off the free list, and form the tail of
`issued`; generations are untouched since the window state `s`. -/
def C5Inv (s u : Sched) (J : List (Int × EventDesc × EventID)) : Prop :=
  u.ticking = true ∧
  u.pending_clear = s.pending_clear + 1 ∧
  GensLen u ∧
  (∀ i, genGet u i = genGet s i) ∧
  s.events.length ≤ u.events.length ∧
  u.fl.Nodup ∧
  (∀ i ∈ u.fl, i < s.events.length) ∧
  u.delay_ops = Op.clear :: J.map c5op ∧
  u.issued = s.issued ++ J.map c5eid ∧
  (J.map (fun x => (c5eid x).index)).Nodup ∧
  (∀ x ∈ J, (c5eid x).index < u.events.length ∧ (c5eid x).index ∉ u.fl ∧
    (c5eid x).gen = genGet s (c5eid x).index + s.pending_clear + 1)

/-- From an in-window state `s`, run a callback tail `clear() ; post…` and
then exit the dispatch window exactly as `tick` does: flush the journal,
zero `pending_clear`, drop `ticking`. -/
def c5exit (s : Sched) (post : List Cmd) : Sched :=
  { flush_delay_ops (execCmds s (Cmd.clear :: post)) with
    pending_clear := 0, ticking := false }

/-- C5 witness state: a mid-window scheduler with one retired slot on the
free list. -/
def c5wit : Sched := { events := [{}], gens := [0], fl := [0], ticking := true }

/-- C5 witness callback tail: one post-clear `schedule_after(5, …)`. -/
def c5post0 : List Cmd := [.schedule 5 .Once 0 .Swallow .User .All []]

/-- C6: `schedule_after(5, f, Repeat, interval 5, catchup Latest)` at `t₀ = 0`
then `tick(5)` (so `k = 5`, `n = 1`). -/
def c6s : Sched :=
  tick ((schedule_after fresh 5 [] .Repeat 5 .Swallow .User .Latest).2) 5 6

/-- C7: three events due at 10, one at 500, four at 1000–1003. -/
def c7s8 : Sched :=
  (schedule_after (schedule_after (schedule_after (schedule_after
    (schedule_after (schedule_after (schedule_after (schedule_after
      fresh 10 []).2 10 []).2 10 []).2
        500 []).2 1000 []).2 1001 []).2 1002 []).2 1003 []).2

/-- C7: then cancel the four far-future events (handles `(4,0)`–`(7,0)`). -/
def c7s12 : Sched :=
  (cancel (cancel (cancel (cancel c7s8 ⟨4, 0⟩).2 ⟨5, 0⟩).2 ⟨6, 0⟩).2 ⟨7, 0⟩).2

/-- C7: then `tick(10)`, firing the three due events. -/
def c7s13 : Sched := tick c7s12 10 20

/-- C8: `schedule_after(5, f)`, `schedule_after(10, g)`, `cancel((0,0))`. -/
def c8s : Sched :=
  (cancel ((schedule_after ((schedule_after fresh 5 []).2) 10 []).2) ⟨0, 0⟩).2

/-- C9: `schedule_after(0, f)` on a fresh scheduler. -/
def c9s : Sched := (schedule_after fresh 0 []).2

/-- C10 witness state: one live event `(0,0)` firing at 5. -/
def c10s : Sched := (schedule_after fresh 5 []).2

/-- C2 witness state: three events due at 100 with priorities `User`,
`System`, `Debug`. -/
def c2w : Sched :=
  (schedule_after (schedule_after (schedule_after
    fresh 100 [] .Once 0 .Swallow .User).2
      100 [] .Once 0 .Swallow .System).2
        100 [] .Once 0 .Swallow .Debug).2

/-- C2 counterexample state: event `(0,0)` due at 100 with priority `User`,
whose callback promotes event `(1,0)` — also due at 100, initially priority
`Debug` — to `System` mid-dispatch. -/
def c2x : Sched :=
  (schedule_after (schedule_after
    fresh 100 [ .set_priority ⟨1, 0⟩ .System ] .Once 0 .Swallow .User).2
      100 [] .Once 0 .Swallow .Debug).2

/-- C3 witness state: one event due at 0 whose callback schedules another
event with `schedule_after(0, …)`. -/
def c3w : Sched :=
  (schedule_after fresh 0 [ .schedule 0 .Once 0 .Swallow .User .All [] ]).2

/-- C6: a scheduler at rest at time `t0` (the state `tick(t0)` on a fresh
scheduler reaches). -/
def c6base (t0 : Int) : Sched := { current := t0 }

/-- C6: the descriptor of the `Repeat`/`Latest` event with interval `k`. -/
def c6desc (k : Int) : EventDesc :=
  { type := .Repeat, interval_ms := k, callback := [], ep := .Swallow,
    pri := .User, cu := .Latest }

/-- C6: the single-repeat state during the dispatch window: one `Repeat`
event with interval `k` and `catchup = Latest` in slot 0, firing next at
`nf`, with clock `cur`, fire count `fc` and fire log `lg`. -/
def c6st (k cur nf : Int) (fc : Nat) (lg : List FireRec) : Sched :=
  { events := [{ desc := c6desc k, status := .Alive, next_fire := nf }]
    pq := [⟨0, 0⟩]
    gens := [0]
    current := cur
    alive := 1
    fire_count := fc
    ticking := true
    log := lg
    issued := [⟨0, 0⟩] }

/-- C6: `schedule_after(k, f, Repeat, k, Latest)` at time `t0`, then
`tick(n·k)`. -/
def c6run (t0 k n : Int) : Sched :=
  tick (schedule_after (c6base t0) k [] .Repeat k .Swallow .User .Latest).2
    (n * k) 4

/-! ### General lemmas about the comparator and the queue top -/

theorem keyLt_irrefl (a : Key) : ¬ keyLt a a := by
  unfold keyLt; omega

theorem keyLt_trans {a b c : Key} (h1 : keyLt a b) (h2 : keyLt b c) :
    keyLt a c := by
  unfold keyLt at *; omega

theorem keyLt_of_not_lt_of_lt {a b c : Key} (h1 : ¬ keyLt b a)
    (h2 : keyLt b c) : keyLt a c := by
  unfold keyLt at *; omega

theorem keyLt_total_eq {a b : Key} (h1 : ¬ keyLt a b) (h2 : ¬ keyLt b a) :
    a = b := by
  obtain ⟨a1, a2, a3⟩ := a
  obtain ⟨b1, b2, b3⟩ := b
  unfold keyLt at h1 h2
  dsimp only at h1 h2
  simp only [Prod.mk.injEq]
  omega

theorem rank_inj {p q : EventPriority} (h : p.rank = q.rank) : p = q := by
  cases p <;> cases q <;> simp_all [EventPriority.rank]

/-- The source comparator `EventCompare::operator()` decides exactly the
strict key order: `lhs` sorts after `rhs` iff `key rhs < key lhs`. -/
theorem cmpAfter_iff_keyLt (s : Sched) (a b : EventID) :
    cmpAfter s a b = true ↔ keyLt (key s b) (key s a) := by
  unfold cmpAfter tie_break key keyLt
  dsimp only
  split_ifs with h1 h2
  · have hr : (evGet s a.index).desc.pri.rank =
        (evGet s b.index).desc.pri.rank := by rw [h2]
    simp only [decide_eq_true_eq]
    constructor
    · intro h; omega
    · intro h; omega
  · have hr : (evGet s a.index).desc.pri.rank ≠
        (evGet s b.index).desc.pri.rank := fun hc => h2 (rank_inj hc)
    simp only [decide_eq_true_eq]
    constructor
    · intro h; omega
    · intro h; omega
  · simp only [decide_eq_true_eq]
    constructor
    · intro h; omega
    · intro h; omega

private theorem pqFold_spec (s : Sched) (l : List EventID) :
    ∀ e : EventID,
      (l.foldl (fun b x => if cmpAfter s b x then x else b) e ∈ e :: l) ∧
      (∀ x ∈ e :: l,
        ¬ keyLt (key s x)
          (key s (l.foldl (fun b x => if cmpAfter s b x then x else b) e))) := by
  induction l with
  | nil =>
    intro e
    refine ⟨by simp, ?_⟩
    intro x hx
    simp only [List.mem_singleton] at hx
    subst hx
    simpa using keyLt_irrefl (key s x)
  | cons y t ih =>
    intro e
    rw [List.foldl_cons]
    by_cases hc : cmpAfter s e y = true
    · have h1 := (cmpAfter_iff_keyLt s e y).mp hc
      obtain ⟨hmem, hmin⟩ := ih y
      rw [if_pos hc]
      constructor
      · rcases List.mem_cons.mp hmem with h | h
        · rw [h]; simp
        · simp [h]
      · intro x hx
        rcases List.mem_cons.mp hx with h | h
        · rw [h]
          intro hlt
          exact hmin y (by simp) (keyLt_trans h1 hlt)
        · exact hmin x h
    · have h1 : ¬ keyLt (key s y) (key s e) := fun h =>
        hc ((cmpAfter_iff_keyLt s e y).mpr h)
      obtain ⟨hmem, hmin⟩ := ih e
      rw [if_neg hc]
      constructor
      · rcases List.mem_cons.mp hmem with h | h
        · rw [h]; simp
        · simp [h]
      · intro x hx
        rcases List.mem_cons.mp hx with h | h
        · rw [h]; exact hmin e (by simp)
        · rcases List.mem_cons.mp h with h | h
          · rw [h]
            intro hlt
            exact hmin e (by simp) (keyLt_of_not_lt_of_lt h1 hlt)
          · exact hmin x (by simp [h])

theorem pqTopGet_mem {s : Sched} (h : s.pq ≠ []) : pqTopGet s ∈ s.pq := by
  unfold pqTopGet
  match hp : s.pq with
  | [] => exact absurd hp h
  | e :: rest =>
    have := (pqFold_spec s rest e).1
    simpa using this

theorem pqTopGet_min (s : Sched) :
    ∀ x ∈ s.pq, ¬ keyLt (key s x) (key s (pqTopGet s)) := by
  intro x hx
  unfold pqTopGet
  match hp : s.pq with
  | [] => simp [hp] at hx
  | e :: rest =>
    have := (pqFold_spec s rest e).2 x (hp ▸ hx)
    simpa using this

theorem pqPop_decomp {s : Sched} (h : s.pq ≠ []) :
    ∃ l r, s.pq = l ++ pqTopGet s :: r ∧ (pqPop s).pq = l ++ r ∧
      pqTopGet s ∉ l := by
  obtain ⟨l, r, hnotin, hdec, herase⟩ :=
    List.exists_erase_eq (pqTopGet_mem h)
  exact ⟨l, r, hdec, herase, hnotin⟩

/-! ### C1 — `clear()` outside a dispatch -/

/-- C1: after `tick(5); pause(); tick(3); clear()` the scheduler is emptied
(`size = 0`, fire counter 0, no slots), but `now()` is still 5, the paused
accumulator is still 3 and the paused flag is still set: `default_clear`
never touches `current`, `paused_time` or `paused`, contradicting the claim
that `clear` resets the clock and the pause state. -/
theorem c1_clear_keeps_time_and_pause :
    c1s.alive = 0 ∧ c1s.fire_count = 0 ∧ c1s.events.length = 0 ∧
    c1s.pq = [] ∧
    c1s.current = 5 ∧ c1s.paused_time = 3 ∧ c1s.paused = true := by
  decide

/-! ### C4 — handle liveness is not monotone across `clear()` -/

/-- C4 counterexample: handle `(0,0)` is issued by the first schedule; after
`clear()` it reports dead (`is_alive = false`), but the next schedule re-seats
slot 0 at generation 0 (`default_clear` wiped `gens`), and the old handle
reports alive again — `is_alive` flips from false back to true. -/
theorem c4_handle_resurrected :
    c4s1.issued = [⟨0, 0⟩] ∧
    is_alive c4s2 ⟨0, 0⟩ = false ∧
    is_alive c4s3 ⟨0, 0⟩ = true := by
  decide

/-! ### C6 — Repeat collapse with `catchup = Latest` -/

/-- C6 counterexample (`t₀ = 0`, `k = 5`, `n = 1`): after `tick(n·k)` the
backlog-collapsed repeat has fired exactly once, but its remaining
`next_fire` is `t₀ + (n+1)·k = 10`, not `t₀ + n·k = 5` — the fire at
`t₀ + n·k` immediately reschedules one further interval ahead. -/
theorem c6_next_fire_after_collapse :
    c6s.log.length = 1 ∧
    (evGet c6s 0).next_fire = 10 ∧
    ¬ (evGet c6s 0).next_fire = 0 + 1 * 5 := by
  decide

/-- C6 step: the catch-up collapse. When the single repeat event lags the
clock by at least one full interval, one loop iteration advances its
`next_fire` by `⌊(cur - nf)/k⌋` intervals. -/
theorem c6_loop_skip (k cur nf : Int) (fc : Nat) (lg : List FireRec)
    (fuel : Nat) (hk : 0 < k) (hlag : k ≤ cur - nf) :
    tickLoop (fuel + 1) (c6st k cur nf fc lg) =
      tickLoop fuel (c6st k cur (nf + ((cur - nf).tdiv k) * k) fc lg) := by
  have hts : 1 ≤ (cur - nf).tdiv k := by
    rw [Int.tdiv_eq_ediv (by omega) (by omega)]
    rw [Int.le_ediv_iff_mul_le hk]
    omega
  have h1 : ¬ (cur - nf ≤ 0) := by omega
  have h2 : ¬ ((cur - nf).tdiv k = 0) := by omega
  simp [tickLoop, c6st, c6desc, try_pop_cancelled, try_skip_old,
    try_skip_repeat, pqTopGet, pqPop, pqPush, evGet, genGet, List.erase,
    h1, h2]

/-- C6 step: the fire. When the single repeat event is due but lags by less
than one interval, one loop iteration fires it (logging its key) and
reschedules it one interval ahead. -/
theorem c6_loop_fire (k cur nf : Int) (fc : Nat) (lg : List FireRec)
    (fuel : Nat) (hk : 0 < k) (hdue : nf ≤ cur) (hlag : cur - nf < k) :
    tickLoop (fuel + 1) (c6st k cur nf fc lg) =
      tickLoop fuel (c6st k cur (nf + k) (fc + 1)
        (lg ++ [{ index := 0, gen := 0, next_fire := nf, rank := 1 }])) := by
  have hndue : ¬ (cur < nf) := by omega
  by_cases hb : cur - nf ≤ 0
  · simp [tickLoop, c6st, c6desc, try_pop_cancelled, try_skip_old,
      try_skip_repeat, fire_top, execCmds, reschedule, is_alive,
      EventID.is_valid, EventID.invalid, U32M, pqTopGet, pqPop, pqPush,
      evGet, genGet, List.erase, decSize, EventPriority.rank, hb, hndue]
  · have hts : (cur - nf).tdiv k = 0 := by
      rw [Int.tdiv_eq_ediv (by omega) (by omega)]
      exact Int.ediv_eq_zero_of_lt (by omega) (by omega)
    simp [tickLoop, c6st, c6desc, try_pop_cancelled, try_skip_old,
      try_skip_repeat, fire_top, execCmds, reschedule, is_alive,
      EventID.is_valid, EventID.invalid, U32M, pqTopGet, pqPop, pqPush,
      evGet, genGet, List.erase, decSize, EventPriority.rank, hb, hndue, hts]

/-- C6 step: the break. When the single repeat event is strictly in the
future the loop returns immediately. -/
theorem c6_loop_stop (k cur nf : Int) (fc : Nat) (lg : List FireRec)
    (fuel : Nat) (hfut : cur < nf) :
    tickLoop (fuel + 1) (c6st k cur nf fc lg) = c6st k cur nf fc lg := by
  have h1 : cur - nf ≤ 0 := by omega
  simp [tickLoop, c6st, c6desc, try_pop_cancelled, try_skip_old,
    try_skip_repeat, pqTopGet, pqPop, pqPush, evGet, genGet, h1, hfut]

/-- C6 amended: for a `Repeat(interval = k, catchup = Latest)` scheduled at
time `t₀` (first fire `t₀ + k`), a single `tick` advancing the clock to
`t₀ + n·k` (`n ≥ 1`) fires its callback exactly once for the whole backlog,
and the single remaining `next_fire` is `t₀ + (n+1)·k` — one interval past
the claimed `t₀ + n·k`, because the collapsed fire immediately reschedules. -/
theorem c6_latest_collapse_amended (t0 k n : Int) (hk : 0 < k) (hn : 1 ≤ n) :
    (c6run t0 k n).log.length = 1 ∧
    (evGet (c6run t0 k n) 0).next_fire = t0 + (n + 1) * k ∧
    (c6run t0 k n).pq = [⟨0, 0⟩] ∧
    (c6run t0 k n).alive = 1 ∧
    (c6run t0 k n).current = t0 + n * k := by
  have hsched : (schedule_after (c6base t0) k [] .Repeat k .Swallow .User
      .Latest).2 = { c6st k t0 (t0 + k) 0 [] with ticking := false } := by
    unfold schedule_after c6base append set_event pqPush c6st
    rw [if_neg (fun h => absurd h.2 (by omega))]
    rfl
  have hflush : ∀ (cur nf : Int) (fc : Nat) (lg : List FireRec),
      flush_delay_ops (c6st k cur nf fc lg) = c6st k cur nf fc lg := by
    intro cur nf fc lg
    rfl
  have hrun : c6run t0 k n =
      { flush_delay_ops (tickLoop 4 (c6st k (t0 + n * k) (t0 + k) 0 [])) with
        pending_clear := 0, ticking := false } := by
    unfold c6run
    rw [hsched]
    unfold tick try_update_pause
    rw [if_neg (by simp), if_pos (by simp [c6st])]
    dsimp only
    rw [if_neg Bool.false_ne_true]
    rfl
  rcases eq_or_lt_of_le hn with hn1 | hn2
  · -- n = 1: fire then break
    have hloop : tickLoop 4 (c6st k (t0 + n * k) (t0 + k) 0 []) =
        c6st k (t0 + n * k) (t0 + k + k) 1
          [{ index := 0, gen := 0, next_fire := t0 + k, rank := 1 }] := by
      rw [show (4 : Nat) = 3 + 1 from rfl,
        c6_loop_fire k (t0 + n * k) (t0 + k) 0 [] 3 hk
          (by rw [← hn1]; omega) (by rw [← hn1]; omega)]
      rw [show (3 : Nat) = 2 + 1 from rfl,
        c6_loop_stop k (t0 + n * k) (t0 + k + k) 1 _ 2 (by rw [← hn1]; omega)]
      simp
    rw [hrun, hloop, hflush]
    refine ⟨by simp [c6st], ?_, by simp [c6st], by simp [c6st], by simp [c6st]⟩
    simp only [c6st, c6desc, evGet, List.getD_cons_zero]
    rw [← hn1]
    ring
  · -- n ≥ 2: collapse, fire, break
    have hlag : k ≤ (t0 + n * k) - (t0 + k) := by
      have h1 : (t0 + n * k) - (t0 + k) = (n - 1) * k := by ring
      rw [h1]
      calc k = 1 * k := by ring
        _ ≤ (n - 1) * k :=
          mul_le_mul_of_nonneg_right (by omega) (by omega)
    have harith : (t0 + k) + (((t0 + n * k) - (t0 + k)).tdiv k) * k =
        t0 + n * k := by
      rw [show (t0 + n * k) - (t0 + k) = (n - 1) * k from by ring,
        Int.mul_tdiv_cancel _ (by omega : k ≠ 0)]
      ring
    have hloop : tickLoop 4 (c6st k (t0 + n * k) (t0 + k) 0 []) =
        c6st k (t0 + n * k) (t0 + n * k + k) 1
          [{ index := 0, gen := 0, next_fire := t0 + n * k, rank := 1 }] := by
      rw [show (4 : Nat) = 3 + 1 from rfl,
        c6_loop_skip k (t0 + n * k) (t0 + k) 0 [] 3 hk hlag, harith]
      rw [show (3 : Nat) = 2 + 1 from rfl,
        c6_loop_fire k (t0 + n * k) (t0 + n * k) 0 [] 2 hk (by omega)
          (by omega)]
      rw [show (2 : Nat) = 1 + 1 from rfl,
        c6_loop_stop k (t0 + n * k) (t0 + n * k + k) 1 _ 1 (by omega)]
      simp
    rw [hrun, hloop, hflush]
    refine ⟨by simp [c6st], ?_, by simp [c6st], by simp [c6st], by simp [c6st]⟩
    simp only [c6st, c6desc, evGet, List.getD_cons_zero]
    ring

/-- C6 amended, witness at `t₀ = 2`, `k = 5`, `n = 3`. -/
theorem c6_latest_collapse_amended_witness :
    (c6run 2 5 3).log.length = 1 ∧
    (evGet (c6run 2 5 3) 0).next_fire = 2 + (3 + 1) * 5 :=
  ⟨(c6_latest_collapse_amended 2 5 3 (by omega) (by omega)).1,
   (c6_latest_collapse_amended 2 5 3 (by omega) (by omega)).2.1⟩

/-- C7 counterexample: eight events (three due at 10, one alive at 500, four
far-future), cancelling the four far-future ones never trips the rebuild
(`cancelled = 4 ≤ alive = 4`), and `tick(10)` then fires the three due events.
Between operations the heap holds 5 entries while `alive = 1`:
`5 > 2·1 + 1 = 3`, violating the claimed bound. -/
theorem c7_bound_exceeded_between_ops :
    c7s13.ticking = false ∧
    c7s13.pq.length = 5 ∧ c7s13.alive = 1 ∧
    ¬ c7s13.pq.length ≤ 2 * c7s13.alive + 1 := by
  decide

/-! ### C8 — `peek` does not filter -/

/-- C8 counterexample: with `(0,0)` scheduled at 5 then cancelled (no rebuild:
`cancelled = 1 ≤ alive = 1`), `peek` reports the cancelled record `(0,0)` —
the source `peek` reads `pq.top()` with no lazy filtering. -/
theorem c8_peek_reports_cancelled :
    peek c8s = some (⟨0, 0⟩, 5) ∧
    (evGet c8s 0).status = .Cancelled := by
  decide

/-- C8 amended: `peek` returns `none` exactly when the queue is empty, and
otherwise returns the raw top of the queue — the comparator minimum — with
its record's `next_fire`, with no stale/cancelled filtering (the
counterexample shows a cancelled record being reported). -/
theorem c8_peek_raw_top (s : Sched) :
    (peek s = none ↔ s.pq = []) ∧
    (s.pq ≠ [] →
      peek s = some (pqTopGet s, (evGet s (pqTopGet s).index).next_fire) ∧
      pqTopGet s ∈ s.pq ∧
      ∀ x ∈ s.pq, ¬ keyLt (key s x) (key s (pqTopGet s))) := by
  constructor
  · unfold peek
    by_cases h : s.pq.isEmpty
    · simp [h, List.isEmpty_iff.mp h]
    · simp only [h, if_false]
      simp [List.isEmpty_iff] at h
      simp [h]
  · intro h
    refine ⟨?_, pqTopGet_mem h, pqTopGet_min s⟩
    unfold peek
    have : ¬ s.pq.isEmpty := by simpa [List.isEmpty_iff] using h
    simp [this]

/-- C8 amended, witness at `c8s` (whose queue is nonempty). -/
theorem c8_peek_raw_top_witness :
    peek c8s = some (pqTopGet c8s, (evGet c8s (pqTopGet c8s).index).next_fire) :=
  ((c8_peek_raw_top c8s).2 (by decide)).1

/-! ### C9 — `tick_until` at or before `now` -/

/-- C9 counterexample: with an event due at the current time,
`tick_until(now)` returns without dispatching (`fire_count` stays 0, the
event stays alive), while `tick(max(0, now - now)) = tick(0)` fires it — so
`tick_until(t)` is not `tick(max(0, t - now))` when `t ≤ now`. -/
theorem c9_tick_until_skips_due_pass :
    (tick_until c9s 0 4).fire_count = 0 ∧
    (tick_until c9s 0 4).alive = 1 ∧
    (tick c9s (max 0 (0 - c9s.current)) 4).fire_count = 1 ∧
    (tick c9s (max 0 (0 - c9s.current)) 4).alive = 0 := by
  decide

/-- C9 amended: `tick_until(t)` equals `tick(max(0, t - now))` only when
`t > now`; when `t ≤ now` it returns immediately, performing no `tick(0)`
dispatch pass. -/
theorem c9_tick_until_amended (s : Sched) (t : Int) (fuel : Nat) :
    (s.current < t → tick_until s t fuel = tick s (max 0 (t - s.current)) fuel) ∧
    (t ≤ s.current → tick_until s t fuel = s) := by
  constructor
  · intro h
    unfold tick_until
    rw [if_neg (by omega), max_eq_right (by omega)]
  · intro h
    unfold tick_until
    rw [if_pos h]

/-- C9 amended, witness at `c9s`, `t = 5`. -/
theorem c9_tick_until_amended_witness :
    tick_until c9s 5 4 = tick c9s (max 0 (5 - c9s.current)) 4 :=
  (c9_tick_until_amended c9s 5 4).1 (by decide)

/-! ### List helpers -/

theorem getD_set_self {α} (l : List α) (i : Nat) (h : i < l.length)
    (a d : α) : (l.set i a).getD i d = a := by
  simp [List.getD_eq_getElem?_getD, List.getElem?_set_self', h]

theorem getD_set_ne {α} (l : List α) {i j : Nat} (h : i ≠ j) (a d : α) :
    (l.set i a).getD j d = l.getD j d := by
  simp [List.getD_eq_getElem?_getD, List.getElem?_set_ne, h]

theorem getD_append_left {α} (l : List α) (d : α) {i : Nat}
    (h : i < l.length) (x : α) : (l ++ [x]).getD i d = l.getD i d := by
  simp [List.getD_eq_getElem?_getD, List.getElem?_append_left h]

theorem getD_append_self {α} (l : List α) (d : α) (x : α) :
    (l ++ [x]).getD l.length d = x := by
  simp [List.getD_eq_getElem?_getD]

theorem countP_erase_of_mem {α} [DecidableEq α] {l : List α} {a : α}
    (h : a ∈ l) (p : α → Bool) :
    l.countP p = (l.erase a).countP p + (if p a then 1 else 0) := by
  obtain ⟨l1, l2, -, hdec, herase⟩ := List.exists_erase_eq h
  subst hdec
  rw [herase]
  simp only [List.countP_append, List.countP_cons]
  by_cases hp : p a
  · simp [hp]; omega
  · simp [hp]

theorem status_ne_cancelled_iff {st : EventStatus} :
    (st ≠ .Cancelled) ↔ st = .Alive := by
  cases st <;> simp

/-- Unpacking `is_alive s eid = true`. -/
theorem is_alive_facts {s : Sched} {eid : EventID}
    (h : is_alive s eid = true) :
    eid.index < s.events.length ∧ eid.gen = genGet s eid.index ∧
    (evGet s eid.index).status = .Alive := by
  unfold is_alive at h
  by_cases h1 : eid.index ≥ s.events.length
  · rw [if_pos h1] at h
    exact absurd h (by simp)
  · rw [if_neg h1] at h
    by_cases h2 : eid.gen ≠ genGet s eid.index
    · rw [if_pos h2] at h
      exact absurd h (by simp)
    · rw [if_neg h2] at h
      exact ⟨by omega, by omega, of_decide_eq_true h⟩

/-! ### C10 — `set_next_fire`/`delay` semantics -/

/-- C10: on a live handle `h` with a genuinely new time (outside a tick, or
inside one with the new time still in the future), `set_next_fire(h, t)` is
exactly `default_set_next_fire(h, t)`: the slot's generation is bumped, a
fresh queue entry with generation `h.gen + 1` is pushed, the record stays
alive with `next_fire = t` (so the event is still scheduled, now under the
new generation), the caller's handle is dead from then on, and no handle is
returned (the ghost `issued` list is unchanged).  The same
`default_set_next_fire` is what the journal flush applies for the deferred
in-tick `Delay` path.  (In the source this immediate path is the ill-formed
no-argument call at scheduler.hpp:546; see `default_set_next_fire`.) -/
theorem c10_set_next_fire_semantics (s : Sched) (eid : EventID) (t : Int)
    (hv : eid.is_valid = true) (ha : is_alive s eid = true)
    (hg : eid.index < s.gens.length)
    (hne : (evGet s eid.index).next_fire ≠ t)
    (him : ¬(s.ticking = true ∧ t ≤ s.current)) :
    set_next_fire s eid t = default_set_next_fire s eid t ∧
    genGet (default_set_next_fire s eid t) eid.index = eid.gen + 1 ∧
    is_alive (default_set_next_fire s eid t) eid = false ∧
    is_alive (default_set_next_fire s eid t) ⟨eid.index, eid.gen + 1⟩ = true ∧
    (⟨eid.index, eid.gen + 1⟩ : EventID) ∈ (default_set_next_fire s eid t).pq ∧
    (evGet (default_set_next_fire s eid t) eid.index).next_fire = t ∧
    (evGet (default_set_next_fire s eid t) eid.index).status = .Alive ∧
    (default_set_next_fire s eid t).issued = s.issued := by
  obtain ⟨hlen, hgen, hst⟩ := is_alive_facts ha
  have heq : set_next_fire s eid t = default_set_next_fire s eid t := by
    unfold set_next_fire
    rw [if_neg (not_not_intro (by rw [hv, ha]; rfl)), if_neg hne, if_neg him]
  have hev : (default_set_next_fire s eid t).events =
      s.events.set eid.index { evGet s eid.index with next_fire := t } := rfl
  have hgs : (default_set_next_fire s eid t).gens =
      s.gens.set eid.index (genGet s eid.index + 1) := rfl
  have hpq : (default_set_next_fire s eid t).pq =
      s.pq ++ [⟨eid.index, eid.gen + 1⟩] := rfl
  have hiss : (default_set_next_fire s eid t).issued = s.issued := rfl
  have hlen' : (default_set_next_fire s eid t).events.length =
      s.events.length := by rw [hev, List.length_set]
  have hg2 : genGet (default_set_next_fire s eid t) eid.index = eid.gen + 1 := by
    unfold genGet
    rw [hgs, getD_set_self _ _ hg, ← hgen]
  have hev2 : evGet (default_set_next_fire s eid t) eid.index =
      { evGet s eid.index with next_fire := t } := by
    unfold evGet
    rw [hev, getD_set_self _ _ hlen]
    rfl
  refine ⟨heq, hg2, ?_, ?_, ?_, ?_, ?_, hiss⟩
  · unfold is_alive
    rw [if_neg (by rw [hlen']; omega), if_pos (by rw [hg2]; omega)]
  · unfold is_alive
    rw [if_neg (by rw [hlen']; dsimp only; omega),
      if_neg (by dsimp only; rw [hg2]; omega)]
    rw [hev2]
    simpa using hst
  · rw [hpq]
    simp
  · rw [hev2]
  · rw [hev2]
    exact hst

/-- C10 witness: the live handle `(0,0)` of `c10s`, moved to fire at 9. -/
theorem c10_set_next_fire_semantics_witness :
    set_next_fire c10s ⟨0, 0⟩ 9 = default_set_next_fire c10s ⟨0, 0⟩ 9 ∧
    genGet (default_set_next_fire c10s ⟨0, 0⟩ 9) 0 = 1 ∧
    is_alive (default_set_next_fire c10s ⟨0, 0⟩ 9) ⟨0, 0⟩ = false := by
  obtain ⟨h1, h2, h3, -⟩ :=
    c10_set_next_fire_semantics c10s ⟨0, 0⟩ 9 (by decide) (by decide)
      (by decide) (by decide) (by decide)
  exact ⟨h1, h2, h3⟩

/-! ### C7 amended — the rebuild rule restores the bound at each `cancel` -/

private theorem rebuildAux_spec (fuel : Nat) :
    ∀ (s : Sched) (acc : List EventID), s.pq.length ≤ fuel →
      (rebuildAux fuel s acc).pq.length =
        acc.length + s.pq.countP
          (fun e => decide ((s.events.getD e.index {}).status ≠ .Cancelled)) ∧
      (rebuildAux fuel s acc).events = s.events ∧
      (rebuildAux fuel s acc).alive = s.alive := by
  induction fuel with
  | zero =>
    intro s acc hle
    have hpq : s.pq = [] := List.length_eq_zero.mp (Nat.le_zero.mp hle)
    unfold rebuildAux
    simp [hpq]
  | succ n ih =>
    intro s acc hle
    unfold rebuildAux
    match hpq : s.pq with
    | [] => simp
    | x :: xs =>
      have hne : s.pq ≠ [] := by rw [hpq]; simp
      have hmem := pqTopGet_mem hne
      have hcount := countP_erase_of_mem hmem
        (fun e => decide ((s.events.getD e.index {}).status ≠ .Cancelled))
      have hlenp : (s.pq.erase (pqTopGet s)).length = s.pq.length - 1 :=
        List.length_erase_of_mem hmem
      have hlenx : s.pq.length = xs.length + 1 := by rw [hpq]; rfl
      dsimp only
      rw [← hpq]
      unfold try_reuse pqPop evGet genGet
      dsimp only
      by_cases hcanc : (s.events.getD (pqTopGet s).index {}).status ≠ .Cancelled
      · rw [if_pos hcanc]
        dsimp only
        rw [if_neg Bool.false_ne_true]
        have hrec := ih { s with pq := s.pq.erase (pqTopGet s) }
          (acc ++ [pqTopGet s]) (by rw [hlenp]; omega)
        dsimp only at hrec
        refine ⟨?_, hrec.2.1, hrec.2.2⟩
        rw [hrec.1, hcount]
        simp only [List.length_append, List.length_cons, List.length_nil]
        rw [if_pos (by simpa using hcanc)]
        omega
      · rw [if_neg hcanc]
        dsimp only
        rw [if_pos rfl]
        have hrec := ih { s with
            pq := s.pq.erase (pqTopGet s)
            fl := s.fl ++ [(pqTopGet s).index]
            gens := s.gens.set (pqTopGet s).index
              (s.gens.getD (pqTopGet s).index 0 + 1) } acc
          (by rw [hlenp]; omega)
        dsimp only at hrec
        refine ⟨?_, hrec.2.1, hrec.2.2⟩
        rw [hrec.1, hcount]
        rw [if_neg (by simpa using hcanc)]
        omega

/-- C7 amended: what the `cancelled > alive` rebuild rule does guarantee is
the bound immediately after every `cancel` call on a structurally consistent
scheduler: `pq.size ≤ 2·alive + 1` holds in the state `cancel` returns.
(Between arbitrary operations the bound fails — see the counterexample: a
`tick` can fire the due events and leave stranded cancelled entries behind a
future alive one.) -/
theorem c7_cancel_restores_bound (s : Sched) (eid : EventID)
    (hc : Consistent s) :
    (cancel s eid).2.pq.length ≤ 2 * (cancel s eid).2.alive + 1 := by
  obtain ⟨hrange, hnodup, halive, hcanc, href, hle⟩ := hc
  have hlenpq : s.pq.length = s.alive + s.cancelled := by
    rw [halive, hcanc]
    rw [List.length_eq_countP_add_countP
      (p := fun e => decide ((evGet s e.index).status = .Alive))]
    congr 1
    apply List.countP_congr
    intro x hx
    cases hsx : (evGet s x.index).status <;> simp [hsx]
  unfold cancel
  by_cases hguard : ¬(eid.is_valid && is_alive s eid) = true
  · rw [if_pos hguard]
    dsimp only
    omega
  · rw [if_neg hguard]
    have ha : is_alive s eid = true := by
      rcases Bool.and_eq_true _ _ |>.mp (not_not.mp hguard) with ⟨-, h⟩
      exact h
    obtain ⟨hlen, hgen, hst⟩ := is_alive_facts ha
    rw [if_neg (by rw [hst]; simp)]
    dsimp only
    -- the unique queue entry of slot `eid.index`
    have hidxmem : eid.index ∈ s.pq.map EventID.index :=
      href eid.index (List.mem_range.mpr hlen) hst
    obtain ⟨en, henmem, henidx⟩ := List.mem_map.mp hidxmem
    obtain ⟨l1, l2, hdec⟩ := List.append_of_mem henmem
    have hnd := hnodup
    rw [hdec] at hnd
    simp only [List.map_append, List.map_cons] at hnd
    have hnotin1 : ∀ x ∈ l1, x.index ≠ eid.index := by
      intro x hx hcon
      exact (List.nodup_append.mp hnd).2.2
        (List.mem_map_of_mem EventID.index hx)
        (by rw [hcon, ← henidx]; exact List.mem_cons_self _ _)
    have hnotin2 : ∀ x ∈ l2, x.index ≠ eid.index := by
      have hmid := (List.nodup_append.mp hnd).2.1
      rw [List.nodup_cons] at hmid
      intro x hx hcon
      refine hmid.1 ?_
      rw [henidx, ← hcon]
      exact List.mem_map_of_mem EventID.index hx
    -- the post-mark slab
    set s1events := s.events.set eid.index
      { evGet s eid.index with status := .Cancelled } with hs1ev
    have hgetold : ∀ x : EventID, x.index ≠ eid.index →
        s1events.getD x.index {} = s.events.getD x.index {} := by
      intro x hx
      exact getD_set_ne _ (fun h => hx h.symm) _ _
    have hgetnew : s1events.getD eid.index {} =
        { evGet s eid.index with status := .Cancelled } :=
      getD_set_self _ _ hlen _ _
    have e1 : ∀ l : List EventID, (∀ x ∈ l, x.index ≠ eid.index) →
        l.countP (fun e => decide ((s1events.getD e.index {}).status = .Alive)) =
        l.countP (fun e => decide ((evGet s e.index).status = .Alive)) := by
      intro l hl
      apply List.countP_congr
      intro x hx
      rw [hgetold x (hl x hx)]
      rfl
    have hennew : (s1events.getD en.index {}).status = .Cancelled := by
      rw [henidx, hgetnew]
    have henold : (evGet s en.index).status = .Alive := by
      rw [henidx]; exact hst
    have t1 : decide ((s1events.getD en.index
        { desc := {}, status := .Cancelled, next_fire := 0 }).status =
          EventStatus.Alive) = false := by
      rw [hennew]
      rfl
    have t2 : decide ((evGet s en.index).status = EventStatus.Alive) = true := by
      rw [henold]
      rfl
    have halive1 : 1 ≤ s.alive := by
      rw [halive, hdec]
      simp only [List.countP_append, List.countP_cons, t2]
      simp
      omega
    have hcntAlive : s.pq.countP
        (fun e => decide ((s1events.getD e.index {}).status = .Alive)) =
        s.alive - 1 := by
      rw [hdec, halive, hdec]
      simp only [List.countP_append, List.countP_cons]
      rw [e1 l1 hnotin1, e1 l2 hnotin2]
      simp only [t1, t2]
      simp
    have hds : decSize s.alive = s.alive - 1 := by
      unfold decSize
      rw [if_neg (by omega)]
    have hcnt2 : s.pq.countP
        (fun e => decide ((s1events.getD e.index {}).status ≠ .Cancelled)) =
        s.alive - 1 := by
      rw [← hcntAlive]
      apply List.countP_congr
      intro x hx
      simp [status_ne_cancelled_iff]
    by_cases hreb : s.cancelled + 1 > decSize s.alive
    · rw [if_pos hreb]
      dsimp only
      unfold rebuild_pq
      dsimp only
      have hspec := rebuildAux_spec s.pq.length
        { s with
          events := s1events
          alive := decSize s.alive
          cancelled := s.cancelled + 1 } [] (by dsimp only; exact Nat.le_refl _)
      dsimp only at hspec
      rw [hcnt2, List.length_nil] at hspec
      omega
    · rw [if_neg hreb]
      dsimp only
      rw [hds] at hreb ⊢
      omega

/-- C7 amended, witness: cancelling the event at 500 in the consistent
pre-tick state `c7s12`. -/
theorem c7_cancel_restores_bound_witness :
    (cancel c7s12 ⟨3, 0⟩).2.pq.length ≤
      2 * (cancel c7s12 ⟨3, 0⟩).2.alive + 1 :=
  c7_cancel_restores_bound c7s12 ⟨3, 0⟩ (by decide)

/-! ### The dispatch window: per-step facts

The lemmas below track, across every operation a dispatch window can
perform, the facts the C2/C3 theorems need: the clock and the fire log are
only written where the source writes them, generations only grow, statuses
only move from `Alive` to `Cancelled`, and the queue keeps the generation
bound and the lower-bound invariants. -/

theorem getD_of_le {α} (l : List α) {i : Nat} (h : l.length ≤ i) (d : α) :
    l.getD i d = d := by
  simp [List.getD_eq_getElem?_getD, List.getElem?_eq_none, h]

theorem getD_append_d {α} (l : List α) (d : α) (i : Nat) :
    (l ++ [d]).getD i d = l.getD i d := by
  rcases Nat.lt_trichotomy i l.length with h | h | h
  · exact getD_append_left _ _ h _
  · subst h
    rw [getD_append_self, getD_of_le _ (Nat.le_refl _)]
  · rw [getD_of_le _ (by simp; omega), getD_of_le _ (by omega)]

theorem keyLt_nf_le {a b : Key} (h : keyLt a b) : a.1 ≤ b.1 := by
  unfold keyLt at h
  omega

theorem keyLt_mono_nf {a : Key} {nf nf' : Int} {r i : Nat}
    (h : keyLt a (nf, r, i)) (hle : nf ≤ nf') : keyLt a (nf', r, i) := by
  unfold keyLt at *
  dsimp only at *
  omega

theorem keyLt_idx_eq {a b : Key} (hle : ¬ keyLt b a) (hne : a ≠ b) :
    keyLt a b := by
  rcases Classical.em (keyLt a b) with h | h
  · exact h
  · exact absurd (keyLt_total_eq h hle) hne

theorem statusLe_refl (s : Sched) : statusLe s s := fun _ h => h

theorem statusLe_trans {s1 s2 s3 : Sched} (h1 : statusLe s1 s2)
    (h2 : statusLe s2 s3) : statusLe s1 s3 := fun i h => h1 i (h2 i h)

/-- `statusLe` in the `Cancelled` direction (statuses are two-valued). -/
theorem statusLe_canc {s s' : Sched} (h : statusLe s s') (i : Nat)
    (hc : (evGet s i).status = .Cancelled) :
    (evGet s' i).status = .Cancelled := by
  by_cases h' : (evGet s' i).status = .Cancelled
  · exact h'
  · have := h i (status_ne_cancelled_iff.mp h')
    rw [hc] at this
    exact absurd this (by simp)

/-- A slot read as `Alive` is in range (out-of-range reads default to a
`Cancelled` record). -/
theorem evGet_alive_lt {s : Sched} {i : Nat}
    (h : (evGet s i).status = .Alive) : i < s.events.length := by
  by_cases hlt : i < s.events.length
  · exact hlt
  · rw [evGet, getD_of_le _ (by omega)] at h
    exact absurd h (by simp)

/-- A slot read with a `Repeat` descriptor is in range. -/
theorem evGet_repeat_lt {s : Sched} {i : Nat}
    (h : (evGet s i).desc.type = .Repeat) : i < s.events.length := by
  by_cases hlt : i < s.events.length
  · exact hlt
  · rw [evGet, getD_of_le _ (by omega)] at h
    exact absurd h (by simp)

/-- `RepPos` applied at an arbitrary read. -/
theorem repPos_at {s : Sched} (h : RepPos s) {i : Nat}
    (hr : (evGet s i).desc.type = .Repeat) :
    0 < (evGet s i).desc.interval_ms :=
  h i (List.mem_range.mpr (evGet_repeat_lt hr)) hr

/-- `CurCnt` applied at an arbitrary current-generation value. -/
theorem curCnt_at {s : Sched} (h : CurCnt s) (v : EventID)
    (hg : v.gen = genGet s v.index) : s.pq.count v ≤ 1 := by
  by_cases hv : v ∈ s.pq
  · have := h v hv
    have hveq : (⟨v.index, genGet s v.index⟩ : EventID) = v := by
      cases v
      simp_all
    rw [hveq] at this
    exact this
  · rw [List.count_eq_zero.mpr hv]
    omega

/-- Under the generation bound, a value strictly ahead of its slot's
generation has no queue occurrence. -/
theorem genB_count_zero {s : Sched} (h : GenB s) {v : EventID}
    (hg : genGet s v.index < v.gen) : s.pq.count v = 0 := by
  rw [List.count_eq_zero]
  intro hv
  exact absurd (h v hv) (by omega)

theorem getLastD_mem {α} {l : List α} (h : l ≠ []) (d : α) :
    (l.getLast?).getD d ∈ l := by
  rw [List.getLast?_eq_getLast l h]
  exact List.getLast_mem h

theorem keyLt_of_nf_lt {a : Key} {nf : Int} {r i : Nat} (h : a.1 < nf) :
    keyLt a (nf, r, i) := Or.inl h

theorem cbStep_refl (s : Sched) : CbStep s s :=
  ⟨rfl, rfl, rfl, Nat.le_refl _, fun _ => Nat.le_refl _,
    fun _ _ => ⟨rfl, rfl⟩, statusLe_refl s, fun _ _ => Nat.le_refl _⟩

theorem cbStep_trans {s1 s2 s3 : Sched} (h1 : CbStep s1 s2)
    (h2 : CbStep s2 s3) : CbStep s1 s3 := by
  obtain ⟨a1, a2, a3, a4, a5, a6, a7, a8⟩ := h1
  obtain ⟨b1, b2, b3, b4, b5, b6, b7, b8⟩ := h2
  refine ⟨by rw [b1, a1], by rw [b2, a2], by rw [b3, a3], le_trans a4 b4,
    fun i => le_trans (a5 i) (b5 i), ?_, statusLe_trans a7 b7, ?_⟩
  · intro i hi
    have h21 : genGet s2 i = genGet s1 i := by
      have := a5 i
      have := b5 i
      omega
    have h32 : genGet s3 i = genGet s2 i := by
      have := a5 i
      have := b5 i
      omega
    obtain ⟨c1, c2⟩ := a6 i h21
    obtain ⟨d1, d2⟩ := b6 i h32
    exact ⟨by rw [d1, c1], by rw [d2, c2]⟩
  · intro v hv
    exact le_trans (b8 v (le_trans hv (a5 v.index))) (a8 v hv)

/-- Frame transport for the dispatch-window invariant: an operation that
keeps every slab and generation read, does not duplicate queue entries,
shrinks the free list, and appends only properly fresh handles preserves
`MInv` and satisfies the callback-step contract. -/
theorem minv_cbframe (n m : Nat) {s s' : Sched} (hM : MInv n m s)
    (hev : ∀ i, evGet s' i = evGet s i)
    (hg : ∀ i, genGet s' i = genGet s i)
    (hglen : GensLen s')
    (hlen : s.events.length ≤ s'.events.length)
    (hpqc : ∀ v : EventID, s'.pq.count v ≤ s.pq.count v)
    (hfl : ∀ i ∈ s'.fl, i ∈ s.fl)
    (hcur : s'.current = s.current) (htk : s'.ticking = s.ticking)
    (hlog : s'.log = s.log)
    (hiss : ∃ new, s'.issued = s.issued ++ new ∧
      ∀ h_ ∈ new, (evGet s' h_.index).status = .Cancelled ∧
        ∀ r ∈ s.log.drop n, ¬(r.index = h_.index ∧ r.gen = h_.gen)) :
    MInv n m s' ∧ CbStep s s' := by
  obtain ⟨new, hisseq, hnew⟩ := hiss
  have hmem : ∀ e ∈ s'.pq, e ∈ s.pq := by
    intro e he
    have h1 := List.count_pos_iff.mpr he
    have h2 := hpqc e
    exact List.count_pos_iff.mp (by omega)
  have hkey : ∀ e : EventID, key s' e = key s e := by
    intro e
    unfold key
    rw [hev]
  have hlast : lastK n s' = lastK n s := by
    unfold lastK
    rw [hlog]
  refine ⟨⟨by rw [htk]; exact hM.tk, hglen, ?_, ?_, ?_, ?_, ?_, ?_, ?_,
      by rw [hlog]; exact hM.nlog, ?_, ?_, by rw [hlast, hcur]; exact hM.optnf,
      by rw [hlog]; exact hM.chain⟩,
    htk, hcur, hlog, hlen, fun i => le_of_eq (hg i).symm,
    fun i _ => ⟨by rw [hev], by rw [hev]⟩,
    fun i h => by rw [hev] at h; exact h,
    fun v _ => hpqc v⟩
  · intro e he
    rw [hg]
    exact hM.genb e (hmem e he)
  · intro i hi
    rw [List.mem_range] at hi
    by_cases hio : i < s.events.length
    · simp only [hev]
      exact hM.reppos i (List.mem_range.mpr hio)
    · intro hr
      rw [hev] at hr
      exact absurd (evGet_repeat_lt hr) hio
  · intro e he
    rw [hg]
    calc s'.pq.count _ ≤ s.pq.count _ := hpqc _
      _ ≤ 1 := hM.curcnt e (hmem e he)
  · intro i hi
    rw [hev]
    exact hM.flcanc i (hfl i hi)
  · intro r hr
    rw [hlog] at hr
    obtain ⟨h1, h2⟩ := hM.logg r hr
    exact ⟨by rw [hg]; exact h1, by omega⟩
  · intro i hi r hr
    rw [hlog] at hr
    rw [hg]
    exact hM.flgen i (hfl i hi) r hr
  · intro h_ hh
    rw [hisseq, List.drop_append_of_le_length hM.miss] at hh
    rcases List.mem_append.mp hh with h | h
    · obtain ⟨h1, h2⟩ := hM.issnew h_ h
      refine ⟨by rw [hev]; exact h1, ?_⟩
      intro r hr
      rw [hlog] at hr
      exact h2 r hr
    · obtain ⟨h1, h2⟩ := hnew h_ h
      refine ⟨h1, ?_⟩
      intro r hr
      rw [hlog] at hr
      exact h2 r hr
  · rw [hisseq, List.length_append]
    calc m ≤ s.issued.length := hM.miss
      _ ≤ _ := Nat.le_add_right _ _
  · rw [hlast]
    have hop := hM.optlb
    match hkk : lastK n s with
    | none => exact trivial
    | some κ =>
      rw [hkk] at hop
      intro e he hgen hal
      rw [hkey]
      rw [hg] at hgen
      rw [hev] at hal
      exact hop e (hmem e he) hgen hal

/-- `schedule_*` called during a dispatch window journals the mutation and
issues a handle that is fresh for the window: `MInv` is preserved. -/
theorem schedule_in_tick_step (n m : Nat) (s : Sched) (t iv : Int)
    (cb : Callback) (ty : EventType) (ep : ExceptionPolicy)
    (pri : EventPriority) (cu : CatchUp) (hM : MInv n m s) :
    MInv n m (schedule_after s t cb ty iv ep pri cu).2 ∧
    CbStep s (schedule_after s t cb ty iv ep pri cu).2 := by
  by_cases hguard : ty = .Repeat ∧ iv ≤ 0
  · have hres : (schedule_after s t cb ty iv ep pri cu).2 = s := by
      unfold schedule_after
      rw [if_pos hguard]
    rw [hres]
    exact ⟨hM, cbStep_refl s⟩
  · by_cases hfe : s.fl.isEmpty
    · -- slab growth by `append`
      have hres : (schedule_after s t cb ty iv ep pri cu).2 = { s with
          events := s.events ++ [{}]
          gens := s.gens ++ [0]
          delay_ops := s.delay_ops ++
            [Op.schedule (s.current + t)
              { type := ty, interval_ms := iv, callback := cb, ep := ep
                pri := pri, cu := cu }
              ⟨s.events.length, 0 + s.pending_clear⟩]
          issued := s.issued ++
            [⟨s.events.length, 0 + s.pending_clear⟩] } := by
        unfold schedule_after append add_schedule
        rw [if_neg hguard, if_pos hfe]
        dsimp only
        rw [if_pos hM.tk]
      refine minv_cbframe n m hM ?_ ?_ ?_ ?_ ?_ ?_ ?_ ?_ ?_ ?_
      · intro i
        rw [hres]
        exact getD_append_d s.events ({} : Event) i
      · intro i
        rw [hres]
        exact getD_append_d s.gens 0 i
      · have hge := hM.glen
        unfold GensLen at hge ⊢
        rw [hres]
        dsimp only
        simp only [List.length_append, List.length_cons, List.length_nil]
        omega
      · rw [hres]
        simp
      · intro v
        rw [hres]
      · intro i hi
        rw [hres] at hi
        exact hi
      · rw [hres]
      · rw [hres]
      · rw [hres]
      · refine ⟨[⟨s.events.length, 0 + s.pending_clear⟩], by rw [hres], ?_⟩
        intro h_ hh
        rw [List.mem_singleton] at hh
        subst hh
        constructor
        · rw [hres]
          exact congrArg Event.status
            (getD_append_self s.events ({} : Event) ({} : Event))
        · intro r hr hcon
          have := (hM.logg r hr).2
          dsimp only at hcon
          omega
    · -- slot reuse by `pop_fl`
      have hne : s.fl ≠ [] := by
        intro hc
        rw [hc] at hfe
        exact hfe rfl
      have hres : (schedule_after s t cb ty iv ep pri cu).2 = { s with
          fl := s.fl.dropLast
          delay_ops := s.delay_ops ++
            [Op.schedule (s.current + t)
              { type := ty, interval_ms := iv, callback := cb, ep := ep
                pri := pri, cu := cu }
              ⟨(s.fl.getLast?).getD 0,
                genGet s ((s.fl.getLast?).getD 0) + s.pending_clear⟩]
          issued := s.issued ++
            [⟨(s.fl.getLast?).getD 0,
              genGet s ((s.fl.getLast?).getD 0) + s.pending_clear⟩] } := by
        unfold schedule_after pop_fl add_schedule
        rw [if_neg hguard, if_neg hfe]
        dsimp only
        rw [if_pos hM.tk]
      have hmemfl : (s.fl.getLast?).getD 0 ∈ s.fl := getLastD_mem hne 0
      refine minv_cbframe n m hM ?_ ?_ ?_ ?_ ?_ ?_ ?_ ?_ ?_ ?_
      · intro i
        rw [hres]
        rfl
      · intro i
        rw [hres]
        rfl
      · have hge := hM.glen
        unfold GensLen at hge ⊢
        rw [hres]
        exact hge
      · rw [hres]
      · intro v
        rw [hres]
      · intro i hi
        rw [hres] at hi
        exact List.mem_of_mem_dropLast hi
      · rw [hres]
      · rw [hres]
      · rw [hres]
      · refine ⟨[⟨(s.fl.getLast?).getD 0,
          genGet s ((s.fl.getLast?).getD 0) + s.pending_clear⟩],
          by rw [hres], ?_⟩
        intro h_ hh
        rw [List.mem_singleton] at hh
        subst hh
        constructor
        · rw [hres]
          show (evGet s ((s.fl.getLast?).getD 0)).status = _
          exact hM.flcanc _ hmemfl
        · intro r hr hcon
          dsimp only at hcon
          have := hM.flgen _ hmemfl r hr hcon.1
          omega

/-- `clear()` called during a dispatch window only journals the clear. -/
theorem clear_cmd_step (n m : Nat) (s : Sched) (hM : MInv n m s) :
    MInv n m (clear s) ∧ CbStep s (clear s) := by
  have hres : clear s = { s with
      pending_clear := s.pending_clear + 1
      delay_ops := [Op.clear] } := by
    unfold clear add_clear
    rw [if_pos hM.tk]
  refine minv_cbframe n m hM (fun i => by rw [hres]; rfl)
    (fun i => by rw [hres]; rfl) ?_ (by rw [hres]) (fun v => by rw [hres])
    (fun i hi => by rw [hres] at hi; exact hi) (by rw [hres]) (by rw [hres])
    (by rw [hres]) ⟨[], by rw [hres]; simp, by simp⟩
  have hge := hM.glen
  unfold GensLen at hge ⊢
  rw [hres]
  exact hge

/-- `set_next_fire`/`delay` called during a dispatch window: the deferred
path journals; the immediate path (a future firing time) bumps the slot's
generation and enqueues a fresh entry strictly after the window's lower
bound.  `MInv` is preserved either way. -/
theorem set_next_fire_step (n m : Nat) (s : Sched) (eid : EventID) (nf : Int)
    (hM : MInv n m s) :
    MInv n m (set_next_fire s eid nf) ∧ CbStep s (set_next_fire s eid nf) := by
  unfold set_next_fire
  by_cases hg1 : ¬(eid.is_valid && is_alive s eid) = true
  · rw [if_pos hg1]
    exact ⟨hM, cbStep_refl s⟩
  · rw [if_neg hg1]
    by_cases hg2 : (evGet s eid.index).next_fire = nf
    · rw [if_pos hg2]
      exact ⟨hM, cbStep_refl s⟩
    · rw [if_neg hg2]
      by_cases hg3 : s.ticking = true ∧ nf ≤ s.current
      · rw [if_pos hg3]
        have hres : add_delay s eid nf =
            { s with delay_ops := s.delay_ops ++ [Op.delay eid nf] } := rfl
        refine minv_cbframe n m hM (fun i => by rw [hres]; rfl)
          (fun i => by rw [hres]; rfl) hM.glen (by rw [hres])
          (fun v => by rw [hres]) (fun i hi => by rw [hres] at hi; exact hi)
          (by rw [hres]) (by rw [hres]) (by rw [hres])
          ⟨[], by rw [hres]; simp, by simp⟩
      · rw [if_neg hg3]
        -- the immediate path
        have ha : is_alive s eid = true := by
          rcases Bool.and_eq_true _ _ |>.mp (not_not.mp hg1) with ⟨-, h⟩
          exact h
        obtain ⟨hlt, hgen, hst⟩ := is_alive_facts ha
        have hglt : eid.index < s.gens.length := by
          have := hM.glen
          unfold GensLen at this
          omega
        have hcur : s.current < nf := by
          by_contra hc
          exact hg3 ⟨hM.tk, by omega⟩
        have hres : default_set_next_fire s eid nf = { s with
            gens := s.gens.set eid.index (genGet s eid.index + 1)
            pq := s.pq ++ [(⟨eid.index, eid.gen + 1⟩ : EventID)]
            events := s.events.set eid.index
              { evGet s eid.index with next_fire := nf } } := rfl
        have hgg : ∀ j, j ≠ eid.index →
            genGet (default_set_next_fire s eid nf) j = genGet s j := by
          intro j hj
          rw [hres]
          show (s.gens.set eid.index (genGet s eid.index + 1)).getD j 0 = _
          exact getD_set_ne _ (fun h => hj h.symm) _ _
        have hggx : genGet (default_set_next_fire s eid nf) eid.index =
            genGet s eid.index + 1 := by
          rw [hres]
          exact getD_set_self _ _ hglt _ _
        have hgev : ∀ j, j ≠ eid.index →
            evGet (default_set_next_fire s eid nf) j = evGet s j := by
          intro j hj
          rw [hres]
          show (s.events.set eid.index _).getD j {} = _
          exact getD_set_ne _ (fun h => hj h.symm) _ _
        have hgevx : evGet (default_set_next_fire s eid nf) eid.index =
            { evGet s eid.index with next_fire := nf } := by
          rw [hres]
          exact getD_set_self _ _ hlt _ _
        have hmono : ∀ j,
            genGet s j ≤ genGet (default_set_next_fire s eid nf) j := by
          intro j
          by_cases hj : j = eid.index
          · subst hj
            rw [hggx]
            omega
          · rw [hgg j hj]
        have hpqe : (default_set_next_fire s eid nf).pq =
            s.pq ++ [(⟨eid.index, eid.gen + 1⟩ : EventID)] := by
          rw [hres]
        have hcnt0 : s.pq.count (⟨eid.index, eid.gen + 1⟩ : EventID) = 0 :=
          genB_count_zero hM.genb (by dsimp only; omega)
        have hlg : (default_set_next_fire s eid nf).log = s.log := by rw [hres]
        have hisse : (default_set_next_fire s eid nf).issued = s.issued := by
          rw [hres]
        have hfle : (default_set_next_fire s eid nf).fl = s.fl := by rw [hres]
        have hcue : (default_set_next_fire s eid nf).current = s.current := by
          rw [hres]
        have hevlen : (default_set_next_fire s eid nf).events.length =
            s.events.length := by
          rw [hres]
          dsimp only
          exact List.length_set _ _ _
        have hlast : lastK n (default_set_next_fire s eid nf) = lastK n s := by
          unfold lastK
          rw [hlg]
        refine ⟨⟨?_, ?_, ?_, ?_, ?_, ?_, ?_, ?_, ?_, ?_, ?_, ?_, ?_, ?_⟩,
          ?_, hcue, hlg, ?_, hmono, ?_, ?_, ?_⟩
        · rw [hres]
          exact hM.tk
        · have hge := hM.glen
          unfold GensLen at hge ⊢
          rw [hres]
          dsimp only
          simp only [List.length_set]
          exact hge
        · intro e he
          rw [hpqe] at he
          rcases List.mem_append.mp he with h | h
          · exact le_trans (hM.genb e h) (hmono e.index)
          · rw [List.mem_singleton] at h
            subst h
            dsimp only
            rw [hggx]
            omega
        · intro j hj
          rw [List.mem_range, hevlen] at hj
          by_cases hji : j = eid.index
          · subst hji
            rw [hgevx]
            intro hrep
            exact hM.reppos eid.index (List.mem_range.mpr hj) hrep
          · rw [hgev j hji]
            exact hM.reppos j (List.mem_range.mpr hj)
        · intro e he
          rw [hpqe] at he ⊢
          by_cases hji : e.index = eid.index
          · rw [hji, hggx]
            have hvv : (⟨eid.index, genGet s eid.index + 1⟩ : EventID) =
                (⟨eid.index, eid.gen + 1⟩ : EventID) := by
              rw [← hgen]
            rw [hvv, List.count_append, hcnt0]
            simp
          · rw [hgg e.index hji, List.count_append]
            have h1 : [(⟨eid.index, eid.gen + 1⟩ : EventID)].count
                (⟨e.index, genGet s e.index⟩ : EventID) = 0 := by
              rw [List.count_eq_zero]
              intro hc
              rw [List.mem_singleton] at hc
              have h2 := congrArg EventID.index hc
              dsimp only at h2
              exact hji h2
            rw [h1]
            rcases List.mem_append.mp he with h | h
            · rw [Nat.add_zero]
              exact hM.curcnt e h
            · rw [List.mem_singleton] at h
              have : e.index = eid.index := by rw [h]
              exact absurd this hji
        · intro j hj
          rw [hfle] at hj
          by_cases hji : j = eid.index
          · subst hji
            have := hM.flcanc eid.index hj
            rw [this] at hst
            exact absurd hst (by simp)
          · rw [hgev j hji]
            exact hM.flcanc j hj
        · intro r hr
          rw [hlg] at hr
          obtain ⟨h1, h2⟩ := hM.logg r hr
          exact ⟨le_trans h1 (hmono r.index), by rw [hevlen]; exact h2⟩
        · intro j hj r hr
          rw [hfle] at hj
          rw [hlg] at hr
          intro hri
          exact lt_of_lt_of_le (hM.flgen j hj r hr hri) (hmono j)
        · intro h_ hh
          rw [hisse] at hh
          obtain ⟨h1, h2⟩ := hM.issnew h_ hh
          refine ⟨?_, ?_⟩
          · by_cases hji : h_.index = eid.index
            · rw [hji] at h1
              rw [h1] at hst
              exact absurd hst (by simp)
            · rw [hgev _ hji]
              exact h1
          · rw [hlg]
            exact h2
        · rw [hlg]
          exact hM.nlog
        · rw [hisse]
          exact hM.miss
        · rw [hlast]
          have hop := hM.optlb
          have hnf := hM.optnf
          match hkk : lastK n s with
          | none => exact trivial
          | some κ =>
            rw [hkk] at hop hnf
            intro e he hge hal
            rw [hpqe] at he
            rcases List.mem_append.mp he with h | h
            · by_cases hji : e.index = eid.index
              · exfalso
                rw [hji, hggx] at hge
                have := hM.genb e h
                rw [hji] at this
                omega
              · have hge2 : e.gen = genGet s e.index := by
                  rw [hgg _ hji] at hge
                  exact hge
                have hal2 : (evGet s e.index).status = .Alive := by
                  rw [hgev _ hji] at hal
                  exact hal
                have hk : key (default_set_next_fire s eid nf) e = key s e := by
                  unfold key
                  rw [hgev _ hji]
                rw [hk]
                exact hop e h hge2 hal2
            · rw [List.mem_singleton] at h
              subst h
              have hk : key (default_set_next_fire s eid nf)
                  (⟨eid.index, eid.gen + 1⟩ : EventID) =
                  (nf, (evGet s eid.index).desc.pri.rank, eid.index) := by
                unfold key
                dsimp only
                rw [hgevx]
              rw [hk]
              exact keyLt_of_nf_lt (lt_of_le_of_lt hnf hcur)
        · rw [hlast, hcue]
          exact hM.optnf
        · rw [hlg]
          exact hM.chain
        · rw [hres]
        · rw [hevlen]
        · intro j hj
          by_cases hji : j = eid.index
          · exfalso
            subst hji
            rw [hggx] at hj
            omega
          · exact ⟨by rw [hgev j hji], by rw [hgev j hji]⟩
        · intro j h
          by_cases hji : j = eid.index
          · subst hji
            rw [hgevx] at h
            exact h
          · rw [hgev j hji] at h
            exact h
        · intro v hv
          rw [hpqe, List.count_append]
          have h0 : [(⟨eid.index, eid.gen + 1⟩ : EventID)].count v = 0 := by
            rw [List.count_eq_zero]
            intro hc
            rw [List.mem_singleton] at hc
            subst hc
            dsimp only at hv
            rw [← hgen] at hv
            omega
          rw [h0]
          omega

/-- Frame and monotonicity facts for `rebuild_pq`'s drain loop. -/
theorem rebuildAux_facts (fuel : Nat) :
    ∀ (s : Sched) (acc : List EventID),
      (rebuildAux fuel s acc).events = s.events ∧
      (rebuildAux fuel s acc).current = s.current ∧
      (rebuildAux fuel s acc).ticking = s.ticking ∧
      (rebuildAux fuel s acc).log = s.log ∧
      (rebuildAux fuel s acc).delay_ops = s.delay_ops ∧
      (rebuildAux fuel s acc).issued = s.issued ∧
      (rebuildAux fuel s acc).pending_clear = s.pending_clear ∧
      (∀ e ∈ (rebuildAux fuel s acc).pq, e ∈ acc ∨ e ∈ s.pq) ∧
      (∀ i, s.gens.getD i 0 ≤ (rebuildAux fuel s acc).gens.getD i 0) ∧
      (∀ i, (s.events.getD i {}).status = .Alive →
        (rebuildAux fuel s acc).gens.getD i 0 = s.gens.getD i 0) := by
  induction fuel with
  | zero =>
    intro s acc
    unfold rebuildAux
    exact ⟨rfl, rfl, rfl, rfl, rfl, rfl, rfl,
      fun e he => Or.inl he, fun i => Nat.le_refl _, fun i _ => rfl⟩
  | succ n ih =>
    intro s acc
    unfold rebuildAux
    match hpq : s.pq with
    | [] =>
      exact ⟨rfl, rfl, rfl, rfl, rfl, rfl, rfl,
        fun e he => Or.inl he, fun i => Nat.le_refl _, fun i _ => rfl⟩
    | x :: xs =>
      have hne : s.pq ≠ [] := by rw [hpq]; simp
      dsimp only
      rw [← hpq]
      unfold try_reuse pqPop evGet genGet
      dsimp only
      by_cases hcanc : (s.events.getD (pqTopGet s).index {}).status ≠ .Cancelled
      · rw [if_pos hcanc]
        dsimp only
        rw [if_neg Bool.false_ne_true]
        have hrec := ih { s with pq := s.pq.erase (pqTopGet s) }
          (acc ++ [pqTopGet s])
        dsimp only at hrec
        obtain ⟨h1, h2, h3, h4, h5, h6, h7, h8, h9, h10⟩ := hrec
        refine ⟨h1, h2, h3, h4, h5, h6, h7, ?_, h9, h10⟩
        intro e he
        rcases h8 e he with h | h
        · rcases List.mem_append.mp h with h | h
          · exact Or.inl h
          · exact Or.inr (by
              rw [List.mem_singleton] at h
              rw [h]
              exact pqTopGet_mem hne)
        · exact Or.inr (List.mem_of_mem_erase h)
      · rw [if_neg hcanc]
        dsimp only
        rw [if_pos rfl]
        have hrec := ih { s with
            pq := s.pq.erase (pqTopGet s)
            fl := s.fl ++ [(pqTopGet s).index]
            gens := s.gens.set (pqTopGet s).index
              (s.gens.getD (pqTopGet s).index 0 + 1) } acc
        dsimp only at hrec
        obtain ⟨h1, h2, h3, h4, h5, h6, h7, h8, h9, h10⟩ := hrec
        have hmono : ∀ i, s.gens.getD i 0 ≤
            (s.gens.set (pqTopGet s).index
              (s.gens.getD (pqTopGet s).index 0 + 1)).getD i 0 := by
          intro i
          by_cases hi : (pqTopGet s).index = i
          · subst hi
            by_cases hlt : (pqTopGet s).index < s.gens.length
            · rw [getD_set_self _ _ hlt]
              omega
            · rw [List.set_eq_of_length_le (by omega)]
          · rw [getD_set_ne _ hi]
        refine ⟨h1, h2, h3, h4, h5, h6, h7, ?_, ?_, ?_⟩
        · intro e he
          rcases h8 e he with h | h
          · exact Or.inl h
          · exact Or.inr (List.mem_of_mem_erase h)
        · intro i
          calc s.gens.getD i 0 ≤ _ := hmono i
            _ ≤ _ := h9 i
        · intro i hi
          rw [h10 i hi]
          rw [getD_set_ne]
          intro hcon
          rw [hcon] at hcanc
          simp only [not_not] at hcanc
          rw [hcanc] at hi
          exact absurd hi (by simp)

/-- Multiplicity and free-list facts for `rebuild_pq`'s drain loop: no queue
value gains occurrences, and every free-list addition is a `Cancelled` slot
whose generation was bumped. -/
theorem rebuildAux_more (fuel : Nat) :
    ∀ (s : Sched) (acc : List EventID),
      (∀ v : EventID, (rebuildAux fuel s acc).pq.count v ≤
        acc.count v + s.pq.count v) ∧
      (∀ i ∈ (rebuildAux fuel s acc).fl, i ∈ s.fl ∨
        ((s.events.getD i {}).status = .Cancelled ∧
          (i < s.gens.length →
            s.gens.getD i 0 < (rebuildAux fuel s acc).gens.getD i 0))) ∧
      (rebuildAux fuel s acc).gens.length = s.gens.length := by
  induction fuel with
  | zero =>
    intro s acc
    unfold rebuildAux
    exact ⟨fun v => Nat.le_add_right _ _, fun i hi => Or.inl hi, rfl⟩
  | succ n ih =>
    intro s acc
    unfold rebuildAux
    match hpq : s.pq with
    | [] =>
      exact ⟨fun v => Nat.le_add_right _ _, fun i hi => Or.inl hi, rfl⟩
    | x :: xs =>
      have hne : s.pq ≠ [] := by rw [hpq]; simp
      have hmem := pqTopGet_mem hne
      have hcnt1 : 0 < s.pq.count (pqTopGet s) :=
        List.count_pos_iff.mpr hmem
      dsimp only
      rw [← hpq]
      unfold try_reuse pqPop evGet genGet
      dsimp only
      by_cases hcanc : (s.events.getD (pqTopGet s).index {}).status ≠ .Cancelled
      · rw [if_pos hcanc]
        dsimp only
        rw [if_neg Bool.false_ne_true]
        have hrec := ih { s with pq := s.pq.erase (pqTopGet s) }
          (acc ++ [pqTopGet s])
        dsimp only at hrec
        obtain ⟨hc, hf, hl⟩ := hrec
        refine ⟨?_, ?_, hl⟩
        · intro v
          have h1 := hc v
          rw [List.count_append] at h1
          by_cases hv : v = pqTopGet s
          · subst hv
            rw [List.count_erase_self] at h1
            have h2 : [pqTopGet s].count (pqTopGet s) = 1 := by simp
            omega
          · rw [List.count_erase_of_ne hv] at h1
            have h2 : [pqTopGet s].count v = 0 := by
              rw [List.count_eq_zero]
              simp [hv]
            omega
        · intro i hi
          exact hf i hi
      · rw [if_neg hcanc]
        dsimp only
        rw [if_pos rfl]
        have hrec := ih { s with
            pq := s.pq.erase (pqTopGet s)
            fl := s.fl ++ [(pqTopGet s).index]
            gens := s.gens.set (pqTopGet s).index
              (s.gens.getD (pqTopGet s).index 0 + 1) } acc
        dsimp only at hrec
        obtain ⟨hc, hf, hl⟩ := hrec
        have hmono9 := (rebuildAux_facts n { s with
            pq := s.pq.erase (pqTopGet s)
            fl := s.fl ++ [(pqTopGet s).index]
            gens := s.gens.set (pqTopGet s).index
              (s.gens.getD (pqTopGet s).index 0 + 1) } acc).2.2.2.2.2.2.2.2.1
        dsimp only at hmono9
        refine ⟨?_, ?_, by rw [hl]; exact List.length_set _ _ _⟩
        · intro v
          have h1 := hc v
          have h2 : (s.pq.erase (pqTopGet s)).count v ≤ s.pq.count v :=
            (List.erase_sublist _ _).count_le v
          omega
        · intro i hi
          rcases hf i hi with h | h
          · rcases List.mem_append.mp h with h | h
            · exact Or.inl h
            · rw [List.mem_singleton] at h
              subst h
              refine Or.inr ⟨not_not.mp hcanc, ?_⟩
              intro hlt
              have hset : (s.gens.set (pqTopGet s).index
                  (s.gens.getD (pqTopGet s).index 0 + 1)).getD
                    (pqTopGet s).index 0 =
                  s.gens.getD (pqTopGet s).index 0 + 1 :=
                getD_set_self _ _ hlt _ _
              have := hmono9 (pqTopGet s).index
              omega
          · refine Or.inr ⟨h.1, ?_⟩
            intro hlt
            have h2 := h.2 (by simpa using hlt)
            by_cases hti : (pqTopGet s).index = i
            · subst hti
              rw [getD_set_self _ _ hlt] at h2
              omega
            · rw [getD_set_ne _ hti] at h2
              omega

/-- `rebuild_pq` (triggered by `cancel` inside or outside a window)
preserves the dispatch-window invariant: it only drops queue entries,
bumps generations of retired cancelled slots, and rebuilds the free list
from them. -/
theorem rebuild_pq_step (n m : Nat) (s : Sched) (hM : MInv n m s) :
    MInv n m (rebuild_pq s) ∧ CbStep s (rebuild_pq s) := by
  unfold rebuild_pq
  obtain ⟨h1, h2, h3, h4, h5, h6, h7, h8, h9, h10⟩ :=
    rebuildAux_facts s.pq.length s []
  obtain ⟨hc, hf, hl⟩ := rebuildAux_more s.pq.length s []
  have hmemq : ∀ e ∈ (rebuildAux s.pq.length s []).pq, e ∈ s.pq := by
    intro e he
    rcases h8 e he with h | h
    · exact absurd h (by simp)
    · exact h
  have hev : ∀ i, evGet (rebuildAux s.pq.length s []) i = evGet s i := by
    intro i
    unfold evGet
    rw [show (rebuildAux s.pq.length s []).events = s.events from h1]
  have hgmono : ∀ i, genGet s i ≤ genGet (rebuildAux s.pq.length s []) i := h9
  have hcnt : ∀ v : EventID, (rebuildAux s.pq.length s []).pq.count v ≤ s.pq.count v := by
    intro v
    have := hc v
    simpa using this
  have hlast : lastK n (rebuildAux s.pq.length s []) = lastK n s := by
    unfold lastK
    rw [show (rebuildAux s.pq.length s []).log = s.log from h4]
  have hgeq : ∀ e ∈ (rebuildAux s.pq.length s []).pq,
      e.gen = genGet (rebuildAux s.pq.length s []) e.index → e.gen = genGet s e.index := by
    intro e he hg
    have := hM.genb e (hmemq e he)
    have := hgmono e.index
    omega
  refine ⟨⟨by rw [show (rebuildAux s.pq.length s []).ticking = s.ticking from h3]; exact hM.tk,
      ?_, ?_, ?_, ?_, ?_, ?_, ?_, ?_,
      by rw [show (rebuildAux s.pq.length s []).log = s.log from h4]; exact hM.nlog,
      by rw [show (rebuildAux s.pq.length s []).issued = s.issued from h6]; exact hM.miss,
      ?_, ?_,
      by rw [show (rebuildAux s.pq.length s []).log = s.log from h4]; exact hM.chain⟩,
    h3, h2, h4, le_of_eq (by rw [h1]), hgmono,
    fun i _ => ⟨by rw [hev], by rw [hev]⟩,
    fun i hal => by rw [hev] at hal; exact hal,
    fun v _ => hcnt v⟩
  · have hge := hM.glen
    unfold GensLen at hge ⊢
    rw [hl, h1]
    exact hge
  · intro e he
    exact le_trans (hM.genb e (hmemq e he)) (hgmono e.index)
  · intro i hi
    rw [List.mem_range, show (rebuildAux s.pq.length s []).events = s.events from h1] at hi
    simp only [hev]
    exact hM.reppos i (List.mem_range.mpr hi)
  · intro e he
    by_cases hg : genGet (rebuildAux s.pq.length s []) e.index = genGet s e.index
    · rw [hg]
      calc (rebuildAux s.pq.length s []).pq.count _ ≤ s.pq.count _ := hcnt _
        _ ≤ 1 := curCnt_at hM.curcnt _ rfl
    · have hlt : genGet s e.index < genGet (rebuildAux s.pq.length s []) e.index := by
        have := hgmono e.index
        omega
      have h0 : s.pq.count
          (⟨e.index, genGet (rebuildAux s.pq.length s []) e.index⟩ : EventID) = 0 :=
        genB_count_zero hM.genb (by dsimp only; omega)
      calc (rebuildAux s.pq.length s []).pq.count _ ≤ s.pq.count _ := hcnt _
        _ = 0 := h0
        _ ≤ 1 := by omega
  · intro i hi
    rw [hev]
    rcases hf i hi with h | h
    · exact hM.flcanc i h
    · exact h.1
  · intro r hr
    rw [show (rebuildAux s.pq.length s []).log = s.log from h4] at hr
    obtain ⟨ha, hb⟩ := hM.logg r hr
    exact ⟨le_trans ha (hgmono r.index), by rw [h1]; exact hb⟩
  · intro i hi r hr hri
    rw [show (rebuildAux s.pq.length s []).log = s.log from h4] at hr
    rcases hf i hi with h | h
    · exact lt_of_lt_of_le (hM.flgen i h r hr hri) (hgmono i)
    · have hgl : i < s.gens.length := by
        have := hM.glen
        unfold GensLen at this
        have := (hM.logg r hr).2
        omega
      have hstrict := h.2 hgl
      have hle : r.gen ≤ genGet s i := by
        have := (hM.logg r hr).1
        rw [hri] at this
        exact this
      have : genGet s i < genGet (rebuildAux s.pq.length s []) i := hstrict
      omega
  · intro h_ hh
    rw [show (rebuildAux s.pq.length s []).issued = s.issued from h6] at hh
    obtain ⟨ha, hb⟩ := hM.issnew h_ hh
    refine ⟨by rw [hev]; exact ha, ?_⟩
    intro r hr
    rw [show (rebuildAux s.pq.length s []).log = s.log from h4] at hr
    exact hb r hr
  · rw [hlast]
    have hop := hM.optlb
    match hkk : lastK n s with
    | none => exact trivial
    | some κ =>
      rw [hkk] at hop
      intro e he hg hal
      have hk : key (rebuildAux s.pq.length s []) e = key s e := by
        unfold key
        rw [hev]
      rw [hk]
      rw [hev] at hal
      exact hop e (hmemq e he) (hgeq e he hg) hal
  · rw [hlast, h2]
    exact hM.optnf

/-- `cancel` called on any state satisfying the window invariant (in
particular from inside a callback) preserves it: the mark is a pure
status transition and the possible rebuild is covered by
`rebuild_pq_step`. -/
theorem cancel_step (n m : Nat) (s : Sched) (eid : EventID)
    (hM : MInv n m s) :
    MInv n m (cancel s eid).2 ∧ CbStep s (cancel s eid).2 := by
  unfold cancel
  by_cases hg1 : ¬(eid.is_valid && is_alive s eid) = true
  · rw [if_pos hg1]
    exact ⟨hM, cbStep_refl s⟩
  · rw [if_neg hg1]
    have ha : is_alive s eid = true := by
      rcases Bool.and_eq_true _ _ |>.mp (not_not.mp hg1) with ⟨-, h⟩
      exact h
    obtain ⟨hlt, hgen, hst⟩ := is_alive_facts ha
    rw [if_neg (by rw [hst]; simp)]
    dsimp only
    set s1 : Sched := { s with
      events := s.events.set eid.index
        { evGet s eid.index with status := .Cancelled }
      alive := decSize s.alive
      cancelled := s.cancelled + 1 } with hs1
    have hgev : ∀ j, j ≠ eid.index → evGet s1 j = evGet s j := by
      intro j hj
      rw [hs1]
      show (s.events.set eid.index _).getD j {} = _
      exact getD_set_ne _ (fun h => hj h.symm) _ _
    have hgevx : evGet s1 eid.index =
        { evGet s eid.index with status := .Cancelled } := by
      rw [hs1]
      exact getD_set_self _ _ hlt _ _
    have hgg : ∀ j, genGet s1 j = genGet s j := fun j => rfl
    have hlen1 : s1.events.length = s.events.length := List.length_set _ _ _
    have hstep1 : MInv n m s1 ∧ CbStep s s1 := by
      refine ⟨⟨hM.tk, ?_, hM.genb, ?_, ?_, ?_, ?_, hM.flgen, ?_, hM.nlog,
        hM.miss, ?_, hM.optnf, hM.chain⟩,
        rfl, rfl, rfl, le_of_eq hlen1.symm, fun j => le_of_eq rfl,
        ?_, ?_, fun v _ => Nat.le_refl _⟩
      · have hge := hM.glen
        unfold GensLen at hge ⊢
        rw [hlen1]
        exact hge
      · intro j hj
        rw [List.mem_range, hlen1] at hj
        by_cases hji : j = eid.index
        · subst hji
          rw [hgevx]
          intro hrep
          exact hM.reppos eid.index (List.mem_range.mpr hj) hrep
        · rw [hgev j hji]
          exact hM.reppos j (List.mem_range.mpr hj)
      · intro e he
        exact hM.curcnt e he
      · intro j hj
        by_cases hji : j = eid.index
        · subst hji
          rw [hgevx]
        · rw [hgev j hji]
          exact hM.flcanc j hj
      · intro r hr
        obtain ⟨ha2, hb2⟩ := hM.logg r hr
        exact ⟨ha2, by rw [hlen1]; exact hb2⟩
      · intro h_ hh
        obtain ⟨ha2, hb2⟩ := hM.issnew h_ hh
        refine ⟨?_, hb2⟩
        by_cases hji : h_.index = eid.index
        · rw [hji, hgevx]
        · rw [hgev _ hji]
          exact ha2
      · have hop := hM.optlb
        match hkk : lastK n s with
        | none => exact trivial
        | some κ =>
          rw [hkk] at hop
          intro e he hg hal
          by_cases hji : e.index = eid.index
          · exfalso
            rw [hji, hgevx] at hal
            exact absurd hal (by simp)
          · rw [hgev _ hji] at hal
            have hk : key s1 e = key s e := by
              unfold key
              rw [hgev _ hji]
            rw [hk]
            exact hop e he hg hal
      · intro j hj
        by_cases hji : j = eid.index
        · subst hji
          exact ⟨by rw [hgevx], by rw [hgevx]⟩
        · exact ⟨by rw [hgev j hji], by rw [hgev j hji]⟩
      · intro j hal
        by_cases hji : j = eid.index
        · exfalso
          rw [hji, hgevx] at hal
          exact absurd hal (by simp)
        · rw [hgev j hji] at hal
          exact hal
    by_cases hreb : s1.cancelled > s1.alive
    · rw [if_pos hreb]
      dsimp only
      have hstep2 := rebuild_pq_step n m s1 hstep1.1
      exact ⟨hstep2.1, cbStep_trans hstep1.2 hstep2.2⟩
    · rw [if_neg hreb]
      exact hstep1

/-- Transport of the window invariant across the lazy filters: the slab is
untouched, generations only grow, queue multiplicities only shrink, and
free-list additions are retired cancelled slots. -/
theorem minv_shrink (n m : Nat) (s s' : Sched) (hM : MInv n m s)
    (hev : ∀ i, evGet s' i = evGet s i)
    (hgm : ∀ i, genGet s i ≤ genGet s' i)
    (hglen : GensLen s')
    (hlen : s'.events.length = s.events.length)
    (hcnt : ∀ v : EventID, s'.pq.count v ≤ s.pq.count v)
    (hfl : ∀ i ∈ s'.fl, i ∈ s.fl ∨
      ((evGet s i).status = .Cancelled ∧
        (∀ r ∈ s.log.drop n, r.index = i → r.gen < genGet s' i)))
    (hcur : s'.current = s.current) (htk : s'.ticking = s.ticking)
    (hlog : s'.log = s.log) (hiss : s'.issued = s.issued) :
    MInv n m s' ∧ CbStep s s' := by
  have hmemq : ∀ e ∈ s'.pq, e ∈ s.pq := by
    intro e he
    have h1 := List.count_pos_iff.mpr he
    have h2 := hcnt e
    exact List.count_pos_iff.mp (by omega)
  have hlast : lastK n s' = lastK n s := by
    unfold lastK
    rw [hlog]
  refine ⟨⟨by rw [htk]; exact hM.tk, hglen, ?_, ?_, ?_, ?_, ?_, ?_, ?_,
      by rw [hlog]; exact hM.nlog, by rw [hiss]; exact hM.miss, ?_,
      by rw [hlast, hcur]; exact hM.optnf, by rw [hlog]; exact hM.chain⟩,
    htk, hcur, hlog, le_of_eq hlen.symm, hgm,
    fun i _ => ⟨by rw [hev], by rw [hev]⟩,
    fun i hal => by rw [hev] at hal; exact hal,
    fun v _ => hcnt v⟩
  · intro e he
    exact le_trans (hM.genb e (hmemq e he)) (hgm e.index)
  · intro i hi
    rw [List.mem_range, hlen] at hi
    simp only [hev]
    exact hM.reppos i (List.mem_range.mpr hi)
  · intro e he
    by_cases hg : genGet s' e.index = genGet s e.index
    · rw [hg]
      calc s'.pq.count _ ≤ s.pq.count _ := hcnt _
        _ ≤ 1 := curCnt_at hM.curcnt _ rfl
    · have h0 : s.pq.count (⟨e.index, genGet s' e.index⟩ : EventID) = 0 :=
        genB_count_zero hM.genb (by
          dsimp only
          have := hgm e.index
          omega)
      calc s'.pq.count _ ≤ s.pq.count _ := hcnt _
        _ = 0 := h0
        _ ≤ 1 := by omega
  · intro i hi
    rw [hev]
    rcases hfl i hi with h | h
    · exact hM.flcanc i h
    · exact h.1
  · intro r hr
    rw [hlog] at hr
    obtain ⟨ha, hb⟩ := hM.logg r hr
    exact ⟨le_trans ha (hgm r.index), by rw [hlen]; exact hb⟩
  · intro i hi r hr hri
    rw [hlog] at hr
    rcases hfl i hi with h | h
    · exact lt_of_lt_of_le (hM.flgen i h r hr hri) (hgm i)
    · exact h.2 r hr hri
  · intro h_ hh
    rw [hiss] at hh
    obtain ⟨ha, hb⟩ := hM.issnew h_ hh
    refine ⟨by rw [hev]; exact ha, ?_⟩
    intro r hr
    rw [hlog] at hr
    exact hb r hr
  · rw [hlast]
    have hop := hM.optlb
    match hkk : lastK n s with
    | none => exact trivial
    | some κ =>
      rw [hkk] at hop
      intro e he hg hal
      have hgeq : e.gen = genGet s e.index := by
        have := hM.genb e (hmemq e he)
        have := hgm e.index
        omega
      have hk : key s' e = key s e := by
        unfold key
        rw [hev]
      rw [hk]
      rw [hev] at hal
      exact hop e (hmemq e he) hgeq hal

/-- The cancelled-top filter preserves the window invariant. -/
theorem try_pop_cancelled_step (n m : Nat) (s : Sched) (hM : MInv n m s) :
    MInv n m (try_pop_cancelled s).2 ∧
    (try_pop_cancelled s).2.current = s.current := by
  unfold try_pop_cancelled
  by_cases hc : (evGet s (pqTopGet s).index).status ≠ .Cancelled
  · rw [if_pos hc]
    exact ⟨hM, rfl⟩
  · rw [if_neg hc]
    have hcanc : (evGet s (pqTopGet s).index).status = .Cancelled :=
      not_not.mp hc
    have hres : ({ pqPop s with
        fl := (pqPop s).fl ++ [(pqTopGet s).index]
        gens := (pqPop s).gens.set (pqTopGet s).index
          (genGet (pqPop s) (pqTopGet s).index + 1)
        cancelled := decSize (pqPop s).cancelled } : Sched) = { s with
        pq := s.pq.erase (pqTopGet s)
        fl := s.fl ++ [(pqTopGet s).index]
        gens := s.gens.set (pqTopGet s).index (genGet s (pqTopGet s).index + 1)
        cancelled := decSize s.cancelled } := rfl
    dsimp only
    rw [hres]
    have hgm : ∀ j, genGet s j ≤
        genGet { s with
          pq := s.pq.erase (pqTopGet s)
          fl := s.fl ++ [(pqTopGet s).index]
          gens := s.gens.set (pqTopGet s).index
            (genGet s (pqTopGet s).index + 1)
          cancelled := decSize s.cancelled } j := by
      intro j
      show genGet s j ≤ (s.gens.set (pqTopGet s).index _).getD j 0
      by_cases hj : (pqTopGet s).index = j
      · subst hj
        by_cases hlt : (pqTopGet s).index < s.gens.length
        · rw [getD_set_self _ _ hlt]
          omega
        · rw [List.set_eq_of_length_le (by omega)]
          exact Nat.le_refl _
      · rw [getD_set_ne _ hj]
        exact Nat.le_refl _
    refine ⟨(minv_shrink n m s { s with
        pq := s.pq.erase (pqTopGet s)
        fl := s.fl ++ [(pqTopGet s).index]
        gens := s.gens.set (pqTopGet s).index (genGet s (pqTopGet s).index + 1)
        cancelled := decSize s.cancelled }
      hM (fun i => rfl) hgm ?_ rfl
      (fun v => (List.erase_sublist _ _).count_le v) ?_ rfl rfl rfl rfl).1,
      rfl⟩
    · have hge := hM.glen
      unfold GensLen at hge ⊢
      dsimp only
      rw [List.length_set]
      exact hge
    · intro i hi
      rcases List.mem_append.mp hi with h | h
      · exact Or.inl h
      · rw [List.mem_singleton] at h
        subst h
        refine Or.inr ⟨hcanc, ?_⟩
        intro r hr hri
        have hlg := hM.logg r hr
        have hglt : (pqTopGet s).index < s.gens.length := by
          have := hM.glen
          unfold GensLen at this
          omega
        show r.gen < (s.gens.set (pqTopGet s).index _).getD _ 0
        rw [getD_set_self _ _ hglt]
        have : r.gen ≤ genGet s r.index := hlg.1
        rw [hri] at this
        omega

/-- The stale-generation filter preserves the window invariant. -/
theorem try_skip_old_step (n m : Nat) (s : Sched) (hM : MInv n m s) :
    MInv n m (try_skip_old s).2 ∧
    (try_skip_old s).2.current = s.current := by
  unfold try_skip_old
  by_cases hg : (pqTopGet s).gen = genGet s (pqTopGet s).index
  · rw [if_pos hg]
    exact ⟨hM, rfl⟩
  · rw [if_neg hg]
    exact ⟨(minv_shrink n m s (pqPop s) hM (fun i => rfl)
      (fun i => Nat.le_refl _)
      hM.glen rfl (fun v => (List.erase_sublist _ _).count_le v)
      (fun i hi => Or.inl hi) rfl rfl rfl rfl).1, rfl⟩

/-- Any single setter-free re-entrant callback command preserves the window
invariant and satisfies the callback-step contract. -/
theorem execCmd_step (n m : Nat) (s : Sched) (c : Cmd)
    (hset : c.isSetter = false) (hM : MInv n m s) :
    MInv n m (execCmd s c) ∧ CbStep s (execCmd s c) := by
  cases c with
  | schedule t ty iv ep pri cu cb =>
    exact schedule_in_tick_step n m s t iv cb ty ep pri cu hM
  | cancel eid => exact cancel_step n m s eid hM
  | clear => exact clear_cmd_step n m s hM
  | set_next_fire eid nf => exact set_next_fire_step n m s eid nf hM
  | delay eid ms =>
    exact set_next_fire_step n m s eid
      ((evGet s eid.index).next_fire + ms) hM
  | set_interval eid ms => exact absurd hset (by simp [Cmd.isSetter])
  | set_type eid ty => exact absurd hset (by simp [Cmd.isSetter])
  | set_exp_policy eid p => exact absurd hset (by simp [Cmd.isSetter])
  | set_priority eid p => exact absurd hset (by simp [Cmd.isSetter])
  | set_catchup eid cu => exact absurd hset (by simp [Cmd.isSetter])
  | pause =>
    refine ⟨⟨hM.tk, hM.glen, hM.genb, hM.reppos, hM.curcnt, hM.flcanc,
      hM.logg, hM.flgen, hM.issnew, hM.nlog, hM.miss, ?_, ?_, hM.chain⟩,
      cbStep_refl s⟩
    · have hlast : lastK n (execCmd s Cmd.pause) = lastK n s := rfl
      rw [hlast]
      have hop := hM.optlb
      match hkk : lastK n s with
      | none => exact trivial
      | some κ =>
        rw [hkk] at hop
        intro e he hg2 hal2
        exact hop e he hg2 hal2
    · have hlast : lastK n (execCmd s Cmd.pause) = lastK n s := rfl
      rw [hlast]
      show OptNfLe (lastK n s) s.current
      exact hM.optnf

/-- A whole setter-free callback program preserves the window invariant. -/
theorem execCmds_step (n m : Nat) :
    ∀ (cs : List Cmd) (s : Sched), (∀ c ∈ cs, c.isSetter = false) →
      MInv n m s →
      MInv n m (execCmds s cs) ∧ CbStep s (execCmds s cs) := by
  intro cs
  induction cs with
  | nil =>
    intro s _ hM
    exact ⟨hM, cbStep_refl s⟩
  | cons c rest ih =>
    intro s hns hM
    have h1 := execCmd_step n m s c (hns c (List.mem_cons_self _ _)) hM
    have h2 := ih (execCmd s c)
      (fun c2 hc2 => hns c2 (List.mem_cons_of_mem _ hc2)) h1.1
    exact ⟨h2.1, cbStep_trans h1.2 h2.2⟩

/-- The `Latest` collapse filter preserves the window invariant: it can only
move the top's firing time forward (by whole intervals), which keeps the
strict lower bound. -/
theorem try_skip_repeat_step (n m : Nat) (s : Sched) (hne : s.pq ≠ [])
    (hM : MInv n m s) :
    MInv n m (try_skip_repeat s).2 ∧
    (try_skip_repeat s).2.current = s.current := by
  unfold try_skip_repeat
  by_cases h1 : (evGet s (pqTopGet s).index).desc.type ≠ .Repeat
  · rw [if_pos h1]
    exact ⟨hM, rfl⟩
  · rw [if_neg h1]
    by_cases h2 : (evGet s (pqTopGet s).index).desc.cu ≠ .Latest
    · rw [if_pos h2]
      exact ⟨hM, rfl⟩
    · rw [if_neg h2]
      by_cases h3 : s.current - (evGet s (pqTopGet s).index).next_fire ≤ 0
      · rw [if_pos h3]
        exact ⟨hM, rfl⟩
      · rw [if_neg h3]
        by_cases h4 : (s.current - (evGet s (pqTopGet s).index).next_fire).tdiv
            (evGet s (pqTopGet s).index).desc.interval_ms = 0
        · rw [if_pos h4]
          exact ⟨hM, rfl⟩
        · rw [if_neg h4]
          dsimp only
          have hrep : (evGet s (pqTopGet s).index).desc.type = .Repeat :=
            not_not.mp h1
          have hiv : 0 < (evGet s (pqTopGet s).index).desc.interval_ms :=
            repPos_at hM.reppos hrep
          have hts : 0 < (s.current -
              (evGet s (pqTopGet s).index).next_fire).tdiv
                (evGet s (pqTopGet s).index).desc.interval_ms := by
            have hnn : 0 ≤ (s.current -
                (evGet s (pqTopGet s).index).next_fire).tdiv
                  (evGet s (pqTopGet s).index).desc.interval_ms :=
              Int.tdiv_nonneg (by omega) (by omega)
            omega
          have hjump : 0 < ((s.current -
              (evGet s (pqTopGet s).index).next_fire).tdiv
                (evGet s (pqTopGet s).index).desc.interval_ms) *
              (evGet s (pqTopGet s).index).desc.interval_ms :=
            mul_pos hts hiv
          have hlt : (pqTopGet s).index < s.events.length :=
            evGet_repeat_lt hrep
          have hmem : pqTopGet s ∈ s.pq := pqTopGet_mem hne
          have hperm : s.pq.Perm
              ((s.pq.erase (pqTopGet s)) ++ [pqTopGet s]) :=
            (List.perm_cons_erase hmem).trans
              (List.perm_append_singleton _ _).symm
          set nf2 : Int := (evGet s (pqTopGet s).index).next_fire +
            ((s.current - (evGet s (pqTopGet s).index).next_fire).tdiv
              (evGet s (pqTopGet s).index).desc.interval_ms) *
            (evGet s (pqTopGet s).index).desc.interval_ms with hnf2
          have hres : (pqPush { pqPop s with
              events := (pqPop s).events.set (pqTopGet s).index
                { evGet s (pqTopGet s).index with next_fire := nf2 } }
              (pqTopGet s)) = { s with
              pq := (s.pq.erase (pqTopGet s)) ++ [pqTopGet s]
              events := s.events.set (pqTopGet s).index
                { evGet s (pqTopGet s).index with next_fire := nf2 } } := rfl
          rw [hres]
          set s2 : Sched := { s with
              pq := (s.pq.erase (pqTopGet s)) ++ [pqTopGet s]
              events := s.events.set (pqTopGet s).index
                { evGet s (pqTopGet s).index with next_fire := nf2 } }
            with hs2
          have hgev : ∀ j, j ≠ (pqTopGet s).index → evGet s2 j = evGet s j := by
            intro j hj
            rw [hs2]
            show (s.events.set (pqTopGet s).index _).getD j {} = _
            exact getD_set_ne _ (fun h => hj h.symm) _ _
          have hgevx : evGet s2 (pqTopGet s).index =
              { evGet s (pqTopGet s).index with next_fire := nf2 } := by
            rw [hs2]
            exact getD_set_self _ _ hlt _ _
          have hgg : ∀ j, genGet s2 j = genGet s j := fun j => rfl
          have hcnteq : ∀ v : EventID, s2.pq.count v = s.pq.count v := by
            intro v
            exact (hperm.count_eq v).symm
          have hmem2 : ∀ e ∈ s2.pq, e ∈ s.pq := by
            intro e he
            exact hperm.mem_iff.mpr he
          have hlen2 : s2.events.length = s.events.length :=
            List.length_set _ _ _
          refine ⟨⟨hM.tk, ?_, ?_, ?_, ?_, ?_, ?_, ?_, ?_, hM.nlog, hM.miss,
            ?_, hM.optnf, hM.chain⟩, rfl⟩
          · have hge := hM.glen
            unfold GensLen at hge ⊢
            rw [hlen2]
            exact hge
          · intro e he
            exact hM.genb e (hmem2 e he)
          · intro j hj
            rw [List.mem_range, hlen2] at hj
            by_cases hji : j = (pqTopGet s).index
            · subst hji
              rw [hgevx]
              intro hr2
              exact hM.reppos _ (List.mem_range.mpr hj) hr2
            · rw [hgev j hji]
              exact hM.reppos j (List.mem_range.mpr hj)
          · intro e he
            rw [hcnteq]
            exact hM.curcnt e (hmem2 e he)
          · intro j hj
            by_cases hji : j = (pqTopGet s).index
            · subst hji
              rw [hgevx]
              exact hM.flcanc _ hj
            · rw [hgev j hji]
              exact hM.flcanc j hj
          · intro r hr
            obtain ⟨ha, hb⟩ := hM.logg r hr
            exact ⟨ha, by rw [hlen2]; exact hb⟩
          · intro j hj r hr hri
            exact hM.flgen j hj r hr hri
          · intro h_ hh
            obtain ⟨ha, hb⟩ := hM.issnew h_ hh
            refine ⟨?_, hb⟩
            by_cases hji : h_.index = (pqTopGet s).index
            · rw [hji, hgevx]
              dsimp only
              rw [hji] at ha
              exact ha
            · rw [hgev _ hji]
              exact ha
          · have hop := hM.optlb
            have hlast : lastK n s2 = lastK n s := by
              unfold lastK
              rfl
            rw [hlast]
            match hkk : lastK n s with
            | none => exact trivial
            | some κ =>
              rw [hkk] at hop
              intro e he hge hal
              have hebase := hmem2 e he
              by_cases hji : e.index = (pqTopGet s).index
              · have hal0 : (evGet s e.index).status = .Alive := by
                  rw [hji, hgevx] at hal
                  rw [hji]
                  exact hal
                have hlow := hop e hebase hge hal0
                have hk : key s2 e = (nf2,
                    (evGet s e.index).desc.pri.rank, e.index) := by
                  unfold key
                  rw [hji, hgevx]
                have hk0 : key s e = ((evGet s (pqTopGet s).index).next_fire,
                    (evGet s e.index).desc.pri.rank, e.index) := by
                  unfold key
                  rw [hji]
                rw [hk]
                rw [hk0] at hlow
                exact keyLt_mono_nf hlow (by rw [hnf2]; omega)
              · have hal0 : (evGet s e.index).status = .Alive := by
                  rw [hgev _ hji] at hal
                  exact hal
                have hk : key s2 e = key s e := by
                  unfold key
                  rw [hgev _ hji]
                rw [hk]
                exact hop e hebase hge hal0

/-- Firing the filtered top: the fired key is recorded as the window's new
strict lower bound, the callback runs under the invariant, and the retire
(`reuse`) or `reschedule` of the fired slot re-establishes it.  The
hypotheses are exactly what the dispatch loops guarantee when they call
`fire_top`: a nonempty queue whose top is alive, current-generation and due. -/
theorem fire_top_step (n m : Nat) (s : Sched)
    (hM : MInv n m s) (hne : s.pq ≠ [])
    (hcbs : ∀ c ∈ (evGet s (pqTopGet s).index).desc.callback,
      c.isSetter = false)
    (hal : (evGet s (pqTopGet s).index).status = .Alive)
    (hgen : (pqTopGet s).gen = genGet s (pqTopGet s).index)
    (hdue : (evGet s (pqTopGet s).index).next_fire ≤ s.current) :
    MInv n m (fire_top s) ∧ (fire_top s).current = s.current := by
  have hlt : (pqTopGet s).index < s.events.length := evGet_alive_lt hal
  have hmemt : pqTopGet s ∈ s.pq := pqTopGet_mem hne
  have hcnt1 : s.pq.count (pqTopGet s) ≤ 1 :=
    curCnt_at hM.curcnt (pqTopGet s) hgen
  have hcnt0 : (s.pq.erase (pqTopGet s)).count (pqTopGet s) = 0 := by
    rw [List.count_erase_self]
    have := List.count_pos_iff.mpr hmemt
    omega
  have hnotin : pqTopGet s ∉ s.pq.erase (pqTopGet s) := by
    intro hcon
    have := List.count_pos_iff.mpr hcon
    omega
  have heq : fire_top s =
      (if (evGet
          ({ s with
              fire_count := s.fire_count + 1
              pq := s.pq.erase (pqTopGet s) } : Sched)
          (pqTopGet s).index).status ≠ .Alive then
        ({ s with
            fire_count := s.fire_count + 1
            pq := s.pq.erase (pqTopGet s) } : Sched)
      else
        (fun s4 : Sched =>
          if (evGet s4 (pqTopGet s).index).desc.type = .Repeat ∧
              (evGet s4 (pqTopGet s).index).status ≠ .Cancelled then
            reschedule s4 (pqTopGet s)
          else reuse s4 (pqTopGet s))
        (execCmds
          ({ s with
              fire_count := s.fire_count + 1
              pq := s.pq.erase (pqTopGet s)
              log := s.log ++ [fireRec s] } : Sched)
          (evGet s (pqTopGet s).index).desc.callback)) := by
    unfold fire_top pqPop
    rfl
  rw [heq]
  rw [if_neg (by
    show ¬ ((evGet s (pqTopGet s).index).status ≠ .Alive)
    rw [hal]
    simp)]
  dsimp only
  -- the state after the pop and the ghost log append
  set r0 : FireRec := fireRec s with hr0
  set s3 : Sched := { s with
    fire_count := s.fire_count + 1
    pq := s.pq.erase (pqTopGet s)
    log := s.log ++ [r0] } with hs3
  have hdrop3 : s3.log.drop n = s.log.drop n ++ [r0] := by
    rw [hs3]
    exact List.drop_append_of_le_length hM.nlog
  have hlast3 : lastK n s3 = some (fireKey r0) := by
    unfold lastK
    rw [hdrop3, List.getLast?_concat]
    rfl
  have hkeyt : key s (pqTopGet s) = fireKey r0 := rfl
  have hM3 : MInv n m s3 := by
    refine ⟨hM.tk, hM.glen, ?_, hM.reppos, ?_, hM.flcanc, ?_, ?_, ?_, ?_,
      hM.miss, ?_, ?_, ?_⟩
    · intro e he
      exact hM.genb e (List.mem_of_mem_erase he)
    · intro e he
      calc s3.pq.count _ ≤ s.pq.count _ :=
        (List.erase_sublist _ _).count_le _
        _ ≤ 1 := curCnt_at hM.curcnt _ rfl
    · intro r hr
      rw [hdrop3] at hr
      rcases List.mem_append.mp hr with h | h
      · exact hM.logg r h
      · rw [List.mem_singleton] at h
        subst h
        rw [hr0]
        exact ⟨le_of_eq hgen, hlt⟩
    · intro i hi r hr hri
      rw [hdrop3] at hr
      rcases List.mem_append.mp hr with h | h
      · exact hM.flgen i hi r h hri
      · rw [List.mem_singleton] at h
        subst h
        exfalso
        have hcanc := hM.flcanc i hi
        have hri2 : (pqTopGet s).index = i := hri
        rw [← hri2] at hcanc
        rw [hal] at hcanc
        exact absurd hcanc (by simp)
    · intro h_ hh
      obtain ⟨h1, h2⟩ := hM.issnew h_ hh
      refine ⟨h1, ?_⟩
      intro r hr
      rw [hdrop3] at hr
      rcases List.mem_append.mp hr with h | h
      · exact h2 r h
      · rw [List.mem_singleton] at h
        subst h
        intro hcon
        have hx : (pqTopGet s).index = h_.index := hcon.1
        rw [hx] at hal
        rw [h1] at hal
        exact absurd hal (by simp)
    · rw [hs3]
      dsimp only
      rw [List.length_append]
      have := hM.nlog
      omega
    · rw [hlast3]
      intro e he hge hal2
      have hemem : e ∈ s.pq := List.mem_of_mem_erase he
      have hmin := pqTopGet_min s e hemem
      rw [hkeyt] at hmin
      have hnoteq : fireKey r0 ≠ key s3 e := by
        intro hcon
        have hidx : (pqTopGet s).index = e.index := by
          have := congrArg (fun k : Key => k.2.2) hcon
          dsimp only at this
          exact this
        have h2 : e.gen = (pqTopGet s).gen := by
          rw [hgen, hidx]
          exact hge
        have hept : e = pqTopGet s := by
          cases e with
          | mk ei eg =>
            dsimp only at hidx h2
            rw [← hidx, h2]
        rw [hept] at he
        exact hnotin he
      exact keyLt_idx_eq hmin hnoteq
    · rw [hlast3]
      rw [hr0]
      exact hdue
    · rw [hdrop3]
      rw [List.chain'_append]
      refine ⟨hM.chain, List.chain'_singleton _, ?_⟩
      intro x hx y hy
      rw [List.head?_cons, Option.mem_some_iff] at hy
      subst hy
      have hopt := hM.optlb
      have hlk : lastK n s = some (fireKey x) := by
        unfold lastK
        rw [hx]
        rfl
      rw [hlk] at hopt
      have := hopt (pqTopGet s) hmemt hgen hal
      rw [hkeyt] at this
      exact this
  have hcb := execCmds_step n m ((evGet s (pqTopGet s).index).desc.callback)
    s3 hcbs hM3
  obtain ⟨c1, c2, c3, c4, c5, c6, c7, c8⟩ := hcb.2
  have hM4 := hcb.1
  set s4 : Sched := execCmds s3 ((evGet s (pqTopGet s).index).desc.callback)
    with hs4
  have hlast4 : lastK n s4 = some (fireKey r0) := by
    unfold lastK at hlast3 ⊢
    rw [c3]
    exact hlast3
  have hcur4 : s4.current = s.current := by
    rw [c2]
  have hlen4 : (pqTopGet s).index < s4.events.length :=
    lt_of_lt_of_le hlt c4
  by_cases hbr : (evGet s4 (pqTopGet s).index).desc.type = .Repeat ∧
      (evGet s4 (pqTopGet s).index).status ≠ .Cancelled
  · rw [if_pos hbr]
    unfold reschedule
    by_cases hgr : ¬((pqTopGet s).is_valid && is_alive s4 (pqTopGet s)) = true
    · rw [if_pos hgr]
      exact ⟨hM4, hcur4⟩
    · rw [if_neg hgr]
      have ha4 : is_alive s4 (pqTopGet s) = true := by
        rcases Bool.and_eq_true _ _ |>.mp (not_not.mp hgr) with ⟨-, h⟩
        exact h
      obtain ⟨hlt4, hgen4, hst4⟩ := is_alive_facts ha4
      rw [if_neg (not_not_intro hbr.1)]
      have hgg43 : genGet s4 (pqTopGet s).index =
          genGet s3 (pqTopGet s).index := hgen4.symm.trans hgen
      obtain ⟨hnf4, hdesc4⟩ := c6 (pqTopGet s).index hgg43
      have hrep0 : (evGet s (pqTopGet s).index).desc.type = .Repeat := by
        have h1 := hbr.1
        rw [hdesc4] at h1
        exact h1
      have hiv : 0 < (evGet s4 (pqTopGet s).index).desc.interval_ms := by
        rw [hdesc4]
        exact repPos_at hM.reppos hrep0
      have hcnt40 : s4.pq.count (pqTopGet s) = 0 := by
        have h1 := c8 (pqTopGet s) (le_of_eq hgen)
        have h2 : s3.pq.count (pqTopGet s) = 0 := hcnt0
        omega
      have hres5 : (pqPush { s4 with
          events := s4.events.set (pqTopGet s).index
            { evGet s4 (pqTopGet s).index with
              next_fire := (evGet s4 (pqTopGet s).index).next_fire +
                (evGet s4 (pqTopGet s).index).desc.interval_ms } }
          (pqTopGet s)) = { s4 with
          events := s4.events.set (pqTopGet s).index
            { evGet s4 (pqTopGet s).index with
              next_fire := (evGet s4 (pqTopGet s).index).next_fire +
                (evGet s4 (pqTopGet s).index).desc.interval_ms }
          pq := s4.pq ++ [pqTopGet s] } := rfl
      rw [hres5]
      have hgev5 : ∀ j, j ≠ (pqTopGet s).index →
          evGet { s4 with
            events := s4.events.set (pqTopGet s).index
              { evGet s4 (pqTopGet s).index with
                next_fire := (evGet s4 (pqTopGet s).index).next_fire +
                  (evGet s4 (pqTopGet s).index).desc.interval_ms }
            pq := s4.pq ++ [pqTopGet s] } j = evGet s4 j := by
        intro j hj
        show (s4.events.set (pqTopGet s).index _).getD j {} = _
        exact getD_set_ne _ (fun h => hj h.symm) _ _
      have hgevx5 : evGet { s4 with
            events := s4.events.set (pqTopGet s).index
              { evGet s4 (pqTopGet s).index with
                next_fire := (evGet s4 (pqTopGet s).index).next_fire +
                  (evGet s4 (pqTopGet s).index).desc.interval_ms }
            pq := s4.pq ++ [pqTopGet s] } (pqTopGet s).index =
          { evGet s4 (pqTopGet s).index with
            next_fire := (evGet s4 (pqTopGet s).index).next_fire +
              (evGet s4 (pqTopGet s).index).desc.interval_ms } := by
        show (s4.events.set (pqTopGet s).index _).getD _ {} = _
        exact getD_set_self _ _ hlen4 _ _
      have hstat5 : ∀ j, (evGet { s4 with
            events := s4.events.set (pqTopGet s).index
              { evGet s4 (pqTopGet s).index with
                next_fire := (evGet s4 (pqTopGet s).index).next_fire +
                  (evGet s4 (pqTopGet s).index).desc.interval_ms }
            pq := s4.pq ++ [pqTopGet s] } j).status =
          (evGet s4 j).status := by
        intro j
        by_cases hj : j = (pqTopGet s).index
        · subst hj
          rw [hgevx5]
        · rw [hgev5 j hj]
      have hdesc5 : ∀ j, (evGet { s4 with
            events := s4.events.set (pqTopGet s).index
              { evGet s4 (pqTopGet s).index with
                next_fire := (evGet s4 (pqTopGet s).index).next_fire +
                  (evGet s4 (pqTopGet s).index).desc.interval_ms }
            pq := s4.pq ++ [pqTopGet s] } j).desc =
          (evGet s4 j).desc := by
        intro j
        by_cases hj : j = (pqTopGet s).index
        · subst hj
          rw [hgevx5]
        · rw [hgev5 j hj]
      have hteta : (⟨(pqTopGet s).index, genGet s4 (pqTopGet s).index⟩ :
          EventID) = pqTopGet s := by
        rw [← hgen4]
      refine ⟨⟨hM4.tk, ?_, ?_, ?_, ?_, ?_, ?_, ?_, ?_, hM4.nlog, hM4.miss,
        ?_, ?_, hM4.chain⟩, hcur4⟩
      · have hge := hM4.glen
        unfold GensLen at hge ⊢
        dsimp only
        rw [List.length_set]
        exact hge
      · intro e he
        rcases List.mem_append.mp he with h | h
        · exact hM4.genb e h
        · rw [List.mem_singleton] at h
          subst h
          exact le_of_eq hgen4
      · intro j hj
        rw [List.mem_range] at hj
        simp only [List.length_set] at hj
        rw [hdesc5]
        exact hM4.reppos j (List.mem_range.mpr hj)
      · intro e he
        by_cases hj : e.index = (pqTopGet s).index
        · show ((s4.pq ++ [pqTopGet s]).count
            (⟨e.index, genGet s4 e.index⟩ : EventID)) ≤ 1
          rw [hj]
          rw [hteta, List.count_append, hcnt40]
          simp
        · show ((s4.pq ++ [pqTopGet s]).count
            (⟨e.index, genGet s4 e.index⟩ : EventID)) ≤ 1
          rw [List.count_append]
          have h0 : [pqTopGet s].count
              (⟨e.index, genGet s4 e.index⟩ : EventID) = 0 := by
            rw [List.count_eq_zero]
            intro hc
            rw [List.mem_singleton] at hc
            have h2 := congrArg EventID.index hc
            dsimp only at h2
            exact hj h2
          rw [h0]
          rcases List.mem_append.mp he with h | h
          · rw [Nat.add_zero]
            exact hM4.curcnt e h
          · rw [List.mem_singleton] at h
            have h2 := congrArg EventID.index h
            exact absurd h2 hj
      · intro j hj
        rw [hstat5]
        exact hM4.flcanc j hj
      · intro r hr
        obtain ⟨ha2, hb2⟩ := hM4.logg r hr
        refine ⟨ha2, ?_⟩
        dsimp only
        rw [List.length_set]
        exact hb2
      · intro j hj r hr hri
        exact hM4.flgen j hj r hr hri
      · intro h_ hh
        obtain ⟨ha2, hb2⟩ := hM4.issnew h_ hh
        exact ⟨by rw [hstat5]; exact ha2, hb2⟩
      · rw [show lastK n { s4 with
            events := s4.events.set (pqTopGet s).index
              { evGet s4 (pqTopGet s).index with
                next_fire := (evGet s4 (pqTopGet s).index).next_fire +
                  (evGet s4 (pqTopGet s).index).desc.interval_ms }
            pq := s4.pq ++ [pqTopGet s] } = lastK n s4 from rfl]
        rw [hlast4]
        intro e he hge hal2
        rcases List.mem_append.mp he with h | h
        · by_cases hj : e.index = (pqTopGet s).index
          · exfalso
            have hge2 : e.gen = genGet s4 e.index := hge
            have hept : e = pqTopGet s := by
              cases e with
              | mk ei eg =>
                dsimp only at hj hge2 ⊢
                rw [hj] at hge2 ⊢
                rw [hge2, ← hgen4]
            rw [hept] at h
            have := List.count_pos_iff.mpr h
            omega
          · have hk : key { s4 with
                events := s4.events.set (pqTopGet s).index
                  { evGet s4 (pqTopGet s).index with
                    next_fire := (evGet s4 (pqTopGet s).index).next_fire +
                      (evGet s4 (pqTopGet s).index).desc.interval_ms }
                pq := s4.pq ++ [pqTopGet s] } e = key s4 e := by
              unfold key
              rw [hgev5 _ hj]
            rw [hk]
            have hop4 := hM4.optlb
            rw [hlast4] at hop4
            refine hop4 e h hge ?_
            rw [← hstat5]
            exact hal2
        · rw [List.mem_singleton] at h
          subst h
          have hk : key { s4 with
              events := s4.events.set (pqTopGet s).index
                { evGet s4 (pqTopGet s).index with
                  next_fire := (evGet s4 (pqTopGet s).index).next_fire +
                    (evGet s4 (pqTopGet s).index).desc.interval_ms }
              pq := s4.pq ++ [pqTopGet s] } (pqTopGet s) =
              ((evGet s4 (pqTopGet s).index).next_fire +
                (evGet s4 (pqTopGet s).index).desc.interval_ms,
               (evGet s4 (pqTopGet s).index).desc.pri.rank,
               (pqTopGet s).index) := by
            unfold key
            rw [hgevx5]
          rw [hk]
          have hfk : (fireKey r0).1 = (evGet s (pqTopGet s).index).next_fire :=
            rfl
          refine Or.inl ?_
          rw [hfk, hnf4]
          show (evGet s3 (pqTopGet s).index).next_fire <
            (evGet s3 (pqTopGet s).index).next_fire +
              (evGet s4 (pqTopGet s).index).desc.interval_ms
          omega
      · rw [show lastK n { s4 with
            events := s4.events.set (pqTopGet s).index
              { evGet s4 (pqTopGet s).index with
                next_fire := (evGet s4 (pqTopGet s).index).next_fire +
                  (evGet s4 (pqTopGet s).index).desc.interval_ms }
            pq := s4.pq ++ [pqTopGet s] } = lastK n s4 from rfl]
        rw [hlast4]
        show (fireRec s).next_fire ≤ _
        calc (fireRec s).next_fire ≤ s.current := hdue
          _ = s4.current := hcur4.symm
  · rw [if_neg hbr]
    unfold reuse
    have hglt4 : (pqTopGet s).index < s4.gens.length := by
      have := hM4.glen
      unfold GensLen at this
      omega
    have hgev5 : ∀ j, j ≠ (pqTopGet s).index →
        (s4.events.set (pqTopGet s).index
          { evGet s4 (pqTopGet s).index with status := .Cancelled }).getD
            j {} = evGet s4 j := by
      intro j hj
      exact getD_set_ne _ (fun h => hj h.symm) _ _
    have hgevx5 : (s4.events.set (pqTopGet s).index
          { evGet s4 (pqTopGet s).index with status := .Cancelled }).getD
            (pqTopGet s).index {} =
        { evGet s4 (pqTopGet s).index with status := .Cancelled } :=
      getD_set_self _ _ hlen4 _ _
    have hgg5 : ∀ j, j ≠ (pqTopGet s).index →
        (s4.gens.set (pqTopGet s).index
          (genGet s4 (pqTopGet s).index + 1)).getD j 0 = genGet s4 j := by
      intro j hj
      exact getD_set_ne _ (fun h => hj h.symm) _ _
    have hggx5 : (s4.gens.set (pqTopGet s).index
          (genGet s4 (pqTopGet s).index + 1)).getD (pqTopGet s).index 0 =
        genGet s4 (pqTopGet s).index + 1 :=
      getD_set_self _ _ hglt4 _ _
    have hgm5 : ∀ j, genGet s4 j ≤ (s4.gens.set (pqTopGet s).index
        (genGet s4 (pqTopGet s).index + 1)).getD j 0 := by
      intro j
      by_cases hj : j = (pqTopGet s).index
      · subst hj
        rw [hggx5]
        omega
      · rw [hgg5 j hj]
    refine ⟨⟨hM4.tk, ?_, ?_, ?_, ?_, ?_, ?_, ?_, ?_, hM4.nlog, hM4.miss,
      ?_, ?_, hM4.chain⟩, hcur4⟩
    · have hge := hM4.glen
      unfold GensLen at hge ⊢
      dsimp only
      rw [List.length_set, List.length_set]
      exact hge
    · intro e he
      exact le_trans (hM4.genb e he) (hgm5 e.index)
    · intro j hj
      rw [List.mem_range] at hj
      simp only [List.length_set] at hj
      by_cases hji : j = (pqTopGet s).index
      · subst hji
        show ((s4.events.set _ _).getD _ {}).desc.type = _ →
          0 < ((s4.events.set _ _).getD _ {}).desc.interval_ms
        rw [hgevx5]
        intro hrep2
        exact hM4.reppos _ (List.mem_range.mpr hj) hrep2
      · show ((s4.events.set _ _).getD _ {}).desc.type = _ →
          0 < ((s4.events.set _ _).getD _ {}).desc.interval_ms
        rw [hgev5 j hji]
        exact hM4.reppos j (List.mem_range.mpr hj)
    · intro e he
      by_cases hji : e.index = (pqTopGet s).index
      · show (s4.pq.count _) ≤ 1
        rw [hji]
        rw [show genGet { s4 with
            alive := if (evGet s4 (pqTopGet s).index).status = .Alive then
              decSize s4.alive else s4.alive
            events := s4.events.set (pqTopGet s).index
              { evGet s4 (pqTopGet s).index with status := .Cancelled }
            fl := s4.fl ++ [(pqTopGet s).index]
            gens := s4.gens.set (pqTopGet s).index
              (genGet s4 (pqTopGet s).index + 1) } (pqTopGet s).index =
          (s4.gens.set (pqTopGet s).index
            (genGet s4 (pqTopGet s).index + 1)).getD (pqTopGet s).index 0
          from rfl]
        rw [hggx5]
        rw [List.count_eq_zero.mpr]
        · omega
        · intro hcon
          have := hM4.genb _ hcon
          dsimp only at this
          omega
      · show (s4.pq.count _) ≤ 1
        rw [show genGet { s4 with
            alive := if (evGet s4 (pqTopGet s).index).status = .Alive then
              decSize s4.alive else s4.alive
            events := s4.events.set (pqTopGet s).index
              { evGet s4 (pqTopGet s).index with status := .Cancelled }
            fl := s4.fl ++ [(pqTopGet s).index]
            gens := s4.gens.set (pqTopGet s).index
              (genGet s4 (pqTopGet s).index + 1) } e.index =
          (s4.gens.set (pqTopGet s).index
            (genGet s4 (pqTopGet s).index + 1)).getD e.index 0 from rfl]
        rw [hgg5 e.index hji]
        exact hM4.curcnt e he
    · intro j hj
      rcases List.mem_append.mp hj with h | h
      · by_cases hji : j = (pqTopGet s).index
        · subst hji
          show ((s4.events.set _ _).getD _ {}).status = _
          rw [hgevx5]
        · show ((s4.events.set _ _).getD _ {}).status = _
          rw [hgev5 j hji]
          exact hM4.flcanc j h
      · rw [List.mem_singleton] at h
        subst h
        show ((s4.events.set _ _).getD _ {}).status = _
        rw [hgevx5]
    · intro r hr
      obtain ⟨ha2, hb2⟩ := hM4.logg r hr
      refine ⟨le_trans ha2 (hgm5 r.index), ?_⟩
      dsimp only
      rw [List.length_set]
      exact hb2
    · intro j hj r hr hri
      rcases List.mem_append.mp hj with h | h
      · exact lt_of_lt_of_le (hM4.flgen j h r hr hri) (hgm5 j)
      · rw [List.mem_singleton] at h
        subst h
        show r.gen < (s4.gens.set _ _).getD _ 0
        rw [hggx5]
        have := (hM4.logg r hr).1
        rw [hri] at this
        omega
    · intro h_ hh
      obtain ⟨ha2, hb2⟩ := hM4.issnew h_ hh
      refine ⟨?_, hb2⟩
      by_cases hji : h_.index = (pqTopGet s).index
      · rw [hji]
        show ((s4.events.set _ _).getD _ {}).status = _
        rw [hgevx5]
      · show ((s4.events.set _ _).getD _ {}).status = _
        rw [hgev5 _ hji]
        exact ha2
    · rw [show lastK n { s4 with
          alive := if (evGet s4 (pqTopGet s).index).status = .Alive then
            decSize s4.alive else s4.alive
          events := s4.events.set (pqTopGet s).index
            { evGet s4 (pqTopGet s).index with status := .Cancelled }
          fl := s4.fl ++ [(pqTopGet s).index]
          gens := s4.gens.set (pqTopGet s).index
            (genGet s4 (pqTopGet s).index + 1) } = lastK n s4 from rfl]
      rw [hlast4]
      intro e he hge hal2
      by_cases hji : e.index = (pqTopGet s).index
      · exfalso
        have hx : (evGet { s4 with
            alive := if (evGet s4 (pqTopGet s).index).status = .Alive then
              decSize s4.alive else s4.alive
            events := s4.events.set (pqTopGet s).index
              { evGet s4 (pqTopGet s).index with status := .Cancelled }
            fl := s4.fl ++ [(pqTopGet s).index]
            gens := s4.gens.set (pqTopGet s).index
              (genGet s4 (pqTopGet s).index + 1) } e.index).status =
            .Cancelled := by
          rw [hji]
          show ((s4.events.set _ _).getD _ {}).status = _
          rw [hgevx5]
        rw [hal2] at hx
        exact absurd hx (by simp)
      · have hge2 : e.gen = genGet s4 e.index := by
          have h1 : genGet { s4 with
              alive := if (evGet s4 (pqTopGet s).index).status = .Alive then
                decSize s4.alive else s4.alive
              events := s4.events.set (pqTopGet s).index
                { evGet s4 (pqTopGet s).index with status := .Cancelled }
              fl := s4.fl ++ [(pqTopGet s).index]
              gens := s4.gens.set (pqTopGet s).index
                (genGet s4 (pqTopGet s).index + 1) } e.index =
              genGet s4 e.index := hgg5 e.index hji
          rw [h1] at hge
          exact hge
        have hal3 : (evGet s4 e.index).status = .Alive := by
          have h1 : (evGet { s4 with
              alive := if (evGet s4 (pqTopGet s).index).status = .Alive then
                decSize s4.alive else s4.alive
              events := s4.events.set (pqTopGet s).index
                { evGet s4 (pqTopGet s).index with status := .Cancelled }
              fl := s4.fl ++ [(pqTopGet s).index]
              gens := s4.gens.set (pqTopGet s).index
                (genGet s4 (pqTopGet s).index + 1) } e.index) =
              evGet s4 e.index := hgev5 e.index hji
          rw [h1] at hal2
          exact hal2
        have hk : key { s4 with
            alive := if (evGet s4 (pqTopGet s).index).status = .Alive then
              decSize s4.alive else s4.alive
            events := s4.events.set (pqTopGet s).index
              { evGet s4 (pqTopGet s).index with status := .Cancelled }
            fl := s4.fl ++ [(pqTopGet s).index]
            gens := s4.gens.set (pqTopGet s).index
              (genGet s4 (pqTopGet s).index + 1) } e = key s4 e := by
          unfold key
          rw [show (evGet { s4 with
              alive := if (evGet s4 (pqTopGet s).index).status = .Alive then
                decSize s4.alive else s4.alive
              events := s4.events.set (pqTopGet s).index
                { evGet s4 (pqTopGet s).index with status := .Cancelled }
              fl := s4.fl ++ [(pqTopGet s).index]
              gens := s4.gens.set (pqTopGet s).index
                (genGet s4 (pqTopGet s).index + 1) } e.index) =
              evGet s4 e.index from hgev5 e.index hji]
        rw [hk]
        have hop4 := hM4.optlb
        rw [hlast4] at hop4
        exact hop4 e he hge2 hal3
    · rw [show lastK n { s4 with
          alive := if (evGet s4 (pqTopGet s).index).status = .Alive then
            decSize s4.alive else s4.alive
          events := s4.events.set (pqTopGet s).index
            { evGet s4 (pqTopGet s).index with status := .Cancelled }
          fl := s4.fl ++ [(pqTopGet s).index]
          gens := s4.gens.set (pqTopGet s).index
            (genGet s4 (pqTopGet s).index + 1) } = lastK n s4 from rfl]
      rw [hlast4]
      show (fireRec s).next_fire ≤ _
      calc (fireRec s).next_fire ≤ s.current := hdue
        _ = s4.current := hcur4.symm


/-- A `false` answer from the cancelled filter: the state is unchanged and
the top's record is not cancelled. -/
theorem tpc_false {s : Sched} (h : (try_pop_cancelled s).1 = false) :
    (try_pop_cancelled s).2 = s ∧
    (evGet s (pqTopGet s).index).status ≠ .Cancelled := by
  unfold try_pop_cancelled at h ⊢
  by_cases hc : (evGet s (pqTopGet s).index).status ≠ .Cancelled
  · rw [if_pos hc]
    exact ⟨rfl, hc⟩
  · rw [if_neg hc] at h
    exact absurd h (by simp)

/-- A `false` answer from the stale filter: the state is unchanged and the
top carries its slot's current generation. -/
theorem tso_false {s : Sched} (h : (try_skip_old s).1 = false) :
    (try_skip_old s).2 = s ∧
    (pqTopGet s).gen = genGet s (pqTopGet s).index := by
  unfold try_skip_old at h ⊢
  by_cases hc : (pqTopGet s).gen = genGet s (pqTopGet s).index
  · rw [if_pos hc]
    exact ⟨rfl, hc⟩
  · rw [if_neg hc] at h
    exact absurd h (by simp)

/-- A `false` answer from the `Latest` collapse filter leaves the state
unchanged. -/
theorem tsr_false {s : Sched} (h : (try_skip_repeat s).1 = false) :
    (try_skip_repeat s).2 = s := by
  unfold try_skip_repeat at h ⊢
  by_cases h1 : (evGet s (pqTopGet s).index).desc.type ≠ .Repeat
  · rw [if_pos h1]
  · rw [if_neg h1] at h ⊢
    by_cases h2 : (evGet s (pqTopGet s).index).desc.cu ≠ .Latest
    · rw [if_pos h2]
    · rw [if_neg h2] at h ⊢
      by_cases h3 : s.current - (evGet s (pqTopGet s).index).next_fire ≤ 0
      · rw [if_pos h3]
      · rw [if_neg h3] at h ⊢
        by_cases h4 : (s.current -
            (evGet s (pqTopGet s).index).next_fire).tdiv
              (evGet s (pqTopGet s).index).desc.interval_ms = 0
        · rw [if_pos h4]
        · rw [if_neg h4] at h
          exact absurd h (by simp)

/-!
### Callback-language facts independent of the comparator order

`CbOk` (no stored callback uses a descriptor setter) is preserved by every
in-window operation, and the `WInv` handle-freshness invariant is preserved
by every re-entrant command — descriptor setters included.
-/

/-- `CbOk` transfers along pointwise-equal stored callbacks. -/
theorem cbok_of_ev {s s' : Sched}
    (h2 : ∀ i, (evGet s' i).desc.callback = (evGet s i).desc.callback)
    (h : CbOk s) : CbOk s' := by
  intro i c hc
  rw [h2 i] at hc
  exact h i c hc

/-- `CbOk` is preserved by a slab write that keeps the slot's callback. -/
theorem cbok_set (s : Sched) (j : Nat) {e' : Event} {s' : Sched}
    (hev : s'.events = s.events.set j e')
    (hcb : e'.desc.callback = (evGet s j).desc.callback)
    (h : CbOk s) : CbOk s' := by
  intro i c hc
  have hx : evGet s' i = (s.events.set j e').getD i {} := by
    show s'.events.getD i {} = _
    rw [hev]
  rw [hx] at hc
  by_cases hij : j = i
  · subst hij
    by_cases hlt : j < s.events.length
    · rw [getD_set_self _ _ hlt] at hc
      rw [hcb] at hc
      exact h j c hc
    · rw [List.set_eq_of_length_le (by omega)] at hc
      exact h j c hc
  · rw [getD_set_ne _ hij] at hc
    exact h i c hc

/-- `set_next_fire` preserves `CbOk` and the window flag. -/
theorem cbok_snf (s : Sched) (eid : EventID) (nf : Int)
    (htk : s.ticking = true) (h : CbOk s) :
    CbOk (set_next_fire s eid nf) ∧
    (set_next_fire s eid nf).ticking = true := by
  unfold set_next_fire
  by_cases hg1 : ¬(eid.is_valid && is_alive s eid) = true
  · rw [if_pos hg1]
    exact ⟨h, htk⟩
  · rw [if_neg hg1]
    by_cases hg2 : (evGet s eid.index).next_fire = nf
    · rw [if_pos hg2]
      exact ⟨h, htk⟩
    · rw [if_neg hg2]
      by_cases hg3 : s.ticking = true ∧ nf ≤ s.current
      · rw [if_pos hg3]
        exact ⟨h, htk⟩
      · rw [if_neg hg3]
        exact ⟨cbok_set s eid.index rfl rfl h, htk⟩

/-- Every re-entrant command preserves `CbOk` and the window flag: inside a
window a schedule only appends a blank record, and no command writes a
stored callback. -/
theorem cbok_cmd (s : Sched) (c : Cmd) (htk : s.ticking = true)
    (h : CbOk s) :
    CbOk (execCmd s c) ∧ (execCmd s c).ticking = true := by
  cases c with
  | schedule t ty iv ep pri cu cb =>
    show CbOk (schedule_after s t cb ty iv ep pri cu).2 ∧
      (schedule_after s t cb ty iv ep pri cu).2.ticking = true
    by_cases hguard : ty = .Repeat ∧ iv ≤ 0
    · have hres : (schedule_after s t cb ty iv ep pri cu).2 = s := by
        unfold schedule_after
        rw [if_pos hguard]
      rw [hres]
      exact ⟨h, htk⟩
    · by_cases hfe : s.fl.isEmpty
      · have hres : (schedule_after s t cb ty iv ep pri cu).2 = { s with
            events := s.events ++ [{}]
            gens := s.gens ++ [0]
            delay_ops := s.delay_ops ++
              [Op.schedule (s.current + t)
                { type := ty, interval_ms := iv, callback := cb, ep := ep
                  pri := pri, cu := cu }
                ⟨s.events.length, 0 + s.pending_clear⟩]
            issued := s.issued ++
              [⟨s.events.length, 0 + s.pending_clear⟩] } := by
          unfold schedule_after append add_schedule
          rw [if_neg hguard, if_pos hfe]
          dsimp only
          rw [if_pos htk]
        rw [hres]
        refine ⟨cbok_of_ev ?_ h, htk⟩
        intro i
        exact congrArg (fun e => e.desc.callback)
          (getD_append_d s.events ({} : Event) i)
      · have hres : (schedule_after s t cb ty iv ep pri cu).2 = { s with
            fl := s.fl.dropLast
            delay_ops := s.delay_ops ++
              [Op.schedule (s.current + t)
                { type := ty, interval_ms := iv, callback := cb, ep := ep
                  pri := pri, cu := cu }
                ⟨(s.fl.getLast?).getD 0,
                  genGet s ((s.fl.getLast?).getD 0) + s.pending_clear⟩]
            issued := s.issued ++
              [⟨(s.fl.getLast?).getD 0,
                genGet s ((s.fl.getLast?).getD 0) + s.pending_clear⟩] } := by
          unfold schedule_after pop_fl add_schedule
          rw [if_neg hguard, if_neg hfe]
          dsimp only
          rw [if_pos htk]
        rw [hres]
        exact ⟨cbok_of_ev (fun i => rfl) h, htk⟩
  | cancel eid =>
    show CbOk (cancel s eid).2 ∧ (cancel s eid).2.ticking = true
    unfold cancel
    by_cases hg1 : ¬(eid.is_valid && is_alive s eid) = true
    · rw [if_pos hg1]
      exact ⟨h, htk⟩
    · rw [if_neg hg1]
      have ha : is_alive s eid = true := by
        rcases Bool.and_eq_true _ _ |>.mp (not_not.mp hg1) with ⟨-, hx⟩
        exact hx
      obtain ⟨hlt, hgen, hst⟩ := is_alive_facts ha
      rw [if_neg (by rw [hst]; simp)]
      dsimp only
      have h5 : CbOk ({ s with
          events := s.events.set eid.index
            { evGet s eid.index with status := .Cancelled }
          alive := decSize s.alive
          cancelled := s.cancelled + 1 } : Sched) :=
        cbok_set s eid.index rfl rfl h
      by_cases hreb : s.cancelled + 1 > decSize s.alive
      · rw [if_pos hreb]
        dsimp only
        unfold rebuild_pq
        set s1 : Sched := { s with
          events := s.events.set eid.index
            { evGet s eid.index with status := .Cancelled }
          alive := decSize s.alive
          cancelled := s.cancelled + 1 } with hs1
        obtain ⟨f1, f2, f3, f4, f5, f6, f7, f8, f9, f10⟩ :=
          rebuildAux_facts s1.pq.length s1 []
        refine ⟨cbok_of_ev ?_ h5, ?_⟩
        · intro i
          have hx : evGet (rebuildAux s1.pq.length s1 []) i =
              (rebuildAux s1.pq.length s1 []).events.getD i {} := rfl
          rw [hx, f1]
          rfl
        · rw [f3]
          exact htk
      · rw [if_neg hreb]
        exact ⟨h5, htk⟩
  | clear =>
    show CbOk (clear s) ∧ (clear s).ticking = true
    unfold clear add_clear
    rw [if_pos htk]
    exact ⟨h, htk⟩
  | set_next_fire eid nf => exact cbok_snf s eid nf htk h
  | delay eid ms =>
    exact cbok_snf s eid ((evGet s eid.index).next_fire + ms) htk h
  | set_interval eid ms =>
    show CbOk (set_interval s eid ms) ∧ (set_interval s eid ms).ticking = true
    unfold set_interval
    by_cases hg1 : ¬(eid.is_valid && is_alive s eid) = true
    · rw [if_pos hg1]
      exact ⟨h, htk⟩
    · rw [if_neg hg1]
      by_cases hg2 : ¬((evGet s eid.index).desc.type = .Repeat ∧ 0 < ms)
      · rw [if_pos hg2]
        exact ⟨h, htk⟩
      · rw [if_neg hg2]
        exact ⟨cbok_set s eid.index rfl rfl h, htk⟩
  | set_type eid ty =>
    show CbOk (set_type s eid ty) ∧ (set_type s eid ty).ticking = true
    unfold set_type
    by_cases hg1 : ¬(eid.is_valid && is_alive s eid) = true
    · rw [if_pos hg1]
      exact ⟨h, htk⟩
    · rw [if_neg hg1]
      exact ⟨cbok_set s eid.index rfl rfl h, htk⟩
  | set_exp_policy eid p =>
    show CbOk (set_exp_policy s eid p) ∧
      (set_exp_policy s eid p).ticking = true
    unfold set_exp_policy
    by_cases hg1 : ¬(eid.is_valid && is_alive s eid) = true
    · rw [if_pos hg1]
      exact ⟨h, htk⟩
    · rw [if_neg hg1]
      exact ⟨cbok_set s eid.index rfl rfl h, htk⟩
  | set_priority eid p =>
    show CbOk (set_priority s eid p) ∧ (set_priority s eid p).ticking = true
    unfold set_priority
    by_cases hg1 : ¬(eid.is_valid && is_alive s eid) = true
    · rw [if_pos hg1]
      exact ⟨h, htk⟩
    · rw [if_neg hg1]
      exact ⟨cbok_set s eid.index rfl rfl h, htk⟩
  | set_catchup eid cu =>
    show CbOk (set_catchup s eid cu) ∧ (set_catchup s eid cu).ticking = true
    unfold set_catchup
    by_cases hg1 : ¬(eid.is_valid && is_alive s eid) = true
    · rw [if_pos hg1]
      exact ⟨h, htk⟩
    · rw [if_neg hg1]
      exact ⟨cbok_set s eid.index rfl rfl h, htk⟩
  | pause => exact ⟨h, htk⟩

/-- A whole callback program preserves `CbOk` and the window flag. -/
theorem cbok_cmds :
    ∀ (cs : List Cmd) (s : Sched), s.ticking = true → CbOk s →
      CbOk (execCmds s cs) ∧ (execCmds s cs).ticking = true := by
  intro cs
  induction cs with
  | nil =>
    intro s htk h
    exact ⟨h, htk⟩
  | cons c rest ih =>
    intro s htk h
    obtain ⟨h1, h2⟩ := cbok_cmd s c htk h
    exact ih (execCmd s c) h2 h1

/-- `fire_top` preserves `CbOk` and the window flag. -/
theorem cbok_fire (s : Sched) (htk : s.ticking = true) (h : CbOk s) :
    CbOk (fire_top s) ∧ (fire_top s).ticking = true := by
  have heq : fire_top s =
      (if (evGet
          ({ s with
              fire_count := s.fire_count + 1
              pq := s.pq.erase (pqTopGet s) } : Sched)
          (pqTopGet s).index).status ≠ .Alive then
        ({ s with
            fire_count := s.fire_count + 1
            pq := s.pq.erase (pqTopGet s) } : Sched)
      else
        (fun s4 : Sched =>
          if (evGet s4 (pqTopGet s).index).desc.type = .Repeat ∧
              (evGet s4 (pqTopGet s).index).status ≠ .Cancelled then
            reschedule s4 (pqTopGet s)
          else reuse s4 (pqTopGet s))
        (execCmds
          ({ s with
              fire_count := s.fire_count + 1
              pq := s.pq.erase (pqTopGet s)
              log := s.log ++ [fireRec s] } : Sched)
          (evGet s (pqTopGet s).index).desc.callback)) := by
    unfold fire_top pqPop
    rfl
  rw [heq]
  by_cases hal : (evGet s (pqTopGet s).index).status = .Alive
  · rw [if_neg (by
      show ¬ ((evGet s (pqTopGet s).index).status ≠ .Alive)
      rw [hal]
      simp)]
    dsimp only
    set s3 : Sched := { s with
      fire_count := s.fire_count + 1
      pq := s.pq.erase (pqTopGet s)
      log := s.log ++ [fireRec s] } with hs3
    have h3 : CbOk s3 := h
    have htk3 : s3.ticking = true := htk
    obtain ⟨e1, e2⟩ := cbok_cmds ((evGet s (pqTopGet s).index).desc.callback)
      s3 htk3 h3
    set sE : Sched :=
      execCmds s3 ((evGet s (pqTopGet s).index).desc.callback) with hsE
    by_cases hrep : (evGet sE (pqTopGet s).index).desc.type = .Repeat ∧
        (evGet sE (pqTopGet s).index).status ≠ .Cancelled
    · rw [if_pos hrep]
      unfold reschedule
      by_cases hg1 : ¬((pqTopGet s).is_valid && is_alive sE (pqTopGet s)) =
          true
      · rw [if_pos hg1]
        exact ⟨e1, e2⟩
      · rw [if_neg hg1]
        by_cases hg2 : (evGet sE (pqTopGet s).index).desc.type ≠ .Repeat
        · rw [if_pos hg2]
          exact ⟨e1, e2⟩
        · rw [if_neg hg2]
          exact ⟨cbok_set sE (pqTopGet s).index rfl rfl e1, e2⟩
    · rw [if_neg hrep]
      exact ⟨cbok_set sE (pqTopGet s).index rfl rfl e1, e2⟩
  · rw [if_pos (by
      show (evGet s (pqTopGet s).index).status ≠ .Alive
      exact hal)]
    exact ⟨h, htk⟩

/-- The cancelled-top filter preserves `CbOk` and the window flag. -/
theorem cbok_tpc (s : Sched) (htk : s.ticking = true) (h : CbOk s) :
    CbOk (try_pop_cancelled s).2 ∧ (try_pop_cancelled s).2.ticking = true := by
  unfold try_pop_cancelled
  by_cases hc : (evGet s (pqTopGet s).index).status ≠ .Cancelled
  · rw [if_pos hc]
    exact ⟨h, htk⟩
  · rw [if_neg hc]
    exact ⟨h, htk⟩

/-- The stale filter preserves `CbOk` and the window flag. -/
theorem cbok_tso (s : Sched) (htk : s.ticking = true) (h : CbOk s) :
    CbOk (try_skip_old s).2 ∧ (try_skip_old s).2.ticking = true := by
  unfold try_skip_old
  by_cases hg : (pqTopGet s).gen = genGet s (pqTopGet s).index
  · rw [if_pos hg]
    exact ⟨h, htk⟩
  · rw [if_neg hg]
    exact ⟨h, htk⟩

/-- The `Latest` collapse filter preserves `CbOk` and the window flag. -/
theorem cbok_tsr (s : Sched) (htk : s.ticking = true) (h : CbOk s) :
    CbOk (try_skip_repeat s).2 ∧ (try_skip_repeat s).2.ticking = true := by
  unfold try_skip_repeat
  by_cases h1 : (evGet s (pqTopGet s).index).desc.type ≠ .Repeat
  · rw [if_pos h1]
    exact ⟨h, htk⟩
  · rw [if_neg h1]
    by_cases h2 : (evGet s (pqTopGet s).index).desc.cu ≠ .Latest
    · rw [if_pos h2]
      exact ⟨h, htk⟩
    · rw [if_neg h2]
      by_cases h3 : s.current - (evGet s (pqTopGet s).index).next_fire ≤ 0
      · rw [if_pos h3]
        exact ⟨h, htk⟩
      · rw [if_neg h3]
        by_cases h4 : (s.current - (evGet s (pqTopGet s).index).next_fire).tdiv
            (evGet s (pqTopGet s).index).desc.interval_ms = 0
        · rw [if_pos h4]
          exact ⟨h, htk⟩
        · rw [if_neg h4]
          dsimp only
          exact ⟨cbok_set s (pqTopGet s).index rfl rfl h, htk⟩

/-- Frame lemma for the handle-freshness invariant: it survives any step
that only retires statuses, grows generations and the slab, keeps the
queue generation-bounded, extends the free list with retired slots that
are strictly ahead of the window fires on them, and issues only handles on
`Cancelled` slots matching no window fire. -/
theorem winv_frame (n m : Nat) {s s' : Sched} (hW : WInv n m s)
    (hsl : statusLe s s')
    (hg : ∀ i, genGet s i ≤ genGet s' i)
    (hglen : GensLen s')
    (hlen : s.events.length ≤ s'.events.length)
    (hgb : GenB s')
    (hfl : ∀ i ∈ s'.fl, i ∈ s.fl ∨ ((evGet s' i).status = .Cancelled ∧
      ∀ r ∈ s.log.drop n, r.index = i → r.gen < genGet s' i))
    (htk : s'.ticking = s.ticking) (hlog : s'.log = s.log)
    (hiss : ∃ new, s'.issued = s.issued ++ new ∧
      ∀ h_ ∈ new, (evGet s' h_.index).status = .Cancelled ∧
        ∀ r ∈ s.log.drop n, ¬(r.index = h_.index ∧ r.gen = h_.gen)) :
    WInv n m s' := by
  obtain ⟨new, hisseq, hnew⟩ := hiss
  have hcanc : ∀ i, (evGet s i).status = .Cancelled →
      (evGet s' i).status = .Cancelled := by
    intro i hc
    rcases hstat : (evGet s' i).status with _ | _
    · rw [hsl i hstat] at hc
      exact absurd hc (by simp)
    · rfl
  refine ⟨by rw [htk]; exact hW.tk, hglen, hgb, ?_, ?_, ?_, ?_,
    by rw [hlog]; exact hW.nlog, ?_⟩
  · intro i hi
    rcases hfl i hi with hold | hnew2
    · exact hcanc i (hW.flcanc i hold)
    · exact hnew2.1
  · intro r hr
    rw [hlog] at hr
    obtain ⟨ha, hb⟩ := hW.logg r hr
    exact ⟨le_trans ha (hg r.index), lt_of_lt_of_le hb hlen⟩
  · intro i hi r hr hri
    rw [hlog] at hr
    rcases hfl i hi with hold | hnew2
    · exact lt_of_lt_of_le (hW.flgen i hold r hr hri) (hg i)
    · exact hnew2.2 r hr hri
  · intro h_ hh
    rw [hisseq, List.drop_append_of_le_length hW.miss] at hh
    rcases List.mem_append.mp hh with hold | hnw
    · obtain ⟨ha, hb⟩ := hW.issnew h_ hold
      refine ⟨hcanc _ ha, ?_⟩
      intro r hr
      rw [hlog] at hr
      exact hb r hr
    · obtain ⟨ha, hb⟩ := hnew h_ hnw
      refine ⟨ha, ?_⟩
      intro r hr
      rw [hlog] at hr
      exact hb r hr
  · rw [hisseq, List.length_append]
    have := hW.miss
    omega

/-- `WInv` is untouched by a slab write that keeps the slot's status, with
everything else framed. -/
theorem winv_descset (n m : Nat) (s : Sched) (j : Nat) {e' : Event}
    {s' : Sched}
    (hev : s'.events = s.events.set j e')
    (hst : e'.status = (evGet s j).status)
    (hgens : s'.gens = s.gens) (hpq : s'.pq = s.pq)
    (hfl2 : s'.fl = s.fl) (htk : s'.ticking = s.ticking)
    (hlog : s'.log = s.log) (hiss : s'.issued = s.issued)
    (hW : WInv n m s) : WInv n m s' := by
  have hstatus : ∀ i, (evGet s' i).status = (evGet s i).status := by
    intro i
    have hx : evGet s' i = (s.events.set j e').getD i {} := by
      show s'.events.getD i {} = _
      rw [hev]
    rw [hx]
    by_cases hij : j = i
    · subst hij
      by_cases hlt : j < s.events.length
      · rw [getD_set_self _ _ hlt]
        exact hst
      · rw [List.set_eq_of_length_le (by omega)]
        rfl
    · rw [getD_set_ne _ hij]
      rfl
  have hgg : ∀ i, genGet s' i = genGet s i := by
    intro i
    show s'.gens.getD i 0 = _
    rw [hgens]
    rfl
  refine winv_frame n m hW ?_ ?_ ?_ ?_ ?_ ?_ htk hlog
    ⟨[], by rw [hiss, List.append_nil], by simp⟩
  · intro i hal
    rw [hstatus i] at hal
    exact hal
  · intro i
    rw [hgg i]
  · show s'.gens.length = s'.events.length
    rw [hgens, hev, List.length_set]
    exact hW.glen
  · rw [hev, List.length_set]
  · intro e he
    rw [hpq] at he
    rw [hgg e.index]
    exact hW.genb e he
  · intro i hi
    rw [hfl2] at hi
    exact Or.inl hi

/-- `set_next_fire`/`delay` preserve the handle-freshness invariant: the
immediate path bumps the slot's generation and pushes the entry at the new
generation. -/
theorem wsnf (n m : Nat) (s : Sched) (eid : EventID) (nf : Int)
    (hW : WInv n m s) :
    WInv n m (set_next_fire s eid nf) ∧
    (∀ i, genGet s i ≤ genGet (set_next_fire s eid nf) i) ∧
    (set_next_fire s eid nf).log = s.log ∧
    s.events.length ≤ (set_next_fire s eid nf).events.length := by
  unfold set_next_fire
  by_cases hg1 : ¬(eid.is_valid && is_alive s eid) = true
  · rw [if_pos hg1]
    exact ⟨hW, fun i => Nat.le_refl _, rfl, Nat.le_refl _⟩
  · rw [if_neg hg1]
    have ha : is_alive s eid = true := by
      rcases Bool.and_eq_true _ _ |>.mp (not_not.mp hg1) with ⟨-, hx⟩
      exact hx
    obtain ⟨hlt, hgen, hst⟩ := is_alive_facts ha
    have hglt : eid.index < s.gens.length := by
      have := hW.glen
      unfold GensLen at this
      omega
    by_cases hg2 : (evGet s eid.index).next_fire = nf
    · rw [if_pos hg2]
      exact ⟨hW, fun i => Nat.le_refl _, rfl, Nat.le_refl _⟩
    · rw [if_neg hg2]
      by_cases hg3 : s.ticking = true ∧ nf ≤ s.current
      · rw [if_pos hg3]
        exact ⟨⟨hW.tk, hW.glen, hW.genb, hW.flcanc, hW.logg, hW.flgen,
          hW.issnew, hW.nlog, hW.miss⟩, fun i => Nat.le_refl _, rfl,
          Nat.le_refl _⟩
      · rw [if_neg hg3]
        have hggx : genGet (default_set_next_fire s eid nf) eid.index =
            genGet s eid.index + 1 := by
          show (s.gens.set eid.index (genGet s eid.index + 1)).getD
            eid.index 0 = _
          exact getD_set_self _ _ hglt _ _
        have hgg : ∀ i, i ≠ eid.index →
            genGet (default_set_next_fire s eid nf) i = genGet s i := by
          intro i hi
          show (s.gens.set eid.index _).getD i 0 = _
          exact getD_set_ne _ (fun hc => hi hc.symm) _ _
        have hg4 : ∀ i, genGet s i ≤
            genGet (default_set_next_fire s eid nf) i := by
          intro i
          by_cases hi : i = eid.index
          · subst hi
            rw [hggx]
            omega
          · rw [hgg i hi]
        have hevst : ∀ i, (evGet (default_set_next_fire s eid nf) i).status =
            (evGet s i).status := by
          intro i
          by_cases hi : i = eid.index
          · subst hi
            rw [show evGet (default_set_next_fire s eid nf) eid.index =
              { evGet s eid.index with next_fire := nf } from by
                show (s.events.set eid.index _).getD eid.index {} = _
                exact getD_set_self _ _ hlt _ _]
          · rw [show evGet (default_set_next_fire s eid nf) i =
              evGet s i from by
                show (s.events.set eid.index _).getD i {} = _
                exact getD_set_ne _ (fun hc => hi hc.symm) _ _]
        refine ⟨winv_frame n m hW ?_ hg4 ?_ ?_ ?_ ?_ rfl rfl
          ⟨[], by rw [List.append_nil]; rfl, by simp⟩, hg4, rfl, ?_⟩
        · intro i hal
          rw [hevst i] at hal
          exact hal
        · show (s.gens.set eid.index _).length =
            (s.events.set eid.index _).length
          rw [List.length_set, List.length_set]
          exact hW.glen
        · show s.events.length ≤ (s.events.set eid.index _).length
          rw [List.length_set]
        · intro e he
          have he2 : e ∈ s.pq ++ [(⟨eid.index, eid.gen + 1⟩ : EventID)] := he
          rcases List.mem_append.mp he2 with hold | hnew2
          · exact le_trans (hW.genb e hold) (hg4 e.index)
          · rw [List.mem_singleton] at hnew2
            subst hnew2
            show eid.gen + 1 ≤ genGet (default_set_next_fire s eid nf)
              eid.index
            rw [hggx]
            omega
        · intro i hi
          exact Or.inl hi
        · show s.events.length ≤ (s.events.set eid.index _).length
          rw [List.length_set]

/-- Any single re-entrant command — descriptor setters included — preserves
the handle-freshness invariant, grows generations monotonically, writes no
fire log, and never shrinks the slab. -/
theorem wcmd (n m : Nat) (s : Sched) (c : Cmd) (hW : WInv n m s) :
    WInv n m (execCmd s c) ∧
    (∀ i, genGet s i ≤ genGet (execCmd s c) i) ∧
    (execCmd s c).log = s.log ∧
    s.events.length ≤ (execCmd s c).events.length := by
  cases c with
  | schedule t ty iv ep pri cu cb =>
    show WInv n m (schedule_after s t cb ty iv ep pri cu).2 ∧
      (∀ i, genGet s i ≤ genGet (schedule_after s t cb ty iv ep pri cu).2 i) ∧
      (schedule_after s t cb ty iv ep pri cu).2.log = s.log ∧
      s.events.length ≤ (schedule_after s t cb ty iv ep pri cu).2.events.length
    by_cases hguard : ty = .Repeat ∧ iv ≤ 0
    · have hres : (schedule_after s t cb ty iv ep pri cu).2 = s := by
        unfold schedule_after
        rw [if_pos hguard]
      rw [hres]
      exact ⟨hW, fun i => Nat.le_refl _, rfl, Nat.le_refl _⟩
    · by_cases hfe : s.fl.isEmpty
      · have hres : (schedule_after s t cb ty iv ep pri cu).2 = { s with
            events := s.events ++ [{}]
            gens := s.gens ++ [0]
            delay_ops := s.delay_ops ++
              [Op.schedule (s.current + t)
                { type := ty, interval_ms := iv, callback := cb, ep := ep
                  pri := pri, cu := cu }
                ⟨s.events.length, 0 + s.pending_clear⟩]
            issued := s.issued ++
              [⟨s.events.length, 0 + s.pending_clear⟩] } := by
          unfold schedule_after append add_schedule
          rw [if_neg hguard, if_pos hfe]
          dsimp only
          rw [if_pos hW.tk]
        rw [hres]
        set sA : Sched := { s with
            events := s.events ++ [{}]
            gens := s.gens ++ [0]
            delay_ops := s.delay_ops ++
              [Op.schedule (s.current + t)
                { type := ty, interval_ms := iv, callback := cb, ep := ep
                  pri := pri, cu := cu }
                ⟨s.events.length, 0 + s.pending_clear⟩]
            issued := s.issued ++
              [⟨s.events.length, 0 + s.pending_clear⟩] } with hsA
        have hev : ∀ i, evGet sA i = evGet s i := by
          intro i
          exact getD_append_d s.events ({} : Event) i
        have hgg : ∀ i, genGet sA i = genGet s i := by
          intro i
          exact getD_append_d s.gens 0 i
        refine ⟨winv_frame n m hW ?_ ?_ ?_ ?_ ?_ ?_ rfl rfl ?_,
          fun i => le_of_eq (hgg i).symm, rfl, ?_⟩
        · intro i hal
          rw [hev i] at hal
          exact hal
        · intro i
          rw [hgg i]
        · show sA.gens.length = sA.events.length
          have := hW.glen
          unfold GensLen at this
          show (s.gens ++ [0]).length = (s.events ++ [({} : Event)]).length
          simp only [List.length_append, List.length_cons, List.length_nil]
          omega
        · show s.events.length ≤ (s.events ++ [({} : Event)]).length
          simp
        · intro e he
          rw [hgg e.index]
          exact hW.genb e he
        · intro i hi
          exact Or.inl hi
        · refine ⟨[⟨s.events.length, 0 + s.pending_clear⟩], rfl, ?_⟩
          intro h_ hh
          rw [List.mem_singleton] at hh
          subst hh
          refine ⟨?_, ?_⟩
          · show ((s.events ++ [({} : Event)]).getD s.events.length
              ({} : Event)).status = .Cancelled
            rw [getD_append_self]
          · intro r hr hcon
            have h2 := (hW.logg r hr).2
            have h3 : r.index = s.events.length := hcon.1
            omega
        · show s.events.length ≤ (s.events ++ [({} : Event)]).length
          simp
      · have hne : s.fl ≠ [] := by
          intro hc
          rw [hc] at hfe
          exact hfe rfl
        have hifl : (s.fl.getLast?).getD 0 ∈ s.fl := getLastD_mem hne 0
        have hres : (schedule_after s t cb ty iv ep pri cu).2 = { s with
            fl := s.fl.dropLast
            delay_ops := s.delay_ops ++
              [Op.schedule (s.current + t)
                { type := ty, interval_ms := iv, callback := cb, ep := ep
                  pri := pri, cu := cu }
                ⟨(s.fl.getLast?).getD 0,
                  genGet s ((s.fl.getLast?).getD 0) + s.pending_clear⟩]
            issued := s.issued ++
              [⟨(s.fl.getLast?).getD 0,
                genGet s ((s.fl.getLast?).getD 0) + s.pending_clear⟩] } := by
          unfold schedule_after pop_fl add_schedule
          rw [if_neg hguard, if_neg hfe]
          dsimp only
          rw [if_pos hW.tk]
        rw [hres]
        refine ⟨winv_frame n m hW (fun i hal => hal) (fun i => Nat.le_refl _)
          hW.glen (Nat.le_refl _) hW.genb ?_ rfl rfl ?_,
          fun i => Nat.le_refl _, rfl, Nat.le_refl _⟩
        · intro i hi
          exact Or.inl (List.mem_of_mem_dropLast hi)
        · refine ⟨[⟨(s.fl.getLast?).getD 0,
            genGet s ((s.fl.getLast?).getD 0) + s.pending_clear⟩], rfl, ?_⟩
          intro h_ hh
          rw [List.mem_singleton] at hh
          subst hh
          refine ⟨hW.flcanc _ hifl, ?_⟩
          intro r hr hcon
          have h2 := hW.flgen _ hifl r hr hcon.1
          have h3 : r.gen = genGet s ((s.fl.getLast?).getD 0) +
            s.pending_clear := hcon.2
          omega
  | cancel eid =>
    show WInv n m (cancel s eid).2 ∧
      (∀ i, genGet s i ≤ genGet (cancel s eid).2 i) ∧
      (cancel s eid).2.log = s.log ∧
      s.events.length ≤ (cancel s eid).2.events.length
    unfold cancel
    by_cases hg1 : ¬(eid.is_valid && is_alive s eid) = true
    · rw [if_pos hg1]
      exact ⟨hW, fun i => Nat.le_refl _, rfl, Nat.le_refl _⟩
    · rw [if_neg hg1]
      have ha : is_alive s eid = true := by
        rcases Bool.and_eq_true _ _ |>.mp (not_not.mp hg1) with ⟨-, hx⟩
        exact hx
      obtain ⟨hlt, hgen, hst⟩ := is_alive_facts ha
      rw [if_neg (by rw [hst]; simp)]
      dsimp only
      set s1 : Sched := { s with
        events := s.events.set eid.index
          { evGet s eid.index with status := .Cancelled }
        alive := decSize s.alive
        cancelled := s.cancelled + 1 } with hs1
      have hev1 : ∀ i, i ≠ eid.index → evGet s1 i = evGet s i := by
        intro i hi
        show (s.events.set eid.index _).getD i {} = _
        exact getD_set_ne _ (fun hc => hi hc.symm) _ _
      have hst1 : ∀ i, (evGet s1 i).status = .Alive →
          (evGet s i).status = .Alive := by
        intro i hal
        by_cases hi : i = eid.index
        · subst hi
          rw [show evGet s1 eid.index =
              { evGet s eid.index with status := .Cancelled } from
            getD_set_self _ _ hlt _ _] at hal
          exact absurd hal (by simp)
        · rw [hev1 i hi] at hal
          exact hal
      have hW1 : WInv n m s1 :=
        winv_frame n m hW hst1 (fun i => Nat.le_refl _)
          (by show (s1.gens).length = (s1.events).length
              show s.gens.length = (s.events.set eid.index _).length
              rw [List.length_set]
              exact hW.glen)
          (by show s.events.length ≤ (s.events.set eid.index _).length
              rw [List.length_set])
          hW.genb (fun i hi => Or.inl hi) rfl rfl
          ⟨[], by rw [List.append_nil], by simp⟩
      by_cases hreb : s.cancelled + 1 > decSize s.alive
      · rw [if_pos hreb]
        dsimp only
        unfold rebuild_pq
        obtain ⟨f1, f2, f3, f4, f5, f6, f7, f8, f9, f10⟩ :=
          rebuildAux_facts s1.pq.length s1 []
        obtain ⟨m1, m2, m3⟩ := rebuildAux_more s1.pq.length s1 []
        have hsl2 : statusLe s1 (rebuildAux s1.pq.length s1 []) := by
          intro i hal
          have hx : evGet (rebuildAux s1.pq.length s1 []) i =
              evGet s1 i := by
            show (rebuildAux s1.pq.length s1 []).events.getD i {} = _
            rw [f1]
            rfl
          rw [hx] at hal
          exact hal
        have hg2 : ∀ i, genGet s1 i ≤
            genGet (rebuildAux s1.pq.length s1 []) i := fun i => f9 i
        refine ⟨winv_frame n m hW1 hsl2 hg2 ?_ ?_ ?_ ?_ f3 f4 ?_,
          ?_, ?_, ?_⟩
        · show (rebuildAux s1.pq.length s1 []).gens.length =
            (rebuildAux s1.pq.length s1 []).events.length
          rw [m3, f1]
          exact hW1.glen
        · show s1.events.length ≤ (rebuildAux s1.pq.length s1 []).events.length
          rw [f1]
        · intro e he
          rcases f8 e he with hacc | hq
          · exact absurd hacc (by simp)
          · exact le_trans (hW1.genb e hq) (hg2 e.index)
        · intro i hi
          rcases m2 i hi with hold | hnew2
          · exact Or.inl hold
          · refine Or.inr ⟨?_, ?_⟩
            · have hx : evGet (rebuildAux s1.pq.length s1 []) i =
                  evGet s1 i := by
                show (rebuildAux s1.pq.length s1 []).events.getD i {} = _
                rw [f1]
                rfl
              rw [hx]
              exact hnew2.1
            · intro r hr hri
              have hlg := hW1.logg r hr
              have hir : i < s1.gens.length := by
                have := hW1.glen
                unfold GensLen at this
                omega
              have hstrict := hnew2.2 hir
              have hc1 : genGet s1 i = s1.gens.getD i 0 := rfl
              have hc2 : genGet (rebuildAux s1.pq.length s1 []) i =
                  (rebuildAux s1.pq.length s1 []).gens.getD i 0 := rfl
              have hc3 : r.gen ≤ genGet s1 r.index := hlg.1
              rw [hri] at hc3
              omega
        · exact ⟨[], by rw [f6, List.append_nil], by simp⟩
        · intro i
          exact le_trans (Nat.le_refl _) (hg2 i)
        · rw [f4]
        · show s.events.length ≤ (rebuildAux s1.pq.length s1 []).events.length
          rw [f1]
          show s.events.length ≤ (s.events.set eid.index _).length
          rw [List.length_set]
      · rw [if_neg hreb]
        refine ⟨hW1, fun i => Nat.le_refl _, rfl, ?_⟩
        show s.events.length ≤ (s.events.set eid.index _).length
        rw [List.length_set]
  | clear =>
    show WInv n m (clear s) ∧
      (∀ i, genGet s i ≤ genGet (clear s) i) ∧
      (clear s).log = s.log ∧
      s.events.length ≤ (clear s).events.length
    unfold clear add_clear
    rw [if_pos hW.tk]
    exact ⟨⟨hW.tk, hW.glen, hW.genb, hW.flcanc, hW.logg, hW.flgen, hW.issnew,
      hW.nlog, hW.miss⟩, fun i => Nat.le_refl _, rfl, Nat.le_refl _⟩
  | set_next_fire eid nf => exact wsnf n m s eid nf hW
  | delay eid ms =>
    exact wsnf n m s eid ((evGet s eid.index).next_fire + ms) hW
  | set_interval eid ms =>
    show WInv n m (set_interval s eid ms) ∧
      (∀ i, genGet s i ≤ genGet (set_interval s eid ms) i) ∧
      (set_interval s eid ms).log = s.log ∧
      s.events.length ≤ (set_interval s eid ms).events.length
    unfold set_interval
    by_cases hg1 : ¬(eid.is_valid && is_alive s eid) = true
    · rw [if_pos hg1]
      exact ⟨hW, fun i => Nat.le_refl _, rfl, Nat.le_refl _⟩
    · rw [if_neg hg1]
      by_cases hg2 : ¬((evGet s eid.index).desc.type = .Repeat ∧ 0 < ms)
      · rw [if_pos hg2]
        exact ⟨hW, fun i => Nat.le_refl _, rfl, Nat.le_refl _⟩
      · rw [if_neg hg2]
        refine ⟨winv_descset n m s eid.index rfl rfl rfl rfl rfl rfl rfl rfl
          hW, fun i => Nat.le_refl _, rfl, ?_⟩
        show s.events.length ≤ (s.events.set eid.index _).length
        rw [List.length_set]
  | set_type eid ty =>
    show WInv n m (set_type s eid ty) ∧
      (∀ i, genGet s i ≤ genGet (set_type s eid ty) i) ∧
      (set_type s eid ty).log = s.log ∧
      s.events.length ≤ (set_type s eid ty).events.length
    unfold set_type
    by_cases hg1 : ¬(eid.is_valid && is_alive s eid) = true
    · rw [if_pos hg1]
      exact ⟨hW, fun i => Nat.le_refl _, rfl, Nat.le_refl _⟩
    · rw [if_neg hg1]
      refine ⟨winv_descset n m s eid.index rfl rfl rfl rfl rfl rfl rfl rfl
        hW, fun i => Nat.le_refl _, rfl, ?_⟩
      show s.events.length ≤ (s.events.set eid.index _).length
      rw [List.length_set]
  | set_exp_policy eid p =>
    show WInv n m (set_exp_policy s eid p) ∧
      (∀ i, genGet s i ≤ genGet (set_exp_policy s eid p) i) ∧
      (set_exp_policy s eid p).log = s.log ∧
      s.events.length ≤ (set_exp_policy s eid p).events.length
    unfold set_exp_policy
    by_cases hg1 : ¬(eid.is_valid && is_alive s eid) = true
    · rw [if_pos hg1]
      exact ⟨hW, fun i => Nat.le_refl _, rfl, Nat.le_refl _⟩
    · rw [if_neg hg1]
      refine ⟨winv_descset n m s eid.index rfl rfl rfl rfl rfl rfl rfl rfl
        hW, fun i => Nat.le_refl _, rfl, ?_⟩
      show s.events.length ≤ (s.events.set eid.index _).length
      rw [List.length_set]
  | set_priority eid p =>
    show WInv n m (set_priority s eid p) ∧
      (∀ i, genGet s i ≤ genGet (set_priority s eid p) i) ∧
      (set_priority s eid p).log = s.log ∧
      s.events.length ≤ (set_priority s eid p).events.length
    unfold set_priority
    by_cases hg1 : ¬(eid.is_valid && is_alive s eid) = true
    · rw [if_pos hg1]
      exact ⟨hW, fun i => Nat.le_refl _, rfl, Nat.le_refl _⟩
    · rw [if_neg hg1]
      refine ⟨winv_descset n m s eid.index rfl rfl rfl rfl rfl rfl rfl rfl
        hW, fun i => Nat.le_refl _, rfl, ?_⟩
      show s.events.length ≤ (s.events.set eid.index _).length
      rw [List.length_set]
  | set_catchup eid cu =>
    show WInv n m (set_catchup s eid cu) ∧
      (∀ i, genGet s i ≤ genGet (set_catchup s eid cu) i) ∧
      (set_catchup s eid cu).log = s.log ∧
      s.events.length ≤ (set_catchup s eid cu).events.length
    unfold set_catchup
    by_cases hg1 : ¬(eid.is_valid && is_alive s eid) = true
    · rw [if_pos hg1]
      exact ⟨hW, fun i => Nat.le_refl _, rfl, Nat.le_refl _⟩
    · rw [if_neg hg1]
      refine ⟨winv_descset n m s eid.index rfl rfl rfl rfl rfl rfl rfl rfl
        hW, fun i => Nat.le_refl _, rfl, ?_⟩
      show s.events.length ≤ (s.events.set eid.index _).length
      rw [List.length_set]
  | pause =>
    show WInv n m (pause s) ∧
      (∀ i, genGet s i ≤ genGet (pause s) i) ∧
      (pause s).log = s.log ∧
      s.events.length ≤ (pause s).events.length
    exact ⟨⟨hW.tk, hW.glen, hW.genb, hW.flcanc, hW.logg, hW.flgen, hW.issnew,
      hW.nlog, hW.miss⟩, fun i => Nat.le_refl _, rfl, Nat.le_refl _⟩

/-- A whole callback program preserves the handle-freshness invariant. -/
theorem wcmds (n m : Nat) :
    ∀ (cs : List Cmd) (s : Sched), WInv n m s →
      WInv n m (execCmds s cs) ∧
      (∀ i, genGet s i ≤ genGet (execCmds s cs) i) ∧
      (execCmds s cs).log = s.log ∧
      s.events.length ≤ (execCmds s cs).events.length := by
  intro cs
  induction cs with
  | nil =>
    intro s hW
    exact ⟨hW, fun i => Nat.le_refl _, rfl, Nat.le_refl _⟩
  | cons c rest ih =>
    intro s hW
    obtain ⟨a1, a2, a3, a4⟩ := wcmd n m s c hW
    obtain ⟨b1, b2, b3, b4⟩ := ih (execCmd s c) a1
    refine ⟨b1, fun i => le_trans (a2 i) (b2 i), ?_, le_trans a4 b4⟩
    show (execCmds (execCmd s c) rest).log = s.log
    rw [b3, a3]

/-- The cancelled-top filter preserves the handle-freshness invariant. -/
theorem wtpc (n m : Nat) (s : Sched) (hW : WInv n m s) :
    WInv n m (try_pop_cancelled s).2 := by
  unfold try_pop_cancelled
  by_cases hc : (evGet s (pqTopGet s).index).status ≠ .Cancelled
  · rw [if_pos hc]
    exact ⟨hW.tk, hW.glen, hW.genb, hW.flcanc, hW.logg, hW.flgen, hW.issnew,
      hW.nlog, hW.miss⟩
  · rw [if_neg hc]
    have hcanc : (evGet s (pqTopGet s).index).status = .Cancelled :=
      not_not.mp hc
    have hres : ({ pqPop s with
        fl := (pqPop s).fl ++ [(pqTopGet s).index]
        gens := (pqPop s).gens.set (pqTopGet s).index
          (genGet (pqPop s) (pqTopGet s).index + 1)
        cancelled := decSize (pqPop s).cancelled } : Sched) = { s with
        pq := s.pq.erase (pqTopGet s)
        fl := s.fl ++ [(pqTopGet s).index]
        gens := s.gens.set (pqTopGet s).index (genGet s (pqTopGet s).index + 1)
        cancelled := decSize s.cancelled } := rfl
    dsimp only
    rw [hres]
    set sB : Sched := { s with
        pq := s.pq.erase (pqTopGet s)
        fl := s.fl ++ [(pqTopGet s).index]
        gens := s.gens.set (pqTopGet s).index (genGet s (pqTopGet s).index + 1)
        cancelled := decSize s.cancelled } with hsB
    have hg2 : ∀ i, genGet s i ≤ genGet sB i := by
      intro i
      show genGet s i ≤ (s.gens.set (pqTopGet s).index _).getD i 0
      by_cases hi : (pqTopGet s).index = i
      · subst hi
        by_cases hir : (pqTopGet s).index < s.gens.length
        · rw [getD_set_self _ _ hir]
          omega
        · rw [List.set_eq_of_length_le (by omega)]
          exact Nat.le_refl _
      · rw [getD_set_ne _ hi]
        exact Nat.le_refl _
    refine winv_frame n m hW (fun i hal => hal) hg2 ?_ (Nat.le_refl _) ?_ ?_
      rfl rfl ⟨[], by rw [List.append_nil], by simp⟩
    · show (s.gens.set (pqTopGet s).index _).length = s.events.length
      rw [List.length_set]
      exact hW.glen
    · intro e he
      have he2 : e ∈ s.pq.erase (pqTopGet s) := he
      exact le_trans (hW.genb e (List.mem_of_mem_erase he2)) (hg2 e.index)
    · intro i hi
      have hi2 : i ∈ s.fl ++ [(pqTopGet s).index] := hi
      rcases List.mem_append.mp hi2 with hold | hnw
      · exact Or.inl hold
      · rw [List.mem_singleton] at hnw
        subst hnw
        refine Or.inr ⟨?_, ?_⟩
        · show (evGet s (pqTopGet s).index).status = .Cancelled
          exact hcanc
        · intro r hr hri
          have hlg := hW.logg r hr
          have hir : (pqTopGet s).index < s.gens.length := by
            have := hW.glen
            unfold GensLen at this
            have h2 := hlg.2
            rw [hri] at h2
            omega
          have hc3 : r.gen ≤ genGet s r.index := hlg.1
          rw [hri] at hc3
          show r.gen < (s.gens.set (pqTopGet s).index
            (genGet s (pqTopGet s).index + 1)).getD (pqTopGet s).index 0
          rw [getD_set_self _ _ hir]
          omega

/-- The stale filter preserves the handle-freshness invariant. -/
theorem wtso (n m : Nat) (s : Sched) (hW : WInv n m s) :
    WInv n m (try_skip_old s).2 := by
  unfold try_skip_old
  by_cases hg : (pqTopGet s).gen = genGet s (pqTopGet s).index
  · rw [if_pos hg]
    exact ⟨hW.tk, hW.glen, hW.genb, hW.flcanc, hW.logg, hW.flgen, hW.issnew,
      hW.nlog, hW.miss⟩
  · rw [if_neg hg]
    refine winv_frame n m hW (fun i hal => hal) (fun i => Nat.le_refl _)
      hW.glen (Nat.le_refl _) ?_ (fun i hi => Or.inl hi) rfl rfl
      ⟨[], by rw [List.append_nil]; rfl, by simp⟩
    intro e he
    have he2 : e ∈ s.pq.erase (pqTopGet s) := he
    exact hW.genb e (List.mem_of_mem_erase he2)

/-- The `Latest` collapse filter preserves the handle-freshness invariant. -/
theorem wtsr (n m : Nat) (s : Sched) (hne : s.pq ≠ []) (hW : WInv n m s) :
    WInv n m (try_skip_repeat s).2 := by
  unfold try_skip_repeat
  by_cases h1 : (evGet s (pqTopGet s).index).desc.type ≠ .Repeat
  · rw [if_pos h1]
    exact ⟨hW.tk, hW.glen, hW.genb, hW.flcanc, hW.logg, hW.flgen, hW.issnew,
      hW.nlog, hW.miss⟩
  · rw [if_neg h1]
    by_cases h2 : (evGet s (pqTopGet s).index).desc.cu ≠ .Latest
    · rw [if_pos h2]
      exact ⟨hW.tk, hW.glen, hW.genb, hW.flcanc, hW.logg, hW.flgen,
        hW.issnew, hW.nlog, hW.miss⟩
    · rw [if_neg h2]
      by_cases h3 : s.current - (evGet s (pqTopGet s).index).next_fire ≤ 0
      · rw [if_pos h3]
        exact ⟨hW.tk, hW.glen, hW.genb, hW.flcanc, hW.logg, hW.flgen,
          hW.issnew, hW.nlog, hW.miss⟩
      · rw [if_neg h3]
        by_cases h4 : (s.current -
            (evGet s (pqTopGet s).index).next_fire).tdiv
              (evGet s (pqTopGet s).index).desc.interval_ms = 0
        · rw [if_pos h4]
          exact ⟨hW.tk, hW.glen, hW.genb, hW.flcanc, hW.logg, hW.flgen,
            hW.issnew, hW.nlog, hW.miss⟩
        · rw [if_neg h4]
          dsimp only
          set nf2 : Int := (evGet s (pqTopGet s).index).next_fire +
            ((s.current - (evGet s (pqTopGet s).index).next_fire).tdiv
              (evGet s (pqTopGet s).index).desc.interval_ms) *
            (evGet s (pqTopGet s).index).desc.interval_ms with hnf2
          have hres : (pqPush { pqPop s with
              events := (pqPop s).events.set (pqTopGet s).index
                { evGet s (pqTopGet s).index with next_fire := nf2 } }
              (pqTopGet s)) = { s with
              pq := (s.pq.erase (pqTopGet s)) ++ [pqTopGet s]
              events := s.events.set (pqTopGet s).index
                { evGet s (pqTopGet s).index with next_fire := nf2 } } := rfl
          rw [hres]
          have hevst : ∀ i, ((s.events.set (pqTopGet s).index
              { evGet s (pqTopGet s).index with next_fire := nf2 }).getD
                i {}).status = (evGet s i).status := by
            intro i
            by_cases hi : (pqTopGet s).index = i
            · subst hi
              by_cases hir : (pqTopGet s).index < s.events.length
              · rw [getD_set_self _ _ hir]
              · rw [List.set_eq_of_length_le (by omega)]
                rfl
            · rw [getD_set_ne _ hi]
              rfl
          refine winv_frame n m hW ?_ (fun i => Nat.le_refl _) ?_ ?_ ?_
            (fun i hi => Or.inl hi) rfl rfl
            ⟨[], by rw [List.append_nil], by simp⟩
          · intro i hal
            have := hevst i
            rw [show (evGet ({ s with
                pq := (s.pq.erase (pqTopGet s)) ++ [pqTopGet s]
                events := s.events.set (pqTopGet s).index
                  { evGet s (pqTopGet s).index with next_fire := nf2 } } :
                Sched) i) = (s.events.set (pqTopGet s).index
                  { evGet s (pqTopGet s).index with next_fire := nf2 }).getD
                    i {} from rfl, this] at hal
            exact hal
          · show s.gens.length = (s.events.set (pqTopGet s).index _).length
            rw [List.length_set]
            exact hW.glen
          · show s.events.length ≤ (s.events.set (pqTopGet s).index _).length
            rw [List.length_set]
          · intro e he
            have he2 : e ∈ (s.pq.erase (pqTopGet s)) ++ [pqTopGet s] := he
            rcases List.mem_append.mp he2 with hold | hnw
            · exact hW.genb e (List.mem_of_mem_erase hold)
            · rw [List.mem_singleton] at hnw
              subst hnw
              exact hW.genb _ (pqTopGet_mem hne)

/-- `fire_top` preserves the handle-freshness invariant: the fired slot was
alive (so it is no window-issued handle's slot and no free-list slot), and
its record enters the log generation-bounded. -/
theorem wfire (n m : Nat) (s : Sched) (hne : s.pq ≠ []) (hW : WInv n m s)
    (hal : (evGet s (pqTopGet s).index).status = .Alive)
    (hgen : (pqTopGet s).gen = genGet s (pqTopGet s).index) :
    WInv n m (fire_top s) := by
  have hlt : (pqTopGet s).index < s.events.length := evGet_alive_lt hal
  have heq : fire_top s =
      (if (evGet
          ({ s with
              fire_count := s.fire_count + 1
              pq := s.pq.erase (pqTopGet s) } : Sched)
          (pqTopGet s).index).status ≠ .Alive then
        ({ s with
            fire_count := s.fire_count + 1
            pq := s.pq.erase (pqTopGet s) } : Sched)
      else
        (fun s4 : Sched =>
          if (evGet s4 (pqTopGet s).index).desc.type = .Repeat ∧
              (evGet s4 (pqTopGet s).index).status ≠ .Cancelled then
            reschedule s4 (pqTopGet s)
          else reuse s4 (pqTopGet s))
        (execCmds
          ({ s with
              fire_count := s.fire_count + 1
              pq := s.pq.erase (pqTopGet s)
              log := s.log ++ [fireRec s] } : Sched)
          (evGet s (pqTopGet s).index).desc.callback)) := by
    unfold fire_top pqPop
    rfl
  rw [heq]
  rw [if_neg (by
    show ¬ ((evGet s (pqTopGet s).index).status ≠ .Alive)
    rw [hal]
    simp)]
  dsimp only
  set r0 : FireRec := fireRec s with hr0
  set s3 : Sched := { s with
    fire_count := s.fire_count + 1
    pq := s.pq.erase (pqTopGet s)
    log := s.log ++ [r0] } with hs3
  have hdrop3 : s3.log.drop n = s.log.drop n ++ [r0] := by
    rw [hs3]
    exact List.drop_append_of_le_length hW.nlog
  have hW3 : WInv n m s3 := by
    refine ⟨hW.tk, hW.glen, ?_, hW.flcanc, ?_, ?_, ?_, ?_, hW.miss⟩
    · intro e he
      exact hW.genb e (List.mem_of_mem_erase he)
    · intro r hr
      rw [hdrop3] at hr
      rcases List.mem_append.mp hr with hold | hnw
      · exact hW.logg r hold
      · rw [List.mem_singleton] at hnw
        subst hnw
        rw [hr0]
        exact ⟨le_of_eq hgen, hlt⟩
    · intro i hi r hr hri
      rw [hdrop3] at hr
      rcases List.mem_append.mp hr with hold | hnw
      · exact hW.flgen i hi r hold hri
      · rw [List.mem_singleton] at hnw
        subst hnw
        exfalso
        have hcanc := hW.flcanc i hi
        have hri2 : (pqTopGet s).index = i := hri
        rw [← hri2] at hcanc
        rw [hal] at hcanc
        exact absurd hcanc (by simp)
    · intro h_ hh
      obtain ⟨h1, h2⟩ := hW.issnew h_ hh
      refine ⟨h1, ?_⟩
      intro r hr
      rw [hdrop3] at hr
      rcases List.mem_append.mp hr with hold | hnw
      · exact h2 r hold
      · rw [List.mem_singleton] at hnw
        subst hnw
        intro hcon
        have hx : (pqTopGet s).index = h_.index := hcon.1
        have h1b : (evGet s (pqTopGet s).index).status = .Cancelled := by
          rw [hx]
          exact h1
        rw [hal] at h1b
        exact absurd h1b (by simp)
    · show n ≤ (s.log ++ [r0]).length
      rw [List.length_append]
      have := hW.nlog
      omega
  obtain ⟨c1, c2, c3, c4⟩ :=
    wcmds n m ((evGet s (pqTopGet s).index).desc.callback) s3 hW3
  set sE : Sched :=
    execCmds s3 ((evGet s (pqTopGet s).index).desc.callback) with hsE
  by_cases hrep : (evGet sE (pqTopGet s).index).desc.type = .Repeat ∧
      (evGet sE (pqTopGet s).index).status ≠ .Cancelled
  · rw [if_pos hrep]
    unfold reschedule
    by_cases hg1 : ¬((pqTopGet s).is_valid && is_alive sE (pqTopGet s)) =
        true
    · rw [if_pos hg1]
      exact c1
    · rw [if_neg hg1]
      by_cases hg2 : (evGet sE (pqTopGet s).index).desc.type ≠ .Repeat
      · rw [if_pos hg2]
        exact c1
      · rw [if_neg hg2]
        have hres2 : (pqPush { sE with
            events := sE.events.set (pqTopGet s).index
              { evGet sE (pqTopGet s).index with next_fire :=
                  (evGet sE (pqTopGet s).index).next_fire +
                  (evGet sE (pqTopGet s).index).desc.interval_ms } }
            (pqTopGet s)) = { sE with
            pq := sE.pq ++ [pqTopGet s]
            events := sE.events.set (pqTopGet s).index
              { evGet sE (pqTopGet s).index with next_fire :=
                  (evGet sE (pqTopGet s).index).next_fire +
                  (evGet sE (pqTopGet s).index).desc.interval_ms } } := rfl
        rw [hres2]
        have hevst : ∀ i, ((sE.events.set (pqTopGet s).index
            { evGet sE (pqTopGet s).index with next_fire :=
                (evGet sE (pqTopGet s).index).next_fire +
                (evGet sE (pqTopGet s).index).desc.interval_ms }).getD
              i {}).status = (evGet sE i).status := by
          intro i
          by_cases hi : (pqTopGet s).index = i
          · subst hi
            by_cases hir : (pqTopGet s).index < sE.events.length
            · rw [getD_set_self _ _ hir]
            · rw [List.set_eq_of_length_le (by omega)]
              rfl
          · rw [getD_set_ne _ hi]
            rfl
        refine winv_frame n m c1 ?_ (fun i => Nat.le_refl _) ?_ ?_ ?_
          (fun i hi => Or.inl hi) rfl rfl
          ⟨[], by rw [List.append_nil], by simp⟩
        · intro i hal2
          have hx := hevst i
          rw [show evGet ({ sE with
              pq := sE.pq ++ [pqTopGet s]
              events := sE.events.set (pqTopGet s).index
                { evGet sE (pqTopGet s).index with next_fire :=
                    (evGet sE (pqTopGet s).index).next_fire +
                    (evGet sE (pqTopGet s).index).desc.interval_ms } } :
              Sched) i = (sE.events.set (pqTopGet s).index
                { evGet sE (pqTopGet s).index with next_fire :=
                    (evGet sE (pqTopGet s).index).next_fire +
                    (evGet sE (pqTopGet s).index).desc.interval_ms }).getD
                  i {} from rfl, hx] at hal2
          exact hal2
        · show sE.gens.length = (sE.events.set (pqTopGet s).index _).length
          rw [List.length_set]
          exact c1.glen
        · show sE.events.length ≤ (sE.events.set (pqTopGet s).index _).length
          rw [List.length_set]
        · intro e he
          have he2 : e ∈ sE.pq ++ [pqTopGet s] := he
          rcases List.mem_append.mp he2 with hold | hnw
          · exact c1.genb e hold
          · rw [List.mem_singleton] at hnw
            subst hnw
            exact le_trans (le_of_eq hgen) (c2 (pqTopGet s).index)
  · rw [if_neg hrep]
    have hgens : (reuse sE (pqTopGet s)).gens =
        sE.gens.set (pqTopGet s).index (genGet sE (pqTopGet s).index + 1) :=
      rfl
    have hev2 : (reuse sE (pqTopGet s)).events =
        sE.events.set (pqTopGet s).index
          { evGet sE (pqTopGet s).index with status := .Cancelled } := rfl
    have hfl2 : (reuse sE (pqTopGet s)).fl = sE.fl ++ [(pqTopGet s).index] :=
      rfl
    have hlt2 : (pqTopGet s).index < sE.events.length := lt_of_lt_of_le hlt c4
    have hglt2 : (pqTopGet s).index < sE.gens.length := by
      have := c1.glen
      unfold GensLen at this
      omega
    have hg5 : ∀ i, genGet sE i ≤ genGet (reuse sE (pqTopGet s)) i := by
      intro i
      show genGet sE i ≤ (reuse sE (pqTopGet s)).gens.getD i 0
      rw [hgens]
      by_cases hi : (pqTopGet s).index = i
      · subst hi
        rw [getD_set_self _ _ hglt2]
        omega
      · rw [getD_set_ne _ hi]
        exact Nat.le_refl _
    have hevst2 : ∀ i, (evGet (reuse sE (pqTopGet s)) i).status = .Alive →
        (evGet sE i).status = .Alive := by
      intro i hal2
      have hx : evGet (reuse sE (pqTopGet s)) i =
          (sE.events.set (pqTopGet s).index
            { evGet sE (pqTopGet s).index with status := .Cancelled }).getD
            i {} := by
        show (reuse sE (pqTopGet s)).events.getD i {} = _
        rw [hev2]
      rw [hx] at hal2
      by_cases hi : (pqTopGet s).index = i
      · subst hi
        rw [getD_set_self _ _ hlt2] at hal2
        exact absurd hal2 (by simp)
      · rw [getD_set_ne _ hi] at hal2
        exact hal2
    refine winv_frame n m c1 hevst2 hg5 ?_ ?_ ?_ ?_ rfl rfl
      ⟨[], by rw [List.append_nil]; rfl, by simp⟩
    · show (reuse sE (pqTopGet s)).gens.length =
        (reuse sE (pqTopGet s)).events.length
      rw [hgens, hev2, List.length_set, List.length_set]
      exact c1.glen
    · show sE.events.length ≤ (reuse sE (pqTopGet s)).events.length
      rw [hev2, List.length_set]
    · intro e he
      have he2 : e ∈ sE.pq := he
      exact le_trans (c1.genb e he2) (hg5 e.index)
    · intro i hi
      rw [hfl2] at hi
      rcases List.mem_append.mp hi with hold | hnw
      · exact Or.inl hold
      · rw [List.mem_singleton] at hnw
        subst hnw
        refine Or.inr ⟨?_, ?_⟩
        · show ((reuse sE (pqTopGet s)).events.getD (pqTopGet s).index
            {}).status = .Cancelled
          rw [hev2, getD_set_self _ _ hlt2]
        · intro r hr hri
          have hc3 : r.gen ≤ genGet sE r.index := (c1.logg r hr).1
          rw [hri] at hc3
          show r.gen < (reuse sE (pqTopGet s)).gens.getD (pqTopGet s).index 0
          rw [hgens, getD_set_self _ _ hglt2]
          omega

/-- The dispatch loop of `tick` preserves the handle-freshness invariant,
for every fuel value and arbitrary callbacks. -/
theorem wtickLoop (n m : Nat) (fuel : Nat) :
    ∀ s : Sched, WInv n m s → WInv n m (tickLoop fuel s) := by
  induction fuel with
  | zero =>
    intro s hW
    exact hW
  | succ f ih =>
    intro s hW
    unfold tickLoop
    by_cases hemp : s.pq.isEmpty
    · rw [if_pos hemp]
      exact hW
    · rw [if_neg hemp]
      have hne : s.pq ≠ [] := by
        intro hc
        rw [hc] at hemp
        exact hemp rfl
      have hp1 : try_pop_cancelled s =
          ((try_pop_cancelled s).1, (try_pop_cancelled s).2) := rfl
      rcases hb1 : (try_pop_cancelled s).1 with _ | _
      · rw [hb1] at hp1
        rw [hp1]
        dsimp only
        rw [if_neg Bool.false_ne_true]
        rw [(tpc_false hb1).1]
        have hp2 : try_skip_old s =
            ((try_skip_old s).1, (try_skip_old s).2) := rfl
        rcases hb2 : (try_skip_old s).1 with _ | _
        · rw [hb2] at hp2
          rw [hp2]
          dsimp only
          rw [if_neg Bool.false_ne_true]
          rw [(tso_false hb2).1]
          have hp3 : try_skip_repeat s =
              ((try_skip_repeat s).1, (try_skip_repeat s).2) := rfl
          rcases hb3 : (try_skip_repeat s).1 with _ | _
          · rw [hb3] at hp3
            rw [hp3]
            dsimp only
            rw [if_neg Bool.false_ne_true]
            rw [tsr_false hb3]
            by_cases hdue : s.current <
                (evGet s (pqTopGet s).index).next_fire
            · rw [if_pos hdue]
              exact hW
            · rw [if_neg hdue]
              have hal : (evGet s (pqTopGet s).index).status = .Alive :=
                status_ne_cancelled_iff.mp (tpc_false hb1).2
              exact ih _ (wfire n m s hne hW hal (tso_false hb2).2)
          · rw [hb3] at hp3
            rw [hp3]
            dsimp only
            rw [if_pos rfl]
            exact ih _ (wtsr n m s hne hW)
        · rw [hb2] at hp2
          rw [hp2]
          dsimp only
          rw [if_pos rfl]
          exact ih _ (wtso n m s hW)
      · rw [hb1] at hp1
        rw [hp1]
        dsimp only
        rw [if_pos rfl]
        exact ih _ (wtpc n m s hW)

/-- The dispatch loop of `run` preserves the handle-freshness invariant,
for every fuel value and arbitrary callbacks. -/
theorem wrunLoop (n m : Nat) (fuel : Nat) :
    ∀ s : Sched, WInv n m s → WInv n m (runLoop fuel s) := by
  induction fuel with
  | zero =>
    intro s hW
    exact hW
  | succ f ih =>
    intro s hW
    unfold runLoop
    by_cases hemp : s.pq.isEmpty
    · rw [if_pos hemp]
      exact hW
    · rw [if_neg hemp]
      have hne : s.pq ≠ [] := by
        intro hc
        rw [hc] at hemp
        exact hemp rfl
      have hp1 : try_pop_cancelled s =
          ((try_pop_cancelled s).1, (try_pop_cancelled s).2) := rfl
      rcases hb1 : (try_pop_cancelled s).1 with _ | _
      · rw [hb1] at hp1
        rw [hp1]
        dsimp only
        rw [if_neg Bool.false_ne_true]
        rw [(tpc_false hb1).1]
        have hp2 : try_skip_repeat s =
            ((try_skip_repeat s).1, (try_skip_repeat s).2) := rfl
        rcases hb2 : (try_skip_repeat s).1 with _ | _
        · rw [hb2] at hp2
          rw [hp2]
          dsimp only
          rw [if_neg Bool.false_ne_true]
          rw [tsr_false hb2]
          have hp3 : try_skip_old s =
              ((try_skip_old s).1, (try_skip_old s).2) := rfl
          rcases hb3 : (try_skip_old s).1 with _ | _
          · rw [hb3] at hp3
            rw [hp3]
            dsimp only
            rw [if_neg Bool.false_ne_true]
            rw [(tso_false hb3).1]
            have hal : (evGet s (pqTopGet s).index).status = .Alive :=
              status_ne_cancelled_iff.mp (tpc_false hb1).2
            have hgen := (tso_false hb3).2
            have hW4 : WInv n m ({ s with
                current := (evGet s (pqTopGet s).index).next_fire } :
                Sched) := ⟨hW.tk, hW.glen, hW.genb, hW.flcanc, hW.logg,
              hW.flgen, hW.issnew, hW.nlog, hW.miss⟩
            have hne4 : ({ s with
                current := (evGet s (pqTopGet s).index).next_fire } :
                Sched).pq ≠ [] := hne
            exact ih _ (wfire n m _ hne4 hW4 hal hgen)
          · rw [hb3] at hp3
            rw [hp3]
            dsimp only
            rw [if_pos rfl]
            exact ih _ (wtso n m s hW)
        · rw [hb2] at hp2
          rw [hp2]
          dsimp only
          rw [if_pos rfl]
          exact ih _ (wtsr n m s hne hW)
      · rw [hb1] at hp1
        rw [hp1]
        dsimp only
        rw [if_pos rfl]
        exact ih _ (wtpc n m s hW)

/-- Opening a dispatch window for the handle-freshness invariant. -/
theorem winv_start (n m : Nat) (s s' : Sched)
    (h1 : GensLen s) (h2 : GenB s) (h5 : FlCanc s)
    (hev : s'.events = s.events) (hpq : s'.pq = s.pq) (hfl : s'.fl = s.fl)
    (hg : s'.gens = s.gens) (htk : s'.ticking = true) (hlog : s'.log = s.log)
    (hiss : s'.issued = s.issued)
    (hn : n = s.log.length) (hm : m = s.issued.length) :
    WInv n m s' := by
  refine ⟨htk, ?_, ?_, ?_, ?_, ?_, ?_, ?_, ?_⟩
  · show s'.gens.length = s'.events.length
    rw [hg, hev]
    exact h1
  · intro e he
    rw [hpq] at he
    show e.gen ≤ s'.gens.getD e.index 0
    rw [hg]
    exact h2 e he
  · intro i hi
    rw [hfl] at hi
    show (s'.events.getD i {}).status = .Cancelled
    rw [hev]
    exact h5 i hi
  · intro r hr
    rw [hlog, hn, List.drop_length] at hr
    exact absurd hr (by simp)
  · intro i hi r hr
    rw [hlog, hn, List.drop_length] at hr
    exact absurd hr (by simp)
  · intro h_ hh
    rw [hiss, hm, List.drop_length] at hh
    exact absurd hh (by simp)
  · rw [hlog]
    omega
  · rw [hiss]
    omega

/-- The dispatch loop of `tick` preserves the window invariant and never
touches the clock, for every fuel value, over setter-free callbacks. -/
theorem tickLoop_minv (n m : Nat) (fuel : Nat) :
    ∀ s : Sched, MInv n m s → CbOk s →
      (MInv n m (tickLoop fuel s) ∧ CbOk (tickLoop fuel s)) ∧
      (tickLoop fuel s).current = s.current := by
  induction fuel with
  | zero =>
    intro s hM hcb2
    exact ⟨⟨hM, hcb2⟩, rfl⟩
  | succ f ih =>
    intro s hM hcb2
    unfold tickLoop
    by_cases hemp : s.pq.isEmpty
    · rw [if_pos hemp]
      exact ⟨⟨hM, hcb2⟩, rfl⟩
    · rw [if_neg hemp]
      have hne : s.pq ≠ [] := by
        intro hc
        rw [hc] at hemp
        exact hemp rfl
      have hp1 : try_pop_cancelled s =
          ((try_pop_cancelled s).1, (try_pop_cancelled s).2) := rfl
      rcases hb1 : (try_pop_cancelled s).1 with _ | _
      · rw [hb1] at hp1
        rw [hp1]
        dsimp only
        rw [if_neg Bool.false_ne_true]
        rw [(tpc_false hb1).1]
        have hp2 : try_skip_old s =
            ((try_skip_old s).1, (try_skip_old s).2) := rfl
        rcases hb2 : (try_skip_old s).1 with _ | _
        · rw [hb2] at hp2
          rw [hp2]
          dsimp only
          rw [if_neg Bool.false_ne_true]
          rw [(tso_false hb2).1]
          have hp3 : try_skip_repeat s =
              ((try_skip_repeat s).1, (try_skip_repeat s).2) := rfl
          rcases hb3 : (try_skip_repeat s).1 with _ | _
          · rw [hb3] at hp3
            rw [hp3]
            dsimp only
            rw [if_neg Bool.false_ne_true]
            rw [tsr_false hb3]
            by_cases hdue : s.current <
                (evGet s (pqTopGet s).index).next_fire
            · rw [if_pos hdue]
              exact ⟨⟨hM, hcb2⟩, rfl⟩
            · rw [if_neg hdue]
              have hal : (evGet s (pqTopGet s).index).status = .Alive :=
                status_ne_cancelled_iff.mp (tpc_false hb1).2
              have hstep := fire_top_step n m s hM hne
                (fun c hc => hcb2 (pqTopGet s).index c hc) hal
                (tso_false hb2).2 (by omega)
              have hrec := ih _ hstep.1 (cbok_fire s hM.tk hcb2).1
              exact ⟨hrec.1, by rw [hrec.2, hstep.2]⟩
          · rw [hb3] at hp3
            rw [hp3]
            dsimp only
            rw [if_pos rfl]
            have hstep := try_skip_repeat_step n m s hne hM
            have hrec := ih _ hstep.1 (cbok_tsr s hM.tk hcb2).1
            exact ⟨hrec.1, by rw [hrec.2, hstep.2]⟩
        · rw [hb2] at hp2
          rw [hp2]
          dsimp only
          rw [if_pos rfl]
          have hstep := try_skip_old_step n m s hM
          have hrec := ih _ hstep.1 (cbok_tso s hM.tk hcb2).1
          exact ⟨hrec.1, by rw [hrec.2, hstep.2]⟩
      · rw [hb1] at hp1
        rw [hp1]
        dsimp only
        rw [if_pos rfl]
        have hstep := try_pop_cancelled_step n m s hM
        have hrec := ih _ hstep.1 (cbok_tpc s hM.tk hcb2).1
        exact ⟨hrec.1, by rw [hrec.2, hstep.2]⟩

/-- The journal flush never writes the ghost `log`/`issued` fields. -/
theorem flushLoop_frame (all : List Op) :
    ∀ (ops : List Op) (s : Sched),
      (flushLoop all ops s).log = s.log ∧
      (flushLoop all ops s).issued = s.issued := by
  intro ops
  induction ops with
  | nil =>
    intro s
    exact ⟨rfl, rfl⟩
  | cons op rest ih =>
    intro s
    unfold flushLoop
    match op with
    | .schedule nf d eid =>
      dsimp only
      have h1 := ih (set_event s nf d eid)
      exact ⟨h1.1, h1.2⟩
    | .clear =>
      dsimp only
      have h1 := ih (clear_in_tick s (reservedIdxs all))
      exact ⟨h1.1, h1.2⟩
    | .delay eid nf =>
      dsimp only
      have h1 := ih (default_set_next_fire s eid nf)
      exact ⟨h1.1, h1.2⟩

/-- Opening a dispatch window: with the structural hypotheses at rest and
empty window suffixes, the invariant holds. -/
theorem minv_start (n m : Nat) (s s' : Sched)
    (h1 : GensLen s) (h2 : GenB s) (h3 : RepPos s) (h4 : CurCnt s)
    (h5 : FlCanc s)
    (hev : s'.events = s.events) (hpq : s'.pq = s.pq) (hfl : s'.fl = s.fl)
    (hg : s'.gens = s.gens) (htk : s'.ticking = true) (hlog : s'.log = s.log)
    (hiss : s'.issued = s.issued)
    (hn : n = s.log.length) (hm : m = s.issued.length) :
    MInv n m s' := by
  subst hn
  subst hm
  have hdropl : s'.log.drop s.log.length = [] := by
    rw [hlog]
    exact List.drop_length _
  have hlastn : lastK s.log.length s' = none := by
    unfold lastK
    rw [hdropl]
    rfl
  refine ⟨htk, ?_, ?_, ?_, ?_, ?_, ?_, ?_, ?_, ?_, ?_, ?_, ?_, ?_⟩
  · unfold GensLen
    rw [hg, hev]
    exact h1
  · intro e he
    rw [hpq] at he
    show e.gen ≤ s'.gens.getD e.index 0
    rw [hg]
    exact h2 e he
  · intro i hi
    rw [hev] at hi
    show (s'.events.getD i {}).desc.type = _ →
      0 < (s'.events.getD i {}).desc.interval_ms
    rw [hev]
    exact h3 i hi
  · intro e he
    rw [hpq] at he
    show s'.pq.count (⟨e.index, s'.gens.getD e.index 0⟩ : EventID) ≤ 1
    rw [hpq, hg]
    exact h4 e he
  · intro i hi
    rw [hfl] at hi
    show (s'.events.getD i {}).status = _
    rw [hev]
    exact h5 i hi
  · intro r hr
    rw [hdropl] at hr
    exact absurd hr (by simp)
  · intro i hi r hr
    rw [hdropl] at hr
    exact absurd hr (by simp)
  · intro h_ hh
    rw [hiss, List.drop_length] at hh
    exact absurd hh (by simp)
  · rw [hlog]
  · rw [hiss]
  · rw [hlastn]
    exact trivial
  · rw [hlastn]
    exact trivial
  · rw [hdropl]
    exact List.chain'_nil

/-- Entering `run`'s next iteration: setting the clock to the filtered
top's firing time keeps the invariant (the new clock is at or above the
window's lower bound because the top is a live current-generation entry). -/
theorem minv_setcur (n m : Nat) (s : Sched) (hM : MInv n m s)
    (hne : s.pq ≠ [])
    (hal : (evGet s (pqTopGet s).index).status = .Alive)
    (hgen : (pqTopGet s).gen = genGet s (pqTopGet s).index) :
    MInv n m { s with current := (evGet s (pqTopGet s).index).next_fire } := by
  refine ⟨hM.tk, hM.glen, hM.genb, hM.reppos, hM.curcnt, hM.flcanc, hM.logg,
    hM.flgen, hM.issnew, hM.nlog, hM.miss, ?_, ?_, hM.chain⟩
  · have hlast : lastK n
        { s with current := (evGet s (pqTopGet s).index).next_fire } =
        lastK n s := rfl
    rw [hlast]
    have hop := hM.optlb
    match hkk : lastK n s with
    | none => exact trivial
    | some κ =>
      rw [hkk] at hop
      intro e he hg2 hal2
      exact hop e he hg2 hal2
  · have hop := hM.optlb
    show OptNfLe (lastK n s) (evGet s (pqTopGet s).index).next_fire
    match hkk : lastK n s with
    | none => exact trivial
    | some κ =>
      rw [hkk] at hop
      have := hop (pqTopGet s) (pqTopGet_mem hne) hgen hal
      exact keyLt_nf_le this

/-- The dispatch loop of `run` preserves the window invariant, for every
fuel value. -/
theorem runLoop_minv (n m : Nat) (fuel : Nat) :
    ∀ s : Sched, MInv n m s → CbOk s →
      MInv n m (runLoop fuel s) ∧ CbOk (runLoop fuel s) := by
  induction fuel with
  | zero =>
    intro s hM hcb2
    exact ⟨hM, hcb2⟩
  | succ f ih =>
    intro s hM hcb2
    unfold runLoop
    by_cases hemp : s.pq.isEmpty
    · rw [if_pos hemp]
      exact ⟨hM, hcb2⟩
    · rw [if_neg hemp]
      have hne : s.pq ≠ [] := by
        intro hc
        rw [hc] at hemp
        exact hemp rfl
      have hp1 : try_pop_cancelled s =
          ((try_pop_cancelled s).1, (try_pop_cancelled s).2) := rfl
      rcases hb1 : (try_pop_cancelled s).1 with _ | _
      · rw [hb1] at hp1
        rw [hp1]
        dsimp only
        rw [if_neg Bool.false_ne_true]
        rw [(tpc_false hb1).1]
        have hp2 : try_skip_repeat s =
            ((try_skip_repeat s).1, (try_skip_repeat s).2) := rfl
        rcases hb2 : (try_skip_repeat s).1 with _ | _
        · rw [hb2] at hp2
          rw [hp2]
          dsimp only
          rw [if_neg Bool.false_ne_true]
          rw [tsr_false hb2]
          have hp3 : try_skip_old s =
              ((try_skip_old s).1, (try_skip_old s).2) := rfl
          rcases hb3 : (try_skip_old s).1 with _ | _
          · rw [hb3] at hp3
            rw [hp3]
            dsimp only
            rw [if_neg Bool.false_ne_true]
            rw [(tso_false hb3).1]
            have hal : (evGet s (pqTopGet s).index).status = .Alive :=
              status_ne_cancelled_iff.mp (tpc_false hb1).2
            have hgen := (tso_false hb3).2
            have hM4 := minv_setcur n m s hM hne hal hgen
            have hne4 : ({ s with
                current := (evGet s (pqTopGet s).index).next_fire } :
                Sched).pq ≠ [] := hne
            have hcb4 : CbOk ({ s with
                current := (evGet s (pqTopGet s).index).next_fire } :
                Sched) := hcb2
            have hstep := fire_top_step n m _ hM4 hne4
              (fun c hc => hcb4 (pqTopGet s).index c hc) hal hgen
              (le_of_eq rfl)
            exact ih _ hstep.1 (cbok_fire _ hM4.tk hcb4).1
          · rw [hb3] at hp3
            rw [hp3]
            dsimp only
            rw [if_pos rfl]
            have hstep := try_skip_old_step n m s hM
            exact ih _ hstep.1 (cbok_tso s hM.tk hcb2).1
        · rw [hb2] at hp2
          rw [hp2]
          dsimp only
          rw [if_pos rfl]
          have hstep := try_skip_repeat_step n m s hne hM
          exact ih _ hstep.1 (cbok_tsr s hM.tk hcb2).1
      · rw [hb1] at hp1
        rw [hp1]
        dsimp only
        rw [if_pos rfl]
        have hstep := try_pop_cancelled_step n m s hM
        exact ih _ hstep.1 (cbok_tpc s hM.tk hcb2).1

/-- Case split of `try_update_pause`. -/
theorem tup_cases (s : Sched) (d : Int) :
    (try_update_pause s d = (false, s)) ∨
    (try_update_pause s d =
      (true, { s with paused_time := s.paused_time + d })) := by
  unfold try_update_pause
  by_cases hp : s.paused = true
  · right
    rw [if_neg (by rw [hp]; simp)]
  · left
    rw [if_pos (by
      intro hc
      exact hp hc)]

/-- One whole `tick` call: the fire log the window appends is sorted in the
comparator order, and no handle issued inside the window matches a record
fired inside it. -/
theorem tick_window (s : Sched) (d : Int) (fuel : Nat)
    (h1 : GensLen s) (h2 : GenB s) (h3 : RepPos s) (h4 : CurCnt s)
    (h5 : FlCanc s) (hcb : CbOk s) :
    ((tick s d fuel).log.drop s.log.length).Chain' fireLt ∧
    (∀ h_ ∈ (tick s d fuel).issued.drop s.issued.length,
      ∀ r ∈ (tick s d fuel).log.drop s.log.length,
        ¬(r.index = h_.index ∧ r.gen = h_.gen)) := by
  unfold tick
  by_cases ht : s.ticking = true
  · rw [if_pos ht]
    rw [List.drop_length]
    exact ⟨List.chain'_nil, by simp⟩
  · rw [if_neg ht]
    rcases tup_cases s d with htup | htup
    · rw [htup]
      dsimp only
      rw [if_neg Bool.false_ne_true]
      set s1 : Sched := { s with ticking := true, current := s.current + d }
        with hs1
      have hM1 : MInv s.log.length s.issued.length s1 :=
        minv_start s.log.length s.issued.length s _ h1 h2 h3 h4 h5
          rfl rfl rfl rfl rfl rfl rfl rfl rfl
      have hcb1 : CbOk s1 := hcb
      have hloop := tickLoop_minv s.log.length s.issued.length fuel _ hM1
        hcb1
      have hML := hloop.1.1
      set L : Sched := tickLoop fuel s1 with hL
      have hflush := flushLoop_frame L.delay_ops L.delay_ops
        { L with delay_ops := [] }
      have hlogf : ({ flush_delay_ops L with
          pending_clear := 0, ticking := false } : Sched).log = L.log := by
        show (flush_delay_ops L).log = _
        unfold flush_delay_ops
        rw [hflush.1]
      have hissf : ({ flush_delay_ops L with
          pending_clear := 0, ticking := false } : Sched).issued =
          L.issued := by
        show (flush_delay_ops L).issued = _
        unfold flush_delay_ops
        rw [hflush.2]
      constructor
      · rw [hlogf]
        exact hML.chain
      · intro h_ hh r hr
        rw [hissf] at hh
        rw [hlogf] at hr
        exact (hML.issnew h_ hh).2 r hr
    · rw [htup]
      dsimp only
      rw [if_pos rfl]
      rw [show ({ s with paused_time := s.paused_time + d } : Sched).log =
        s.log from rfl]
      rw [List.drop_length]
      exact ⟨List.chain'_nil, by simp⟩

/-- One whole `run` call: no handle issued inside the window matches a
record fired inside it. -/
theorem run_window (s : Sched) (fuel : Nat)
    (h1 : GensLen s) (h2 : GenB s) (h3 : RepPos s) (h4 : CurCnt s)
    (h5 : FlCanc s) (hcb : CbOk s) :
    ∀ h_ ∈ (run s fuel).issued.drop s.issued.length,
      ∀ r ∈ (run s fuel).log.drop s.log.length,
        ¬(r.index = h_.index ∧ r.gen = h_.gen) := by
  unfold run
  by_cases ht : s.ticking = true
  · rw [if_pos ht]
    intro h_ hh
    rw [List.drop_length] at hh
    exact absurd hh (by simp)
  · rw [if_neg ht]
    by_cases hp : s.paused = true
    · rw [if_pos hp]
      intro h_ hh
      rw [List.drop_length] at hh
      exact absurd hh (by simp)
    · rw [if_neg hp]
      set s1 : Sched := { s with ticking := true } with hs1
      have hM1 : MInv s.log.length s.issued.length s1 :=
        minv_start s.log.length s.issued.length s _ h1 h2 h3 h4 h5
          rfl rfl rfl rfl rfl rfl rfl rfl rfl
      have hcb1 : CbOk s1 := hcb
      have hML := (runLoop_minv s.log.length s.issued.length fuel _ hM1
        hcb1).1
      set L : Sched := runLoop fuel s1 with hL
      have hflush := flushLoop_frame L.delay_ops L.delay_ops
        { L with delay_ops := [] }
      have hlogf : ({ flush_delay_ops L with
          pending_clear := 0, ticking := false } : Sched).log = L.log := by
        show (flush_delay_ops L).log = _
        unfold flush_delay_ops
        rw [hflush.1]
      have hissf : ({ flush_delay_ops L with
          pending_clear := 0, ticking := false } : Sched).issued =
          L.issued := by
        show (flush_delay_ops L).issued = _
        unfold flush_delay_ops
        rw [hflush.2]
      intro h_ hh r hr
      rw [hissf] at hh
      rw [hlogf] at hr
      exact (hML.issnew h_ hh).2 r hr

/-- One whole `tick` call, arbitrary callbacks: no handle issued inside the
window matches a record fired inside it. -/
theorem wtick_window (s : Sched) (d : Int) (fuel : Nat)
    (h1 : GensLen s) (h2 : GenB s) (h5 : FlCanc s) :
    ∀ h_ ∈ (tick s d fuel).issued.drop s.issued.length,
      ∀ r ∈ (tick s d fuel).log.drop s.log.length,
        ¬(r.index = h_.index ∧ r.gen = h_.gen) := by
  unfold tick
  by_cases ht : s.ticking = true
  · rw [if_pos ht]
    intro h_ hh
    rw [List.drop_length] at hh
    exact absurd hh (by simp)
  · rw [if_neg ht]
    rcases tup_cases s d with htup | htup
    · rw [htup]
      dsimp only
      rw [if_neg Bool.false_ne_true]
      set s1 : Sched := { s with ticking := true, current := s.current + d }
        with hs1
      have hW1 : WInv s.log.length s.issued.length s1 :=
        winv_start s.log.length s.issued.length s _ h1 h2 h5
          rfl rfl rfl rfl rfl rfl rfl rfl rfl
      have hWL := wtickLoop s.log.length s.issued.length fuel _ hW1
      set L : Sched := tickLoop fuel s1 with hL
      have hflush := flushLoop_frame L.delay_ops L.delay_ops
        { L with delay_ops := [] }
      have hlogf : ({ flush_delay_ops L with
          pending_clear := 0, ticking := false } : Sched).log = L.log := by
        show (flush_delay_ops L).log = _
        unfold flush_delay_ops
        rw [hflush.1]
      have hissf : ({ flush_delay_ops L with
          pending_clear := 0, ticking := false } : Sched).issued =
          L.issued := by
        show (flush_delay_ops L).issued = _
        unfold flush_delay_ops
        rw [hflush.2]
      intro h_ hh r hr
      rw [hissf] at hh
      rw [hlogf] at hr
      exact (hWL.issnew h_ hh).2 r hr
    · rw [htup]
      dsimp only
      rw [if_pos rfl]
      intro h_ hh
      rw [show ({ s with paused_time := s.paused_time + d } : Sched).issued =
        s.issued from rfl, List.drop_length] at hh
      exact absurd hh (by simp)

/-- One whole `run` call, arbitrary callbacks: no handle issued inside the
window matches a record fired inside it. -/
theorem wrun_window (s : Sched) (fuel : Nat)
    (h1 : GensLen s) (h2 : GenB s) (h5 : FlCanc s) :
    ∀ h_ ∈ (run s fuel).issued.drop s.issued.length,
      ∀ r ∈ (run s fuel).log.drop s.log.length,
        ¬(r.index = h_.index ∧ r.gen = h_.gen) := by
  unfold run
  by_cases ht : s.ticking = true
  · rw [if_pos ht]
    intro h_ hh
    rw [List.drop_length] at hh
    exact absurd hh (by simp)
  · rw [if_neg ht]
    by_cases hp : s.paused = true
    · rw [if_pos hp]
      intro h_ hh
      rw [List.drop_length] at hh
      exact absurd hh (by simp)
    · rw [if_neg hp]
      set s1 : Sched := { s with ticking := true } with hs1
      have hW1 : WInv s.log.length s.issued.length s1 :=
        winv_start s.log.length s.issued.length s _ h1 h2 h5
          rfl rfl rfl rfl rfl rfl rfl rfl rfl
      have hWL := wrunLoop s.log.length s.issued.length fuel _ hW1
      set L : Sched := runLoop fuel s1 with hL
      have hflush := flushLoop_frame L.delay_ops L.delay_ops
        { L with delay_ops := [] }
      have hlogf : ({ flush_delay_ops L with
          pending_clear := 0, ticking := false } : Sched).log = L.log := by
        show (flush_delay_ops L).log = _
        unfold flush_delay_ops
        rw [hflush.1]
      have hissf : ({ flush_delay_ops L with
          pending_clear := 0, ticking := false } : Sched).issued =
          L.issued := by
        show (flush_delay_ops L).issued = _
        unfold flush_delay_ops
        rw [hflush.2]
      intro h_ hh r hr
      rw [hissf] at hh
      rw [hlogf] at hr
      exact (hWL.issnew h_ hh).2 r hr

/-- C2: within a single `tick(Δ)`, the events that fire do so in strictly
ascending comparator order — ascending `next_fire`, then ascending priority
rank (System before User before Debug), then ascending slot index: the
window's fire log is `Pairwise`-sorted under the strict key order.  The
hypotheses are the structural invariants of a scheduler at rest. -/
theorem c2_tick_fires_in_key_order (s : Sched) (d : Int) (fuel : Nat)
    (h1 : GensLen s) (h2 : GenB s) (h3 : RepPos s) (h4 : CurCnt s)
    (h5 : FlCanc s) (h6 : CbOk s) :
    ((tick s d fuel).log.drop s.log.length).Pairwise fireLt :=
  List.chain'_iff_pairwise.mp (tick_window s d fuel h1 h2 h3 h4 h5 h6).1

/-- C2 counterexample: a `set_priority` call made from inside a callback
re-sorts the heap mid-dispatch.  Event `(0,0)` (due 100, `User`, rank 1)
fires first and promotes event `(1,0)` (due 100, `Debug`) to `System`;
`(1,0)` then fires with rank 0, so the window's log runs
`(100, 1, 0), (100, 0, 1)` — descending in priority rank at equal
`next_fire`, violating the claimed comparator order. -/
theorem c2_priority_reorder :
    ((tick c2x 100 10).log.drop c2x.log.length).map
        (fun r => (r.next_fire, r.rank, r.index)) =
      [(100, 1, 0), (100, 0, 1)] ∧
    ¬ ((tick c2x 100 10).log.drop c2x.log.length).Pairwise fireLt := by
  decide

/-- C2 witness: three events due together at 100 with priorities `User`,
`System`, `Debug`; the hypotheses hold and the fired log of `tick(100)` is
key-sorted. -/
theorem c2_tick_fires_in_key_order_witness :
    (GensLen c2w ∧ GenB c2w ∧ RepPos c2w ∧ CurCnt c2w ∧ FlCanc c2w ∧
      CbOk c2w) ∧
    ((tick c2w 100 10).log.drop c2w.log.length).Pairwise fireLt :=
  ⟨⟨by decide, by decide, by decide, by decide, by decide, by decide⟩,
   c2_tick_fires_in_key_order c2w 100 10 (by decide) (by decide) (by decide)
     (by decide) (by decide) (by decide)⟩

/-- C3: an event scheduled by a callback running inside a dispatch window —
any `schedule_*` call made while `ticking` (the handles the window appends
to the ghost `issued` list) — is never fired by that same `tick` or `run`
call: no record the window appends to the fire log carries the new handle's
`(index, generation)`, even for `schedule_after(0, …)`.  (Its installation
happens only at the journal flush, after the dispatch loop has exited.) -/
theorem c3_window_schedules_do_not_fire (s : Sched) (d : Int)
    (fuel fuel2 : Nat)
    (h1 : GensLen s) (h2 : GenB s) (h3 : RepPos s) (h4 : CurCnt s)
    (h5 : FlCanc s) :
    (∀ h_ ∈ (tick s d fuel).issued.drop s.issued.length,
      ∀ r ∈ (tick s d fuel).log.drop s.log.length,
        ¬(r.index = h_.index ∧ r.gen = h_.gen)) ∧
    (∀ h_ ∈ (run s fuel2).issued.drop s.issued.length,
      ∀ r ∈ (run s fuel2).log.drop s.log.length,
        ¬(r.index = h_.index ∧ r.gen = h_.gen)) :=
  ⟨wtick_window s d fuel h1 h2 h5,
   wrun_window s fuel2 h1 h2 h5⟩

/-- C3 witness: an event due at 0 whose callback calls
`schedule_after(0, …)`; the hypotheses hold, so neither `tick(0)` nor
`run()` fires the in-window schedule. -/
theorem c3_window_schedules_do_not_fire_witness :
    (GensLen c3w ∧ GenB c3w ∧ RepPos c3w ∧ CurCnt c3w ∧ FlCanc c3w) ∧
    ((∀ h_ ∈ (tick c3w 0 10).issued.drop c3w.issued.length,
      ∀ r ∈ (tick c3w 0 10).log.drop c3w.log.length,
        ¬(r.index = h_.index ∧ r.gen = h_.gen)) ∧
    (∀ h_ ∈ (run c3w 10).issued.drop c3w.issued.length,
      ∀ r ∈ (run c3w 10).log.drop c3w.log.length,
        ¬(r.index = h_.index ∧ r.gen = h_.gen))) :=
  ⟨⟨by decide, by decide, by decide, by decide, by decide⟩,
   c3_window_schedules_do_not_fire c3w 0 10 10 (by decide) (by decide)
     (by decide) (by decide) (by decide)⟩

/-- A permanently dead handle reads as not alive. -/
theorem deadP_alive_false {h : EventID} {s : Sched} (hd : DeadP h s) :
    is_alive s h = false := by
  obtain ⟨h1, h2, h3, h4⟩ := hd
  unfold is_alive
  rw [if_neg (by omega)]
  rcases h4 with h4 | h4
  · rw [if_pos (by omega)]
  · rw [if_neg (by omega)]
    rw [h4.2.1]
    rfl

/-- At an operation boundary, a handle that reads dead (and is not a stale
free-list alias) is permanently dead. -/
theorem deadP_of_rest {h : EventID} {s : Sched}
    (hgl : GensLen s) (hops : s.delay_ops = [])
    (hrange : h.index < s.events.length)
    (hgle : h.gen ≤ genGet s h.index)
    (hfl : h.index ∈ s.fl → genGet s h.index ≠ h.gen)
    (hdead : is_alive s h = false) : DeadP h s := by
  refine ⟨hgl, hrange, by rw [hops]; simp, ?_⟩
  by_cases hcase : h.gen < genGet s h.index
  · exact Or.inl hcase
  · have hgeq : h.gen = genGet s h.index := by omega
    refine Or.inr ⟨hgeq, ?_, ?_, ?_⟩
    · unfold is_alive at hdead
      rw [if_neg (by omega), if_neg (by omega)] at hdead
      rcases hst : (evGet s h.index).status with _ | _
      · rw [hst] at hdead
        exact absurd hdead (by simp)
      · rfl
    · intro hcon
      exact hfl hcon hgeq.symm
    · intro nf d eid hmem
      rw [hops] at hmem
      exact absurd hmem (by simp)

/-- `schedule_after` preserves permanent death: a fresh slot is past the
handle's index, and a recycled slot comes off the free list, which the
dead handle's slot is not on (or its generation already moved past). -/
theorem schedule_dead (h : EventID) (s : Sched) (t iv : Int) (cb : Callback)
    (ty : EventType) (ep : ExceptionPolicy) (pri : EventPriority)
    (cu : CatchUp) (hd : DeadP h s) :
    DeadP h (schedule_after s t cb ty iv ep pri cu).2 ∧
    s.events.length ≤ (schedule_after s t cb ty iv ep pri cu).2.events.length ∧
    (schedule_after s t cb ty iv ep pri cu).2.ticking = s.ticking := by
  obtain ⟨h1, h2, h3, h4⟩ := hd
  by_cases hguard : ty = .Repeat ∧ iv ≤ 0
  · have hres : (schedule_after s t cb ty iv ep pri cu).2 = s := by
      unfold schedule_after
      rw [if_pos hguard]
    rw [hres]
    exact ⟨⟨h1, h2, h3, h4⟩, Nat.le_refl _, rfl⟩
  · by_cases hfe : s.fl.isEmpty
    · -- append
      by_cases htk : s.ticking = true
      · have hres : (schedule_after s t cb ty iv ep pri cu).2 = { s with
            events := s.events ++ [{}]
            gens := s.gens ++ [0]
            delay_ops := s.delay_ops ++
              [Op.schedule (s.current + t)
                { type := ty, interval_ms := iv, callback := cb, ep := ep
                  pri := pri, cu := cu }
                ⟨s.events.length, 0 + s.pending_clear⟩]
            issued := s.issued ++
              [⟨s.events.length, 0 + s.pending_clear⟩] } := by
          unfold schedule_after append add_schedule
          rw [if_neg hguard, if_pos hfe]
          dsimp only
          rw [if_pos htk]
        rw [hres]
        refine ⟨⟨?_, ?_, ?_, ?_⟩, by simp, rfl⟩
        · unfold GensLen at h1 ⊢
          dsimp only
          simp only [List.length_append, List.length_cons, List.length_nil]
          omega
        · dsimp only
          rw [List.length_append]
          omega
        · intro hmem
          dsimp only at hmem ⊢
          rcases List.mem_append.mp hmem with hm | hm
          · exact h3 hm
          · exact absurd hm (by simp)
        · have hgu : genGet { s with
              events := s.events ++ [{}]
              gens := s.gens ++ [0]
              delay_ops := s.delay_ops ++
                [Op.schedule (s.current + t)
                  { type := ty, interval_ms := iv, callback := cb, ep := ep
                    pri := pri, cu := cu }
                  ⟨s.events.length, 0 + s.pending_clear⟩]
              issued := s.issued ++
                [⟨s.events.length, 0 + s.pending_clear⟩] } h.index =
              genGet s h.index := getD_append_d s.gens 0 h.index
          have heu : evGet { s with
              events := s.events ++ [{}]
              gens := s.gens ++ [0]
              delay_ops := s.delay_ops ++
                [Op.schedule (s.current + t)
                  { type := ty, interval_ms := iv, callback := cb, ep := ep
                    pri := pri, cu := cu }
                  ⟨s.events.length, 0 + s.pending_clear⟩]
              issued := s.issued ++
                [⟨s.events.length, 0 + s.pending_clear⟩] } h.index =
              evGet s h.index := getD_append_d s.events ({} : Event) h.index
          rcases h4 with h4 | h4
          · exact Or.inl (by rw [hgu]; exact h4)
          · refine Or.inr ⟨by rw [hgu]; exact h4.1, by rw [heu]; exact h4.2.1,
              h4.2.2.1, ?_⟩
            intro nf d eid hmem
            dsimp only at hmem
            rcases List.mem_append.mp hmem with hm | hm
            · exact h4.2.2.2 nf d eid hm
            · rw [List.mem_singleton] at hm
              have := congrArg Op.eidIdx hm
              unfold Op.eidIdx at this
              dsimp only at this
              omega
      · have hres : (schedule_after s t cb ty iv ep pri cu).2 =
            { set_event { s with
                events := s.events ++ [({} : Event)]
                gens := s.gens ++ [0] } (s.current + t)
              { type := ty, interval_ms := iv, callback := cb, ep := ep
                pri := pri, cu := cu }
              ⟨s.events.length, 0 + s.pending_clear⟩ with
              issued := ({ s with
                events := s.events ++ [({} : Event)]
                gens := s.gens ++ [0] } : Sched).issued ++
                  [⟨s.events.length, 0 + s.pending_clear⟩] } := by
          unfold schedule_after append
          rw [if_neg hguard, if_pos hfe]
          dsimp only
          rw [if_neg htk]
          rfl
        rw [hres]
        unfold set_event pqPush
        dsimp only
        refine ⟨⟨?_, ?_, ?_, ?_⟩, ?_, rfl⟩
        · unfold GensLen at h1 ⊢
          dsimp only
          simp only [List.length_set, List.length_append, List.length_cons,
            List.length_nil]
          omega
        · dsimp only
          simp only [List.length_set, List.length_append, List.length_cons,
            List.length_nil]
          omega
        · intro hmem
          exact h3 hmem
        · have hgu : ((s.gens ++ [0]).getD h.index 0) = genGet s h.index :=
            getD_append_d s.gens 0 h.index
          have heu : ∀ v : Event,
              (((s.events ++ [({} : Event)]).set s.events.length v).getD
                h.index ({} : Event)) = evGet s h.index := by
            intro v
            rw [getD_set_ne _ (by omega) _ _]
            exact getD_append_d s.events ({} : Event) h.index
          rcases h4 with h4 | h4
          · refine Or.inl ?_
            show h.gen < (s.gens ++ [0]).getD h.index 0
            rw [hgu]
            exact h4
          · refine Or.inr ⟨?_, ?_, h4.2.2.1, h4.2.2.2⟩
            · show h.gen = (s.gens ++ [0]).getD h.index 0
              rw [hgu]
              exact h4.1
            · show (((s.events ++ [({} : Event)]).set s.events.length { desc := { type := ty, interval_ms := iv, callback := cb, ep := ep, pri := pri, cu := cu }, status := .Alive, next_fire := s.current + t }).getD h.index ({} : Event)).status = _
              rw [heu]
              exact h4.2.1
        · dsimp only
          simp only [List.length_set, List.length_append, List.length_cons,
            List.length_nil]
          omega
    · -- pop_fl
      have hne : s.fl ≠ [] := by
        intro hc
        rw [hc] at hfe
        exact hfe rfl
      have hifl : (s.fl.getLast?).getD 0 ∈ s.fl := getLastD_mem hne 0
      by_cases htk : s.ticking = true
      · have hres : (schedule_after s t cb ty iv ep pri cu).2 = { s with
            fl := s.fl.dropLast
            delay_ops := s.delay_ops ++
              [Op.schedule (s.current + t)
                { type := ty, interval_ms := iv, callback := cb, ep := ep
                  pri := pri, cu := cu }
                ⟨(s.fl.getLast?).getD 0,
                  genGet s ((s.fl.getLast?).getD 0) + s.pending_clear⟩]
            issued := s.issued ++
              [⟨(s.fl.getLast?).getD 0,
                genGet s ((s.fl.getLast?).getD 0) + s.pending_clear⟩] } := by
          unfold schedule_after pop_fl add_schedule
          rw [if_neg hguard, if_neg hfe]
          dsimp only
          rw [if_pos htk]
        rw [hres]
        refine ⟨⟨h1, h2, ?_, ?_⟩, Nat.le_refl _, rfl⟩
        · intro hmem
          dsimp only at hmem
          rcases List.mem_append.mp hmem with hm | hm
          · exact h3 hm
          · exact absurd hm (by simp)
        · rcases h4 with h4 | h4
          · exact Or.inl h4
          · refine Or.inr ⟨h4.1, h4.2.1,
              fun hc => h4.2.2.1 (List.mem_of_mem_dropLast hc), ?_⟩
            intro nf d eid hmem
            dsimp only at hmem
            rcases List.mem_append.mp hmem with hm | hm
            · exact h4.2.2.2 nf d eid hm
            · rw [List.mem_singleton] at hm
              have := congrArg Op.eidIdx hm
              unfold Op.eidIdx at this
              dsimp only at this
              rw [this]
              intro hcon
              rw [hcon] at hifl
              exact h4.2.2.1 hifl
      · have hres : (schedule_after s t cb ty iv ep pri cu).2 =
            { set_event { s with fl := s.fl.dropLast } (s.current + t)
              { type := ty, interval_ms := iv, callback := cb, ep := ep
                pri := pri, cu := cu }
              ⟨(s.fl.getLast?).getD 0,
                genGet s ((s.fl.getLast?).getD 0) + s.pending_clear⟩ with
              issued := s.issued ++
                [⟨(s.fl.getLast?).getD 0,
                  genGet s ((s.fl.getLast?).getD 0) + s.pending_clear⟩] } := by
          unfold schedule_after pop_fl
          rw [if_neg hguard, if_neg hfe]
          dsimp only
          rw [if_neg htk]
          rfl
        rw [hres]
        unfold set_event pqPush
        dsimp only
        refine ⟨⟨?_, ?_, fun hmem => h3 hmem, ?_⟩, ?_, rfl⟩
        · unfold GensLen at h1 ⊢
          dsimp only
          simp only [List.length_set]
          omega
        · dsimp only
          simp only [List.length_set]
          omega
        · rcases h4 with h4 | h4
          · exact Or.inl h4
          · have hnei : (s.fl.getLast?).getD 0 ≠ h.index := by
              intro hcon
              rw [hcon] at hifl
              exact h4.2.2.1 hifl
            refine Or.inr ⟨h4.1, ?_,
              fun hc => h4.2.2.1 (List.mem_of_mem_dropLast hc), h4.2.2.2⟩
            show ((s.events.set ((s.fl.getLast?).getD 0) _).getD
              h.index {}).status = _
            rw [getD_set_ne _ hnei _ _]
            exact h4.2.1
        · dsimp only
          simp only [List.length_set]
          omega

/-- `cancel` preserves permanent death: the mark only moves a status to
`Cancelled`, and the rebuild only bumps generations of retired slots. -/
theorem cancel_dead (h : EventID) (s : Sched) (eid : EventID)
    (hd : DeadP h s) :
    DeadP h (cancel s eid).2 ∧
    s.events.length ≤ (cancel s eid).2.events.length ∧
    (cancel s eid).2.ticking = s.ticking := by
  obtain ⟨h1, h2, h3, h4⟩ := hd
  unfold cancel
  by_cases hg1 : ¬(eid.is_valid && is_alive s eid) = true
  · rw [if_pos hg1]
    exact ⟨⟨h1, h2, h3, h4⟩, Nat.le_refl _, rfl⟩
  · rw [if_neg hg1]
    have ha : is_alive s eid = true := by
      rcases Bool.and_eq_true _ _ |>.mp (not_not.mp hg1) with ⟨-, hx⟩
      exact hx
    obtain ⟨hlt, hgen, hst⟩ := is_alive_facts ha
    rw [if_neg (by rw [hst]; simp)]
    dsimp only
    have hd1 : DeadP h { s with
        events := s.events.set eid.index
          { evGet s eid.index with status := .Cancelled }
        alive := decSize s.alive
        cancelled := s.cancelled + 1 } := by
      refine ⟨?_, ?_, h3, ?_⟩
      · unfold GensLen at h1 ⊢
        dsimp only
        rw [List.length_set]
        exact h1
      · dsimp only
        rw [List.length_set]
        exact h2
      · rcases h4 with h4 | h4
        · exact Or.inl h4
        · have hnei : eid.index ≠ h.index := by
            intro hcon
            rw [hcon] at hst
            rw [h4.2.1] at hst
            exact absurd hst (by simp)
          have hev : evGet { s with
              events := s.events.set eid.index
                { evGet s eid.index with status := .Cancelled }
              alive := decSize s.alive
              cancelled := s.cancelled + 1 } h.index = evGet s h.index := by
            show (s.events.set eid.index _).getD h.index {} = _
            exact getD_set_ne _ hnei _ _
          exact Or.inr ⟨h4.1, by rw [hev]; exact h4.2.1, h4.2.2.1, h4.2.2.2⟩
    by_cases hreb : s.cancelled + 1 > decSize s.alive
    · rw [if_pos hreb]
      dsimp only
      obtain ⟨k1, k2, k3, k4⟩ := hd1
      unfold rebuild_pq
      set s1 : Sched := { s with
        events := s.events.set eid.index
          { evGet s eid.index with status := .Cancelled }
        alive := decSize s.alive
        cancelled := s.cancelled + 1 } with hs1
      obtain ⟨f1, f2, f3, f4, f5, f6, f7, f8, f9, f10⟩ :=
        rebuildAux_facts s1.pq.length s1 []
      obtain ⟨m1, m2, m3⟩ := rebuildAux_more s1.pq.length s1 []
      have hglen2 : h.index < s1.gens.length := by
        unfold GensLen at k1
        omega
      refine ⟨⟨?_, ?_, ?_, ?_⟩, ?_, ?_⟩
      · unfold GensLen at k1 ⊢
        rw [m3, f1]
        exact k1
      · rw [f1]
        exact k2
      · rw [f5, f7]
        intro hmem
        exact k3 hmem
      · by_cases hgq : genGet (rebuildAux s1.pq.length s1 []) h.index =
            genGet s1 h.index
        · rcases k4 with k4 | k4
          · exact Or.inl (by rw [hgq]; exact k4)
          · refine Or.inr ⟨by rw [hgq]; exact k4.1, ?_, ?_, ?_⟩
            · show ((rebuildAux s1.pq.length s1 []).events.getD h.index
                {}).status = _
              rw [f1]
              exact k4.2.1
            · intro hcon
              rcases m2 h.index hcon with hm | hm
              · exact k4.2.2.1 hm
              · have := hm.2 hglen2
                exact absurd hgq (by
                  show ¬ (rebuildAux s1.pq.length s1 []).gens.getD h.index 0 =
                    s1.gens.getD h.index 0
                  omega)
            · rw [f5]
              exact k4.2.2.2
        · refine Or.inl ?_
          have hmono := f9 h.index
          have hc1 : genGet s1 h.index = s1.gens.getD h.index 0 := rfl
          have hle : h.gen ≤ genGet s1 h.index := by
            rcases k4 with k4 | k4
            · omega
            · omega
          show h.gen < (rebuildAux s1.pq.length s1 []).gens.getD h.index 0
          have hne2 : ¬ genGet (rebuildAux s1.pq.length s1 []) h.index =
              genGet s1 h.index := hgq
          have hc2 : genGet (rebuildAux s1.pq.length s1 []) h.index =
              (rebuildAux s1.pq.length s1 []).gens.getD h.index 0 := rfl
          omega
      · rw [f1]
        show s.events.length ≤ (s.events.set eid.index _).length
        rw [List.length_set]
      · rw [f3]
    · rw [if_neg hreb]
      refine ⟨hd1, ?_, rfl⟩
      show s.events.length ≤ (s.events.set eid.index _).length
      rw [List.length_set]

/-- `set_next_fire`/`delay` preserve permanent death: the deferred path only
journals a `Delay` op, and the immediate path bumps the target slot's
generation without touching its status. -/
theorem snf_dead (h : EventID) (s : Sched) (eid : EventID) (nf : Int)
    (hd : DeadP h s) :
    DeadP h (set_next_fire s eid nf) ∧
    s.events.length ≤ (set_next_fire s eid nf).events.length ∧
    (set_next_fire s eid nf).ticking = s.ticking := by
  obtain ⟨h1, h2, h3, h4⟩ := hd
  unfold set_next_fire
  by_cases hg1 : ¬(eid.is_valid && is_alive s eid) = true
  · rw [if_pos hg1]
    exact ⟨⟨h1, h2, h3, h4⟩, Nat.le_refl _, rfl⟩
  · rw [if_neg hg1]
    have ha : is_alive s eid = true := by
      rcases Bool.and_eq_true _ _ |>.mp (not_not.mp hg1) with ⟨-, hx⟩
      exact hx
    obtain ⟨hlt, hgen, hst⟩ := is_alive_facts ha
    have hglt : eid.index < s.gens.length := by
      unfold GensLen at h1
      omega
    by_cases hg2 : (evGet s eid.index).next_fire = nf
    · rw [if_pos hg2]
      exact ⟨⟨h1, h2, h3, h4⟩, Nat.le_refl _, rfl⟩
    · rw [if_neg hg2]
      by_cases hg3 : s.ticking = true ∧ nf ≤ s.current
      · rw [if_pos hg3]
        refine ⟨⟨h1, h2, ?_, ?_⟩, Nat.le_refl _, rfl⟩
        · intro hmem
          have hmem2 : Op.clear ∈ s.delay_ops ++ [Op.delay eid nf] := hmem
          rcases List.mem_append.mp hmem2 with hm | hm
          · exact h3 hm
          · exact absurd hm (by simp)
        · rcases h4 with h4 | h4
          · exact Or.inl h4
          · refine Or.inr ⟨h4.1, h4.2.1, h4.2.2.1, ?_⟩
            intro nf2 d2 eid2 hmem
            have hmem2 : Op.schedule nf2 d2 eid2 ∈
              s.delay_ops ++ [Op.delay eid nf] := hmem
            rcases List.mem_append.mp hmem2 with hm | hm
            · exact h4.2.2.2 nf2 d2 eid2 hm
            · exact absurd hm (by simp)
      · rw [if_neg hg3]
        refine ⟨⟨?_, ?_, h3, ?_⟩, ?_, rfl⟩
        · unfold GensLen at h1 ⊢
          show (s.gens.set eid.index _).length = (s.events.set eid.index _).length
          rw [List.length_set, List.length_set]
          exact h1
        · show h.index < (s.events.set eid.index _).length
          rw [List.length_set]
          exact h2
        · by_cases hnei : eid.index = h.index
          · refine Or.inl ?_
            have hgu : genGet (default_set_next_fire s eid nf) h.index =
                genGet s h.index + 1 := by
              show (s.gens.set eid.index _).getD h.index 0 = _
              rw [hnei]
              rw [hnei] at hglt
              exact getD_set_self _ _ hglt _ _
            rw [hgu]
            rcases h4 with h4 | h4
            · omega
            · rw [hnei] at hst
              rw [h4.2.1] at hst
              exact absurd hst (by simp)
          · have hgu : genGet (default_set_next_fire s eid nf) h.index =
                genGet s h.index := by
              show (s.gens.set eid.index _).getD h.index 0 = _
              exact getD_set_ne _ hnei _ _
            have heu : evGet (default_set_next_fire s eid nf) h.index =
                evGet s h.index := by
              show (s.events.set eid.index _).getD h.index {} = _
              exact getD_set_ne _ hnei _ _
            rcases h4 with h4 | h4
            · exact Or.inl (by rw [hgu]; exact h4)
            · exact Or.inr ⟨by rw [hgu]; exact h4.1, by rw [heu]; exact h4.2.1,
                h4.2.2.1, h4.2.2.2⟩
        · show s.events.length ≤ (s.events.set eid.index _).length
          rw [List.length_set]

/-- A journaled `clear()` from inside a window preserves permanent death. -/
theorem clear_cmd_dead (h : EventID) (s : Sched) (htk : s.ticking = true)
    (hd : DeadP h s) :
    DeadP h (clear s) ∧ s.events.length ≤ (clear s).events.length ∧
    (clear s).ticking = s.ticking := by
  obtain ⟨h1, h2, h3, h4⟩ := hd
  have hres : clear s = { s with
      pending_clear := s.pending_clear + 1
      delay_ops := [Op.clear] } := by
    unfold clear add_clear
    rw [if_pos htk]
  rw [hres]
  refine ⟨⟨h1, h2, ?_, ?_⟩, Nat.le_refl _, rfl⟩
  · intro hmem
    dsimp only
    omega
  · rcases h4 with h4 | h4
    · exact Or.inl h4
    · refine Or.inr ⟨h4.1, h4.2.1, h4.2.2.1, ?_⟩
      intro nf d eid hmem
      dsimp only at hmem
      rw [List.mem_singleton] at hmem
      exact absurd hmem (by simp)

/-- A status-preserving write to one slot preserves permanent death. -/
theorem statuskeep_dead (h : EventID) (s : Sched) (eid : EventID) (e' : Event)
    (hst2 : e'.status = (evGet s eid.index).status) (hd : DeadP h s) :
    DeadP h { s with events := s.events.set eid.index e' } ∧
    s.events.length ≤
      ({ s with events := s.events.set eid.index e' } : Sched).events.length ∧
    ({ s with events := s.events.set eid.index e' } : Sched).ticking =
      s.ticking := by
  obtain ⟨h1, h2, h3, h4⟩ := hd
  have hevst : ∀ i, ((s.events.set eid.index e').getD i {}).status =
      (evGet s i).status := by
    intro i
    by_cases hi : eid.index = i
    · subst hi
      by_cases hir : eid.index < s.events.length
      · rw [getD_set_self _ _ hir]
        exact hst2
      · rw [List.set_eq_of_length_le (by omega)]
        rfl
    · rw [getD_set_ne _ hi]
      rfl
  refine ⟨⟨?_, ?_, h3, ?_⟩, ?_, rfl⟩
  · unfold GensLen at h1 ⊢
    show s.gens.length = (s.events.set eid.index e').length
    rw [List.length_set]
    exact h1
  · show h.index < (s.events.set eid.index e').length
    rw [List.length_set]
    exact h2
  · rcases h4 with h4 | h4
    · exact Or.inl h4
    · refine Or.inr ⟨h4.1, ?_, h4.2.2.1, h4.2.2.2⟩
      show ((s.events.set eid.index e').getD h.index {}).status = .Cancelled
      rw [hevst h.index]
      exact h4.2.1
  · show s.events.length ≤ (s.events.set eid.index e').length
    rw [List.length_set]

/-- Any re-entrant callback command preserves permanent death. -/
theorem execCmd_dead (h : EventID) (s : Sched) (c : Cmd)
    (htk : s.ticking = true) (hd : DeadP h s) :
    DeadP h (execCmd s c) ∧ s.events.length ≤ (execCmd s c).events.length ∧
    (execCmd s c).ticking = s.ticking := by
  cases c with
  | schedule t ty iv ep pri cu cb =>
    exact schedule_dead h s t iv cb ty ep pri cu ⟨hd.1, hd.2.1, hd.2.2.1,
      hd.2.2.2⟩
  | cancel eid => exact cancel_dead h s eid hd
  | clear => exact clear_cmd_dead h s htk hd
  | set_next_fire eid nf => exact snf_dead h s eid nf hd
  | delay eid ms =>
    exact snf_dead h s eid ((evGet s eid.index).next_fire + ms) hd
  | set_interval eid ms =>
    show DeadP h (set_interval s eid ms) ∧
      s.events.length ≤ (set_interval s eid ms).events.length ∧
      (set_interval s eid ms).ticking = s.ticking
    unfold set_interval
    by_cases hg1 : ¬(eid.is_valid && is_alive s eid) = true
    · rw [if_pos hg1]
      exact ⟨hd, Nat.le_refl _, rfl⟩
    · rw [if_neg hg1]
      by_cases hg2 : ¬((evGet s eid.index).desc.type = .Repeat ∧ 0 < ms)
      · rw [if_pos hg2]
        exact ⟨hd, Nat.le_refl _, rfl⟩
      · rw [if_neg hg2]
        exact statuskeep_dead h s eid _ rfl hd
  | set_type eid ty =>
    show DeadP h (set_type s eid ty) ∧
      s.events.length ≤ (set_type s eid ty).events.length ∧
      (set_type s eid ty).ticking = s.ticking
    unfold set_type
    by_cases hg1 : ¬(eid.is_valid && is_alive s eid) = true
    · rw [if_pos hg1]
      exact ⟨hd, Nat.le_refl _, rfl⟩
    · rw [if_neg hg1]
      exact statuskeep_dead h s eid _ rfl hd
  | set_exp_policy eid p =>
    show DeadP h (set_exp_policy s eid p) ∧
      s.events.length ≤ (set_exp_policy s eid p).events.length ∧
      (set_exp_policy s eid p).ticking = s.ticking
    unfold set_exp_policy
    by_cases hg1 : ¬(eid.is_valid && is_alive s eid) = true
    · rw [if_pos hg1]
      exact ⟨hd, Nat.le_refl _, rfl⟩
    · rw [if_neg hg1]
      exact statuskeep_dead h s eid _ rfl hd
  | set_priority eid p =>
    show DeadP h (set_priority s eid p) ∧
      s.events.length ≤ (set_priority s eid p).events.length ∧
      (set_priority s eid p).ticking = s.ticking
    unfold set_priority
    by_cases hg1 : ¬(eid.is_valid && is_alive s eid) = true
    · rw [if_pos hg1]
      exact ⟨hd, Nat.le_refl _, rfl⟩
    · rw [if_neg hg1]
      exact statuskeep_dead h s eid _ rfl hd
  | set_catchup eid cu =>
    show DeadP h (set_catchup s eid cu) ∧
      s.events.length ≤ (set_catchup s eid cu).events.length ∧
      (set_catchup s eid cu).ticking = s.ticking
    unfold set_catchup
    by_cases hg1 : ¬(eid.is_valid && is_alive s eid) = true
    · rw [if_pos hg1]
      exact ⟨hd, Nat.le_refl _, rfl⟩
    · rw [if_neg hg1]
      exact statuskeep_dead h s eid _ rfl hd
  | pause =>
    exact ⟨hd, Nat.le_refl _, rfl⟩

/-- A whole callback program preserves permanent death. -/
theorem execCmds_dead (h : EventID) :
    ∀ (cs : List Cmd) (s : Sched), s.ticking = true → DeadP h s →
      DeadP h (execCmds s cs) ∧
      s.events.length ≤ (execCmds s cs).events.length ∧
      (execCmds s cs).ticking = s.ticking := by
  intro cs
  induction cs with
  | nil =>
    intro s htk hd
    exact ⟨hd, Nat.le_refl _, rfl⟩
  | cons c rest ih =>
    intro s htk hd
    obtain ⟨d1, d2, d3⟩ := execCmd_dead h s c htk hd
    obtain ⟨e1, e2, e3⟩ := ih (execCmd s c) (by rw [d3]; exact htk) d1
    refine ⟨e1, le_trans d2 e2, ?_⟩
    show (execCmds (execCmd s c) rest).ticking = s.ticking
    rw [e3, d3]

/-- `getD` of a mapped list at an in-range index. -/
theorem getD_map_lt {A B : Type} (l : List A) (f : A → B) {i : Nat}
    (hi : i < l.length) (d : B) (d0 : A) :
    (l.map f).getD i d = f (l.getD i d0) := by
  rw [List.getD_eq_getElem _ _ (by rw [List.length_map]; exact hi),
    List.getD_eq_getElem _ _ hi, List.getElem_map]

/-- The cancelled-top filter preserves permanent death: when it retires the
top's slot it also bumps that slot's generation. -/
theorem tpc_dead (h : EventID) (s : Sched) (hd : DeadP h s) :
    DeadP h (try_pop_cancelled s).2 ∧
    (try_pop_cancelled s).2.events.length = s.events.length ∧
    (try_pop_cancelled s).2.ticking = s.ticking := by
  obtain ⟨h1, h2, h3, h4⟩ := hd
  unfold try_pop_cancelled
  by_cases hc : (evGet s (pqTopGet s).index).status ≠ .Cancelled
  · rw [if_pos hc]
    exact ⟨⟨h1, h2, h3, h4⟩, rfl, rfl⟩
  · rw [if_neg hc]
    have hres : ({ pqPop s with
        fl := (pqPop s).fl ++ [(pqTopGet s).index]
        gens := (pqPop s).gens.set (pqTopGet s).index
          (genGet (pqPop s) (pqTopGet s).index + 1)
        cancelled := decSize (pqPop s).cancelled } : Sched) = { s with
        pq := s.pq.erase (pqTopGet s)
        fl := s.fl ++ [(pqTopGet s).index]
        gens := s.gens.set (pqTopGet s).index (genGet s (pqTopGet s).index + 1)
        cancelled := decSize s.cancelled } := rfl
    dsimp only
    rw [hres]
    refine ⟨⟨?_, h2, h3, ?_⟩, rfl, rfl⟩
    · unfold GensLen at h1 ⊢
      dsimp only
      rw [List.length_set]
      exact h1
    · by_cases hnei : (pqTopGet s).index = h.index
      · refine Or.inl ?_
        have hglt : h.index < s.gens.length := by
          unfold GensLen at h1
          omega
        show h.gen < (s.gens.set (pqTopGet s).index
          (genGet s (pqTopGet s).index + 1)).getD h.index 0
        rw [hnei, getD_set_self _ _ hglt]
        rcases h4 with h4 | h4
        · omega
        · omega
      · have hgu : (s.gens.set (pqTopGet s).index
            (genGet s (pqTopGet s).index + 1)).getD h.index 0 =
            genGet s h.index := getD_set_ne _ hnei _ 0
        rcases h4 with h4 | h4
        · refine Or.inl ?_
          show h.gen < (s.gens.set (pqTopGet s).index
            (genGet s (pqTopGet s).index + 1)).getD h.index 0
          rw [hgu]
          exact h4
        · refine Or.inr ⟨?_, h4.2.1, ?_, h4.2.2.2⟩
          · show h.gen = (s.gens.set (pqTopGet s).index
              (genGet s (pqTopGet s).index + 1)).getD h.index 0
            rw [hgu]
            exact h4.1
          · intro hmem
            rcases List.mem_append.mp hmem with hm | hm
            · exact h4.2.2.1 hm
            · rw [List.mem_singleton] at hm
              exact hnei hm.symm

/-- The stale-generation filter preserves permanent death (it only pops). -/
theorem tso_dead (h : EventID) (s : Sched) (hd : DeadP h s) :
    DeadP h (try_skip_old s).2 ∧
    (try_skip_old s).2.events.length = s.events.length ∧
    (try_skip_old s).2.ticking = s.ticking := by
  unfold try_skip_old
  by_cases hg : (pqTopGet s).gen = genGet s (pqTopGet s).index
  · rw [if_pos hg]
    exact ⟨hd, rfl, rfl⟩
  · rw [if_neg hg]
    exact ⟨hd, rfl, rfl⟩

/-- The `Latest` collapse filter preserves permanent death: it only moves the
top record's `next_fire`, leaving status, generations, free list and journal
untouched. -/
theorem tsr_dead (h : EventID) (s : Sched) (hd : DeadP h s) :
    DeadP h (try_skip_repeat s).2 ∧
    (try_skip_repeat s).2.events.length = s.events.length ∧
    (try_skip_repeat s).2.ticking = s.ticking := by
  unfold try_skip_repeat
  by_cases h1 : (evGet s (pqTopGet s).index).desc.type ≠ .Repeat
  · rw [if_pos h1]
    exact ⟨hd, rfl, rfl⟩
  · rw [if_neg h1]
    by_cases h2 : (evGet s (pqTopGet s).index).desc.cu ≠ .Latest
    · rw [if_pos h2]
      exact ⟨hd, rfl, rfl⟩
    · rw [if_neg h2]
      by_cases h3 : s.current - (evGet s (pqTopGet s).index).next_fire ≤ 0
      · rw [if_pos h3]
        exact ⟨hd, rfl, rfl⟩
      · rw [if_neg h3]
        by_cases h4 : (s.current - (evGet s (pqTopGet s).index).next_fire).tdiv
            (evGet s (pqTopGet s).index).desc.interval_ms = 0
        · rw [if_pos h4]
          exact ⟨hd, rfl, rfl⟩
        · rw [if_neg h4]
          dsimp only
          obtain ⟨k1, k2, k3, k4⟩ := hd
          set nf2 : Int := (evGet s (pqTopGet s).index).next_fire +
            ((s.current - (evGet s (pqTopGet s).index).next_fire).tdiv
              (evGet s (pqTopGet s).index).desc.interval_ms) *
            (evGet s (pqTopGet s).index).desc.interval_ms with hnf2
          have hres : (pqPush { pqPop s with
              events := (pqPop s).events.set (pqTopGet s).index
                { evGet s (pqTopGet s).index with next_fire := nf2 } }
              (pqTopGet s)) = { s with
              pq := (s.pq.erase (pqTopGet s)) ++ [pqTopGet s]
              events := s.events.set (pqTopGet s).index
                { evGet s (pqTopGet s).index with next_fire := nf2 } } := rfl
          rw [hres]
          refine ⟨⟨?_, ?_, k3, ?_⟩, ?_, rfl⟩
          · unfold GensLen at k1 ⊢
            dsimp only
            rw [List.length_set]
            exact k1
          · show h.index < (s.events.set (pqTopGet s).index
              { evGet s (pqTopGet s).index with next_fire := nf2 }).length
            rw [List.length_set]
            exact k2
          · rcases k4 with k4 | k4
            · exact Or.inl k4
            · refine Or.inr ⟨k4.1, ?_, k4.2.2.1, k4.2.2.2⟩
              by_cases hnei : (pqTopGet s).index = h.index
              · show ((s.events.set (pqTopGet s).index
                  { evGet s (pqTopGet s).index with next_fire := nf2 }).getD
                    h.index {}).status = .Cancelled
                rw [hnei, getD_set_self _ _ k2]
                exact k4.2.1
              · show ((s.events.set (pqTopGet s).index
                  { evGet s (pqTopGet s).index with next_fire := nf2 }).getD
                    h.index {}).status = .Cancelled
                rw [getD_set_ne _ hnei]
                exact k4.2.1
          · show (s.events.set (pqTopGet s).index
              { evGet s (pqTopGet s).index with next_fire := nf2 }).length =
              s.events.length
            rw [List.length_set]

/-- `reschedule` preserves permanent death: it only moves the target
record's `next_fire` one interval forward. -/
theorem reschedule_dead (h : EventID) (s : Sched) (eid : EventID)
    (hd : DeadP h s) :
    DeadP h (reschedule s eid) ∧
    (reschedule s eid).events.length = s.events.length ∧
    (reschedule s eid).ticking = s.ticking := by
  unfold reschedule
  by_cases hg1 : ¬(eid.is_valid && is_alive s eid) = true
  · rw [if_pos hg1]
    exact ⟨hd, rfl, rfl⟩
  · rw [if_neg hg1]
    by_cases hg2 : (evGet s eid.index).desc.type ≠ .Repeat
    · rw [if_pos hg2]
      exact ⟨hd, rfl, rfl⟩
    · rw [if_neg hg2]
      obtain ⟨k1, k2, k3, k4⟩ := hd
      have hres : (pqPush { s with
          events := s.events.set eid.index
            { evGet s eid.index with next_fire :=
                (evGet s eid.index).next_fire +
                (evGet s eid.index).desc.interval_ms } } eid) = { s with
          pq := s.pq ++ [eid]
          events := s.events.set eid.index
            { evGet s eid.index with next_fire :=
                (evGet s eid.index).next_fire +
                (evGet s eid.index).desc.interval_ms } } := rfl
      rw [hres]
      refine ⟨⟨?_, ?_, k3, ?_⟩, ?_, rfl⟩
      · unfold GensLen at k1 ⊢
        dsimp only
        rw [List.length_set]
        exact k1
      · show h.index < (s.events.set eid.index
          { evGet s eid.index with next_fire :=
              (evGet s eid.index).next_fire +
              (evGet s eid.index).desc.interval_ms }).length
        rw [List.length_set]
        exact k2
      · rcases k4 with k4 | k4
        · exact Or.inl k4
        · refine Or.inr ⟨k4.1, ?_, k4.2.2.1, k4.2.2.2⟩
          by_cases hnei : eid.index = h.index
          · show ((s.events.set eid.index
              { evGet s eid.index with next_fire :=
                  (evGet s eid.index).next_fire +
                  (evGet s eid.index).desc.interval_ms }).getD
                h.index {}).status = .Cancelled
            rw [hnei, getD_set_self _ _ k2]
            exact k4.2.1
          · show ((s.events.set eid.index
              { evGet s eid.index with next_fire :=
                  (evGet s eid.index).next_fire +
                  (evGet s eid.index).desc.interval_ms }).getD
                h.index {}).status = .Cancelled
            rw [getD_set_ne _ hnei]
            exact k4.2.1
      · show (s.events.set eid.index
          { evGet s eid.index with next_fire :=
              (evGet s eid.index).next_fire +
              (evGet s eid.index).desc.interval_ms }).length = s.events.length
        rw [List.length_set]

/-- `reuse` preserves permanent death: the retired slot's generation is
bumped, so even a handle exactly current on that slot moves strictly
behind its slot. -/
theorem reuse_dead (h : EventID) (s : Sched) (eid : EventID)
    (hd : DeadP h s) :
    DeadP h (reuse s eid) ∧ (reuse s eid).events.length = s.events.length ∧
    (reuse s eid).ticking = s.ticking := by
  obtain ⟨h1, h2, h3, h4⟩ := hd
  have hgens : (reuse s eid).gens =
      s.gens.set eid.index (genGet s eid.index + 1) := rfl
  have hev2 : (reuse s eid).events = s.events.set eid.index
      { evGet s eid.index with status := .Cancelled } := rfl
  have hfl2 : (reuse s eid).fl = s.fl ++ [eid.index] := rfl
  refine ⟨⟨?_, ?_, h3, ?_⟩, ?_, rfl⟩
  · show (reuse s eid).gens.length = (reuse s eid).events.length
    rw [hgens, hev2, List.length_set, List.length_set]
    exact h1
  · show h.index < (reuse s eid).events.length
    rw [hev2, List.length_set]
    exact h2
  · by_cases hnei : eid.index = h.index
    · refine Or.inl ?_
      have hglt : h.index < s.gens.length := by
        unfold GensLen at h1
        omega
      have hgu : genGet (reuse s eid) h.index = genGet s h.index + 1 := by
        show (reuse s eid).gens.getD h.index 0 = _
        rw [hgens, hnei, getD_set_self _ _ hglt]
      rw [hgu]
      rcases h4 with h4 | h4
      · omega
      · omega
    · have hgu : genGet (reuse s eid) h.index = genGet s h.index := by
        show (reuse s eid).gens.getD h.index 0 = _
        rw [hgens, getD_set_ne _ hnei]
        rfl
      have heu : evGet (reuse s eid) h.index = evGet s h.index := by
        show (reuse s eid).events.getD h.index {} = _
        rw [hev2, getD_set_ne _ hnei]
        rfl
      rcases h4 with h4 | h4
      · exact Or.inl (by rw [hgu]; exact h4)
      · refine Or.inr ⟨by rw [hgu]; exact h4.1, by rw [heu]; exact h4.2.1,
          ?_, h4.2.2.2⟩
        rw [hfl2]
        intro hmem
        rcases List.mem_append.mp hmem with hm | hm
        · exact h4.2.2.1 hm
        · rw [List.mem_singleton] at hm
          exact hnei hm.symm
  · show (reuse s eid).events.length = s.events.length
    rw [hev2, List.length_set]

/-- `fire_top` preserves permanent death: the fired slot either reschedules
(moving only its `next_fire`) or is retired with a generation bump, and the
callback's re-entrant commands preserve death individually. -/
theorem fire_top_dead (h : EventID) (s : Sched) (htk : s.ticking = true)
    (hd : DeadP h s) :
    DeadP h (fire_top s) ∧
    s.events.length ≤ (fire_top s).events.length ∧
    (fire_top s).ticking = s.ticking := by
  have heq : fire_top s =
      (if (evGet
          ({ s with
              fire_count := s.fire_count + 1
              pq := s.pq.erase (pqTopGet s) } : Sched)
          (pqTopGet s).index).status ≠ .Alive then
        ({ s with
            fire_count := s.fire_count + 1
            pq := s.pq.erase (pqTopGet s) } : Sched)
      else
        (fun s4 : Sched =>
          if (evGet s4 (pqTopGet s).index).desc.type = .Repeat ∧
              (evGet s4 (pqTopGet s).index).status ≠ .Cancelled then
            reschedule s4 (pqTopGet s)
          else reuse s4 (pqTopGet s))
        (execCmds
          ({ s with
              fire_count := s.fire_count + 1
              pq := s.pq.erase (pqTopGet s)
              log := s.log ++ [fireRec s] } : Sched)
          (evGet s (pqTopGet s).index).desc.callback)) := by
    unfold fire_top pqPop
    rfl
  rw [heq]
  by_cases hal : (evGet s (pqTopGet s).index).status = .Alive
  · rw [if_neg (by
      show ¬ ((evGet s (pqTopGet s).index).status ≠ .Alive)
      rw [hal]
      simp)]
    dsimp only
    set s3 : Sched := { s with
      fire_count := s.fire_count + 1
      pq := s.pq.erase (pqTopGet s)
      log := s.log ++ [fireRec s] } with hs3
    have hd3 : DeadP h s3 := hd
    have htk3 : s3.ticking = true := htk
    obtain ⟨e1, e2, e3⟩ := execCmds_dead h
      ((evGet s (pqTopGet s).index).desc.callback) s3 htk3 hd3
    set sE : Sched :=
      execCmds s3 ((evGet s (pqTopGet s).index).desc.callback) with hsE
    by_cases hrep : (evGet sE (pqTopGet s).index).desc.type = .Repeat ∧
        (evGet sE (pqTopGet s).index).status ≠ .Cancelled
    · rw [if_pos hrep]
      obtain ⟨r1, r2, r3⟩ := reschedule_dead h sE (pqTopGet s) e1
      refine ⟨r1, ?_, ?_⟩
      · rw [r2]
        exact e2
      · rw [r3, e3]
    · rw [if_neg hrep]
      obtain ⟨r1, r2, r3⟩ := reuse_dead h sE (pqTopGet s) e1
      refine ⟨r1, ?_, ?_⟩
      · rw [r2]
        exact e2
      · rw [r3, e3]
  · rw [if_pos (by
      show (evGet s (pqTopGet s).index).status ≠ .Alive
      exact hal)]
    exact ⟨hd, Nat.le_refl _, rfl⟩

/-- The dispatch loop of `tick` preserves permanent death, for every fuel
value. -/
theorem tickLoop_dead (h : EventID) (fuel : Nat) :
    ∀ s : Sched, s.ticking = true → DeadP h s →
      DeadP h (tickLoop fuel s) ∧
      s.events.length ≤ (tickLoop fuel s).events.length ∧
      (tickLoop fuel s).ticking = s.ticking := by
  induction fuel with
  | zero =>
    intro s htk hd
    exact ⟨hd, Nat.le_refl _, rfl⟩
  | succ f ih =>
    intro s htk hd
    unfold tickLoop
    by_cases hemp : s.pq.isEmpty
    · rw [if_pos hemp]
      exact ⟨hd, Nat.le_refl _, rfl⟩
    · rw [if_neg hemp]
      have hp1 : try_pop_cancelled s =
          ((try_pop_cancelled s).1, (try_pop_cancelled s).2) := rfl
      rcases hb1 : (try_pop_cancelled s).1 with _ | _
      · rw [hb1] at hp1
        rw [hp1]
        dsimp only
        rw [if_neg Bool.false_ne_true]
        rw [(tpc_false hb1).1]
        have hp2 : try_skip_old s =
            ((try_skip_old s).1, (try_skip_old s).2) := rfl
        rcases hb2 : (try_skip_old s).1 with _ | _
        · rw [hb2] at hp2
          rw [hp2]
          dsimp only
          rw [if_neg Bool.false_ne_true]
          rw [(tso_false hb2).1]
          have hp3 : try_skip_repeat s =
              ((try_skip_repeat s).1, (try_skip_repeat s).2) := rfl
          rcases hb3 : (try_skip_repeat s).1 with _ | _
          · rw [hb3] at hp3
            rw [hp3]
            dsimp only
            rw [if_neg Bool.false_ne_true]
            rw [tsr_false hb3]
            by_cases hdue : s.current <
                (evGet s (pqTopGet s).index).next_fire
            · rw [if_pos hdue]
              exact ⟨hd, Nat.le_refl _, rfl⟩
            · rw [if_neg hdue]
              obtain ⟨f1, f2, f3⟩ := fire_top_dead h s htk hd
              obtain ⟨g1, g2, g3⟩ := ih (fire_top s)
                (by rw [f3]; exact htk) f1
              exact ⟨g1, le_trans f2 g2, by rw [g3, f3]⟩
          · rw [hb3] at hp3
            rw [hp3]
            dsimp only
            rw [if_pos rfl]
            obtain ⟨t1, t2, t3⟩ := tsr_dead h s hd
            obtain ⟨g1, g2, g3⟩ := ih ((try_skip_repeat s).2)
              (by rw [t3]; exact htk) t1
            exact ⟨g1, le_trans (le_of_eq t2.symm) g2, by rw [g3, t3]⟩
        · rw [hb2] at hp2
          rw [hp2]
          dsimp only
          rw [if_pos rfl]
          obtain ⟨t1, t2, t3⟩ := tso_dead h s hd
          obtain ⟨g1, g2, g3⟩ := ih ((try_skip_old s).2)
            (by rw [t3]; exact htk) t1
          exact ⟨g1, le_trans (le_of_eq t2.symm) g2, by rw [g3, t3]⟩
      · rw [hb1] at hp1
        rw [hp1]
        dsimp only
        rw [if_pos rfl]
        obtain ⟨t1, t2, t3⟩ := tpc_dead h s hd
        obtain ⟨g1, g2, g3⟩ := ih ((try_pop_cancelled s).2)
          (by rw [t3]; exact htk) t1
        exact ⟨g1, le_trans (le_of_eq t2.symm) g2, by rw [g3, t3]⟩

/-- The dispatch loop of `run` preserves permanent death, for every fuel
value. -/
theorem runLoop_dead (h : EventID) (fuel : Nat) :
    ∀ s : Sched, s.ticking = true → DeadP h s →
      DeadP h (runLoop fuel s) ∧
      s.events.length ≤ (runLoop fuel s).events.length ∧
      (runLoop fuel s).ticking = s.ticking := by
  induction fuel with
  | zero =>
    intro s htk hd
    exact ⟨hd, Nat.le_refl _, rfl⟩
  | succ f ih =>
    intro s htk hd
    unfold runLoop
    by_cases hemp : s.pq.isEmpty
    · rw [if_pos hemp]
      exact ⟨hd, Nat.le_refl _, rfl⟩
    · rw [if_neg hemp]
      have hp1 : try_pop_cancelled s =
          ((try_pop_cancelled s).1, (try_pop_cancelled s).2) := rfl
      rcases hb1 : (try_pop_cancelled s).1 with _ | _
      · rw [hb1] at hp1
        rw [hp1]
        dsimp only
        rw [if_neg Bool.false_ne_true]
        rw [(tpc_false hb1).1]
        have hp2 : try_skip_repeat s =
            ((try_skip_repeat s).1, (try_skip_repeat s).2) := rfl
        rcases hb2 : (try_skip_repeat s).1 with _ | _
        · rw [hb2] at hp2
          rw [hp2]
          dsimp only
          rw [if_neg Bool.false_ne_true]
          rw [tsr_false hb2]
          have hp3 : try_skip_old s =
              ((try_skip_old s).1, (try_skip_old s).2) := rfl
          rcases hb3 : (try_skip_old s).1 with _ | _
          · rw [hb3] at hp3
            rw [hp3]
            dsimp only
            rw [if_neg Bool.false_ne_true]
            rw [(tso_false hb3).1]
            have htk4 : ({ s with
                current := (evGet s (pqTopGet s).index).next_fire } :
                Sched).ticking = true := htk
            have hd4 : DeadP h ({ s with
                current := (evGet s (pqTopGet s).index).next_fire } :
                Sched) := hd
            obtain ⟨f1, f2, f3⟩ := fire_top_dead h
              { s with current := (evGet s (pqTopGet s).index).next_fire }
              htk4 hd4
            obtain ⟨g1, g2, g3⟩ := ih
              (fire_top { s with
                current := (evGet s (pqTopGet s).index).next_fire })
              (by rw [f3]; exact htk4) f1
            exact ⟨g1, le_trans f2 g2, by rw [g3, f3]⟩
          · rw [hb3] at hp3
            rw [hp3]
            dsimp only
            rw [if_pos rfl]
            obtain ⟨t1, t2, t3⟩ := tso_dead h s hd
            obtain ⟨g1, g2, g3⟩ := ih ((try_skip_old s).2)
              (by rw [t3]; exact htk) t1
            exact ⟨g1, le_trans (le_of_eq t2.symm) g2, by rw [g3, t3]⟩
        · rw [hb2] at hp2
          rw [hp2]
          dsimp only
          rw [if_pos rfl]
          obtain ⟨t1, t2, t3⟩ := tsr_dead h s hd
          obtain ⟨g1, g2, g3⟩ := ih ((try_skip_repeat s).2)
            (by rw [t3]; exact htk) t1
          exact ⟨g1, le_trans (le_of_eq t2.symm) g2, by rw [g3, t3]⟩
      · rw [hb1] at hp1
        rw [hp1]
        dsimp only
        rw [if_pos rfl]
        obtain ⟨t1, t2, t3⟩ := tpc_dead h s hd
        obtain ⟨g1, g2, g3⟩ := ih ((try_pop_cancelled s).2)
          (by rw [t3]; exact htk) t1
        exact ⟨g1, le_trans (le_of_eq t2.symm) g2, by rw [g3, t3]⟩

/-- The journal flush preserves permanent death relative to the remaining
ops: installed schedules avoid the dead slot, a flushed clear adds the
accumulated `pending_clear ≥ 1` to every generation, and a flushed delay
bumps its target's generation. -/
theorem flushLoop_dead (h : EventID) (all : List Op) :
    ∀ (ops : List Op) (s : Sched), DeadF h ops s →
      DeadF h [] (flushLoop all ops s) ∧
      s.events.length ≤ (flushLoop all ops s).events.length ∧
      (flushLoop all ops s).delay_ops = s.delay_ops ∧
      (flushLoop all ops s).ticking = s.ticking := by
  intro ops
  induction ops with
  | nil =>
    intro s hd
    exact ⟨hd, Nat.le_refl _, rfl, rfl⟩
  | cons op rest ih =>
    intro s hd
    obtain ⟨k1, k2, k3, k4⟩ := hd
    unfold flushLoop
    match op with
    | .schedule nf d eid =>
      dsimp only
      have hese : (set_event s nf d eid).events = s.events.set eid.index
          { evGet s eid.index with
            desc := d
            status := .Alive
            next_fire := nf } := rfl
      have hns : DeadF h rest (set_event s nf d eid) := by
        refine ⟨?_, ?_, ?_, ?_⟩
        · show (set_event s nf d eid).gens.length =
            (set_event s nf d eid).events.length
          rw [hese, List.length_set]
          exact k1
        · show h.index < (set_event s nf d eid).events.length
          rw [hese, List.length_set]
          exact k2
        · intro hm
          exact k3 (List.mem_cons_of_mem _ hm)
        · rcases k4 with k4 | k4
          · exact Or.inl k4
          · have hnei : eid.index ≠ h.index :=
              k4.2.2.2 nf d eid (List.mem_cons_self _ _)
            refine Or.inr ⟨k4.1, ?_, k4.2.2.1, ?_⟩
            · show ((set_event s nf d eid).events.getD h.index {}).status =
                .Cancelled
              rw [hese, getD_set_ne _ hnei]
              exact k4.2.1
            · intro nf2 d2 eid2 hm
              exact k4.2.2.2 nf2 d2 eid2 (List.mem_cons_of_mem _ hm)
      obtain ⟨r1, r2, r3, r4⟩ := ih (set_event s nf d eid) hns
      refine ⟨r1, ?_, ?_, ?_⟩
      · exact le_trans (le_of_eq (by rw [hese, List.length_set])) r2
      · rw [r3]
        rfl
      · rw [r4]
        rfl
    | .clear =>
      dsimp only
      have hpc1 : 1 ≤ s.pending_clear := k3 (List.mem_cons_self _ _)
      have hgc : (clear_in_tick s (reservedIdxs all)).gens =
          s.gens.map (fun g => g + s.pending_clear) := rfl
      have hec : (clear_in_tick s (reservedIdxs all)).events =
          s.events.map (fun e => { e with status := .Cancelled }) := rfl
      have hglen : h.index < s.gens.length := by
        unfold GensLen at k1
        omega
      have hns : DeadF h rest (clear_in_tick s (reservedIdxs all)) := by
        refine ⟨?_, ?_, ?_, ?_⟩
        · show (clear_in_tick s (reservedIdxs all)).gens.length =
            (clear_in_tick s (reservedIdxs all)).events.length
          rw [hgc, hec, List.length_map, List.length_map]
          exact k1
        · show h.index < (clear_in_tick s (reservedIdxs all)).events.length
          rw [hec, List.length_map]
          exact k2
        · intro hm
          exact k3 (List.mem_cons_of_mem _ hm)
        · refine Or.inl ?_
          have hgm : genGet (clear_in_tick s (reservedIdxs all)) h.index =
              genGet s h.index + s.pending_clear := by
            show (s.gens.map (fun g => g + s.pending_clear)).getD h.index 0 =
              _
            rw [getD_map_lt s.gens _ hglen 0 0]
            rfl
          rw [hgm]
          rcases k4 with k4 | k4
          · omega
          · omega
      obtain ⟨r1, r2, r3, r4⟩ := ih (clear_in_tick s (reservedIdxs all)) hns
      refine ⟨r1, ?_, ?_, ?_⟩
      · exact le_trans (le_of_eq (by rw [hec, List.length_map])) r2
      · rw [r3]
        rfl
      · rw [r4]
        rfl
    | .delay eid nf =>
      dsimp only
      have hgd : (default_set_next_fire s eid nf).gens =
          s.gens.set eid.index (genGet s eid.index + 1) := rfl
      have hed : (default_set_next_fire s eid nf).events =
          s.events.set eid.index
            { evGet s eid.index with next_fire := nf } := rfl
      have hns : DeadF h rest (default_set_next_fire s eid nf) := by
        refine ⟨?_, ?_, ?_, ?_⟩
        · show (default_set_next_fire s eid nf).gens.length =
            (default_set_next_fire s eid nf).events.length
          rw [hgd, hed, List.length_set, List.length_set]
          exact k1
        · show h.index < (default_set_next_fire s eid nf).events.length
          rw [hed, List.length_set]
          exact k2
        · intro hm
          exact k3 (List.mem_cons_of_mem _ hm)
        · by_cases hnei : eid.index = h.index
          · refine Or.inl ?_
            have hglen : h.index < s.gens.length := by
              unfold GensLen at k1
              omega
            have hgu : genGet (default_set_next_fire s eid nf) h.index =
                genGet s h.index + 1 := by
              show (default_set_next_fire s eid nf).gens.getD h.index 0 = _
              rw [hgd, hnei, getD_set_self _ _ hglen]
            rw [hgu]
            rcases k4 with k4 | k4
            · omega
            · omega
          · have hgu : genGet (default_set_next_fire s eid nf) h.index =
                genGet s h.index := by
              show (default_set_next_fire s eid nf).gens.getD h.index 0 = _
              rw [hgd, getD_set_ne _ hnei]
              rfl
            rcases k4 with k4 | k4
            · exact Or.inl (by rw [hgu]; exact k4)
            · refine Or.inr ⟨by rw [hgu]; exact k4.1, ?_, k4.2.2.1, ?_⟩
              · show ((default_set_next_fire s eid nf).events.getD h.index
                  {}).status = .Cancelled
                rw [hed, getD_set_ne _ hnei]
                exact k4.2.1
              · intro nf2 d2 eid2 hm
                exact k4.2.2.2 nf2 d2 eid2 (List.mem_cons_of_mem _ hm)
      obtain ⟨r1, r2, r3, r4⟩ := ih (default_set_next_fire s eid nf) hns
      refine ⟨r1, ?_, ?_, ?_⟩
      · exact le_trans (le_of_eq (by rw [hed, List.length_set])) r2
      · rw [r3]
        rfl
      · rw [r4]
        rfl

/-- A whole `tick` call preserves permanent death. -/
theorem tick_dead (h : EventID) (s : Sched) (d : Int) (fuel : Nat)
    (hd : DeadP h s) :
    DeadP h (tick s d fuel) ∧
    s.events.length ≤ (tick s d fuel).events.length := by
  unfold tick
  by_cases ht : s.ticking = true
  · rw [if_pos ht]
    exact ⟨hd, Nat.le_refl _⟩
  · rw [if_neg ht]
    rcases tup_cases s d with htup | htup
    · rw [htup]
      dsimp only
      rw [if_neg Bool.false_ne_true]
      set s1 : Sched := { s with ticking := true, current := s.current + d }
        with hs1
      have hd1 : DeadP h s1 := hd
      obtain ⟨l1, l2, l3⟩ := tickLoop_dead h fuel s1 rfl hd1
      set L : Sched := tickLoop fuel s1 with hL
      have hdf0 : DeadF h L.delay_ops ({ L with delay_ops := [] } : Sched) :=
        l1
      obtain ⟨m1, m2, m3, m4⟩ := flushLoop_dead h L.delay_ops L.delay_ops
        { L with delay_ops := [] } hdf0
      have hops0 : ({ flush_delay_ops L with
          pending_clear := 0
          ticking := false } : Sched).delay_ops = [] := by
        show (flushLoop L.delay_ops L.delay_ops
          ({ L with delay_ops := [] } : Sched)).delay_ops = []
        rw [m3]
      refine ⟨⟨m1.1, m1.2.1, ?_, ?_⟩, ?_⟩
      · intro hmem
        rw [hops0] at hmem
        exact absurd hmem (by simp)
      · rcases m1.2.2.2 with hc | hc
        · exact Or.inl hc
        · refine Or.inr ⟨hc.1, hc.2.1, hc.2.2.1, ?_⟩
          intro nf2 d2 eid2 hmem
          rw [hops0] at hmem
          exact absurd hmem (by simp)
      · exact le_trans l2 m2
    · rw [htup]
      dsimp only
      rw [if_pos rfl]
      exact ⟨hd, Nat.le_refl _⟩

/-- A whole `run` call preserves permanent death. -/
theorem run_dead (h : EventID) (s : Sched) (fuel : Nat) (hd : DeadP h s) :
    DeadP h (run s fuel) ∧ s.events.length ≤ (run s fuel).events.length := by
  unfold run
  by_cases ht : s.ticking = true
  · rw [if_pos ht]
    exact ⟨hd, Nat.le_refl _⟩
  · rw [if_neg ht]
    by_cases hp : s.paused = true
    · rw [if_pos hp]
      exact ⟨hd, Nat.le_refl _⟩
    · rw [if_neg hp]
      set s1 : Sched := { s with ticking := true } with hs1
      have hd1 : DeadP h s1 := hd
      obtain ⟨l1, l2, l3⟩ := runLoop_dead h fuel s1 rfl hd1
      set L : Sched := runLoop fuel s1 with hL
      have hdf0 : DeadF h L.delay_ops ({ L with delay_ops := [] } : Sched) :=
        l1
      obtain ⟨m1, m2, m3, m4⟩ := flushLoop_dead h L.delay_ops L.delay_ops
        { L with delay_ops := [] } hdf0
      have hops0 : ({ flush_delay_ops L with
          pending_clear := 0
          ticking := false } : Sched).delay_ops = [] := by
        show (flushLoop L.delay_ops L.delay_ops
          ({ L with delay_ops := [] } : Sched)).delay_ops = []
        rw [m3]
      refine ⟨⟨m1.1, m1.2.1, ?_, ?_⟩, ?_⟩
      · intro hmem
        rw [hops0] at hmem
        exact absurd hmem (by simp)
      · rcases m1.2.2.2 with hc | hc
        · exact Or.inl hc
        · refine Or.inr ⟨hc.1, hc.2.1, hc.2.2.1, ?_⟩
          intro nf2 d2 eid2 hmem
          rw [hops0] at hmem
          exact absurd hmem (by simp)
      · exact le_trans l2 m2

/-- Every top-level operation other than `clear()` preserves permanent
death. -/
theorem execOp_dead (h : EventID) (s : Sched) (op : TopOp)
    (hnc : op.isClear = false) (hd : DeadP h s) :
    DeadP h (execOp s op) ∧
    s.events.length ≤ (execOp s op).events.length := by
  cases op with
  | schedule_after t cb ty iv ep pri cu =>
    obtain ⟨a, b, c⟩ := schedule_dead h s t iv cb ty ep pri cu hd
    exact ⟨a, b⟩
  | schedule_at t cb ty iv ep pri cu =>
    obtain ⟨a, b, c⟩ := schedule_dead h s (t - s.current) iv cb ty ep pri cu
      hd
    exact ⟨a, b⟩
  | cancel eid =>
    obtain ⟨a, b, c⟩ := cancel_dead h s eid hd
    exact ⟨a, b⟩
  | clear => exact absurd hnc (by decide)
  | tick d fuel => exact tick_dead h s d fuel hd
  | tick_until t fuel =>
    show DeadP h (tick_until s t fuel) ∧
      s.events.length ≤ (tick_until s t fuel).events.length
    unfold tick_until
    by_cases hc : t ≤ s.current
    · rw [if_pos hc]
      exact ⟨hd, Nat.le_refl _⟩
    · rw [if_neg hc]
      exact tick_dead h s (t - s.current) fuel hd
  | run fuel => exact run_dead h s fuel hd
  | pause => exact ⟨hd, Nat.le_refl _⟩
  | resume fuel =>
    have hd0 : DeadP h ({ s with paused := false } : Sched) := hd
    obtain ⟨a, b⟩ := tick_dead h { s with paused := false } s.paused_time
      fuel hd0
    exact ⟨a, b⟩
  | set_next_fire eid nf =>
    obtain ⟨a, b, c⟩ := snf_dead h s eid nf hd
    exact ⟨a, b⟩
  | delay eid ms =>
    obtain ⟨a, b, c⟩ := snf_dead h s eid ((evGet s eid.index).next_fire + ms)
      hd
    exact ⟨a, b⟩

/-- A clear-free sequence of top-level operations preserves permanent
death. -/
theorem execOps_dead (h : EventID) :
    ∀ (ops : List TopOp) (s : Sched), (∀ op ∈ ops, op.isClear = false) →
      DeadP h s → DeadP h (execOps s ops) := by
  intro ops
  induction ops with
  | nil =>
    intro s _ hd
    exact hd
  | cons op rest ih =>
    intro s hnc hd
    exact ih (execOp s op) (fun o ho => hnc o (List.mem_cons_of_mem _ ho))
      (execOp_dead h s op (hnc op (List.mem_cons_self _ _)) hd).1

/-- C4 (amended): a handle that reads dead at an operation boundary — with
the structural at-rest facts: generations cover the slab, the journal is
empty, the slot is in range, the handle's generation does not exceed its
slot's, and a free-list slot is never current for the handle — stays dead
across every subsequent sequence of top-level operations that contains no
top-level `clear()` call. -/
theorem c4_dead_handles_stay_dead (s : Sched) (h : EventID)
    (ops : List TopOp) (h1 : GensLen s) (h2 : s.delay_ops = [])
    (h3 : h.index < s.events.length) (h4 : h.gen ≤ genGet s h.index)
    (h5 : h.index ∈ s.fl → genGet s h.index ≠ h.gen)
    (h6 : is_alive s h = false)
    (h7 : ∀ op ∈ ops, op.isClear = false) :
    is_alive (execOps s ops) h = false :=
  deadP_alive_false (execOps_dead h ops s h7
    (deadP_of_rest h1 h2 h3 h4 h5 h6))

/-- Witness for the amended C4 at a concrete input: one event scheduled and
cancelled (handle `(0,0)` dead), then a clear-free schedule/tick/run
sequence. -/
theorem c4_dead_handles_stay_dead_witness :
    is_alive (execOps c4rs c4ops) ⟨0, 0⟩ = false :=
  c4_dead_handles_stay_dead c4rs ⟨0, 0⟩ c4ops (by decide) rfl (by decide)
    (by decide) (by decide) (by decide) (by decide)

/-- The slot the allocator pops from the free list is on the list and off
its `dropLast`. -/
theorem last_facts {l : List Nat} (hne : l ≠ []) (hN : l.Nodup) :
    (l.getLast?).getD 0 ∈ l ∧ (l.getLast?).getD 0 ∉ l.dropLast := by
  rw [List.getLast?_eq_getLast_of_ne_nil hne]
  show l.getLast hne ∈ l ∧ l.getLast hne ∉ l.dropLast
  refine ⟨List.getLast_mem hne, ?_⟩
  intro hmem
  have hN2 : (l.dropLast ++ [l.getLast hne]).Nodup := by
    rw [List.dropLast_append_getLast hne]
    exact hN
  rcases List.nodup_append.mp hN2 with ⟨-, -, hdisj⟩
  exact hdisj hmem (List.mem_singleton.mpr rfl)

/-- A re-entrant `clear()` at an in-window state establishes the C5
invariant with an empty post-clear journal. -/
theorem c5inv_start (s : Sched) (h1 : s.ticking = true) (h3 : s.fl.Nodup)
    (h4 : ∀ i ∈ s.fl, i < s.events.length) (h2 : GensLen s) :
    C5Inv s (execCmd s Cmd.clear) [] := by
  show C5Inv s (clear s) []
  unfold clear
  rw [if_pos h1]
  exact ⟨h1, rfl, h2, fun i => rfl, Nat.le_refl _, h3, h4, rfl,
    (List.append_nil _).symm, List.nodup_nil, by simp⟩

/-- One post-clear `schedule_after` extends the C5 invariant's journal. -/
theorem c5inv_sched (s u : Sched) (J : List (Int × EventDesc × EventID))
    (hsg : GensLen s) (t iv : Int) (cb : Callback) (ty : EventType)
    (ep : ExceptionPolicy) (pri : EventPriority) (cu : CatchUp)
    (hI : C5Inv s u J) :
    ∃ J2, C5Inv s (schedule_after u t cb ty iv ep pri cu).2 J2 := by
  obtain ⟨i1, i2, i3, i4, i5, i6, i7, i8, i9, i10, i11⟩ := hI
  by_cases hguard : ty = .Repeat ∧ iv ≤ 0
  · refine ⟨J, ?_⟩
    have hres : (schedule_after u t cb ty iv ep pri cu).2 = u := by
      unfold schedule_after
      rw [if_pos hguard]
    rw [hres]
    exact ⟨i1, i2, i3, i4, i5, i6, i7, i8, i9, i10, i11⟩
  · by_cases hfe : u.fl.isEmpty
    · have hres : (schedule_after u t cb ty iv ep pri cu).2 = { u with
          events := u.events ++ [{}]
          gens := u.gens ++ [0]
          delay_ops := u.delay_ops ++
            [Op.schedule (u.current + t)
              { type := ty, interval_ms := iv, callback := cb, ep := ep
                pri := pri, cu := cu }
              ⟨u.events.length, 0 + u.pending_clear⟩]
          issued := u.issued ++
            [⟨u.events.length, 0 + u.pending_clear⟩] } := by
        unfold schedule_after append add_schedule
        rw [if_neg hguard, if_pos hfe]
        dsimp only
        rw [if_pos i1]
      rw [hres]
      refine ⟨J ++ [(u.current + t,
        { type := ty, interval_ms := iv, callback := cb, ep := ep
          pri := pri, cu := cu },
        (⟨u.events.length, 0 + u.pending_clear⟩ : EventID))],
        i1, i2, ?_, ?_, ?_, i6, i7, ?_, ?_, ?_, ?_⟩
      · show (u.gens ++ ([0] : List Nat)).length =
          (u.events ++ [({} : Event)]).length
        have hg3 := i3
        unfold GensLen at hg3
        simp only [List.length_append, List.length_cons, List.length_nil]
        omega
      · intro i
        show (u.gens ++ ([0] : List Nat)).getD i 0 = genGet s i
        rw [getD_append_d]
        exact i4 i
      · show s.events.length ≤ (u.events ++ [({} : Event)]).length
        rw [List.length_append]
        simp only [List.length_cons, List.length_nil]
        omega
      · show u.delay_ops ++ _ = Op.clear :: _
        rw [i8, List.map_append]
        rfl
      · show u.issued ++ _ = s.issued ++ _
        rw [i9, List.map_append, List.append_assoc]
        rfl
      · rw [List.map_append]
        refine List.Nodup.append i10 (by simp) ?_
        intro a ha hb
        rcases List.mem_map.mp ha with ⟨x, hx, hxa⟩
        have hxa2 : (c5eid x).index = a := hxa
        have hlt := (i11 x hx).1
        have hb2 : a = u.events.length := List.mem_singleton.mp hb
        omega
      · intro x hx
        rcases List.mem_append.mp hx with hold | hnew
        · refine ⟨?_, (i11 x hold).2.1, (i11 x hold).2.2⟩
          have hlt := (i11 x hold).1
          show (c5eid x).index < (u.events ++ [({} : Event)]).length
          rw [List.length_append]
          simp only [List.length_cons, List.length_nil]
          omega
        · rw [List.mem_singleton] at hnew
          subst hnew
          refine ⟨?_, ?_, ?_⟩
          · show u.events.length < (u.events ++ [({} : Event)]).length
            rw [List.length_append]
            simp only [List.length_cons, List.length_nil]
            omega
          · show u.events.length ∉ u.fl
            intro hmem
            have hlt := i7 _ hmem
            omega
          · have hle : s.gens.length ≤ u.events.length := by
              have hg4 := hsg
              unfold GensLen at hg4
              omega
            show 0 + u.pending_clear =
              genGet s u.events.length + s.pending_clear + 1
            rw [show genGet s u.events.length = 0 from getD_of_le _ hle 0, i2]
            omega
    · have hne2 : u.fl ≠ [] := by
        intro hc
        rw [hc] at hfe
        exact hfe rfl
      obtain ⟨hmi, hndl⟩ := last_facts hne2 i6
      have hres : (schedule_after u t cb ty iv ep pri cu).2 = { u with
          fl := u.fl.dropLast
          delay_ops := u.delay_ops ++
            [Op.schedule (u.current + t)
              { type := ty, interval_ms := iv, callback := cb, ep := ep
                pri := pri, cu := cu }
              ⟨(u.fl.getLast?).getD 0,
                genGet u ((u.fl.getLast?).getD 0) + u.pending_clear⟩]
          issued := u.issued ++
            [⟨(u.fl.getLast?).getD 0,
              genGet u ((u.fl.getLast?).getD 0) + u.pending_clear⟩] } := by
        unfold schedule_after pop_fl add_schedule
        rw [if_neg hguard, if_neg hfe]
        dsimp only
        rw [if_pos i1]
      rw [hres]
      refine ⟨J ++ [(u.current + t,
        { type := ty, interval_ms := iv, callback := cb, ep := ep
          pri := pri, cu := cu },
        (⟨(u.fl.getLast?).getD 0,
          genGet u ((u.fl.getLast?).getD 0) + u.pending_clear⟩ : EventID))],
        i1, i2, i3, i4, i5,
        List.Nodup.sublist (List.dropLast_sublist u.fl) i6,
        ?_, ?_, ?_, ?_, ?_⟩
      · intro i hi
        exact i7 i (List.mem_of_mem_dropLast hi)
      · show u.delay_ops ++ _ = Op.clear :: _
        rw [i8, List.map_append]
        rfl
      · show u.issued ++ _ = s.issued ++ _
        rw [i9, List.map_append, List.append_assoc]
        rfl
      · rw [List.map_append]
        refine List.Nodup.append i10 (by simp) ?_
        intro a ha hb
        rcases List.mem_map.mp ha with ⟨x, hx, hxa⟩
        have hxa2 : (c5eid x).index = a := hxa
        have hb2 : a = (u.fl.getLast?).getD 0 := List.mem_singleton.mp hb
        apply (i11 x hx).2.1
        rw [hxa2, hb2]
        exact hmi
      · intro x hx
        rcases List.mem_append.mp hx with hold | hnew
        · refine ⟨(i11 x hold).1, ?_, (i11 x hold).2.2⟩
          intro hmem
          exact (i11 x hold).2.1 (List.mem_of_mem_dropLast hmem)
        · rw [List.mem_singleton] at hnew
          subst hnew
          refine ⟨?_, ?_, ?_⟩
          · show (u.fl.getLast?).getD 0 < u.events.length
            have hlt := i7 _ hmi
            omega
          · show (u.fl.getLast?).getD 0 ∉ u.fl.dropLast
            exact hndl
          · show genGet u ((u.fl.getLast?).getD 0) + u.pending_clear =
              genGet s ((u.fl.getLast?).getD 0) + s.pending_clear + 1
            rw [i2, i4]
            omega

/-- A post-clear tail of schedules preserves the C5 invariant, for some
extended journal. -/
theorem c5inv_cmds (s : Sched) (hsg : GensLen s) :
    ∀ (post : List Cmd) (u : Sched) (J : List (Int × EventDesc × EventID)),
      (∀ c ∈ post, c.isSchedule = true) → C5Inv s u J →
      ∃ J2, C5Inv s (execCmds u post) J2 := by
  intro post
  induction post with
  | nil =>
    intro u J hall hI
    exact ⟨J, hI⟩
  | cons c rest ih =>
    intro u J hall hI
    have hcs := hall c (List.mem_cons_self _ _)
    cases c with
    | schedule t ty iv ep pri cu cb =>
      obtain ⟨J2, hI2⟩ := c5inv_sched s u J hsg t iv cb ty ep pri cu hI
      exact ih (execCmd u (Cmd.schedule t ty iv ep pri cu cb)) J2
        (fun c2 hc2 => hall c2 (List.mem_cons_of_mem _ hc2)) hI2
    | cancel eid => exact absurd hcs (by simp [Cmd.isSchedule])
    | clear => exact absurd hcs (by simp [Cmd.isSchedule])
    | set_next_fire eid nf => exact absurd hcs (by simp [Cmd.isSchedule])
    | delay eid ms => exact absurd hcs (by simp [Cmd.isSchedule])
    | set_interval eid ms => exact absurd hcs (by simp [Cmd.isSchedule])
    | set_type eid ty => exact absurd hcs (by simp [Cmd.isSchedule])
    | set_exp_policy eid p => exact absurd hcs (by simp [Cmd.isSchedule])
    | set_priority eid p => exact absurd hcs (by simp [Cmd.isSchedule])
    | set_catchup eid cu => exact absurd hcs (by simp [Cmd.isSchedule])
    | pause => exact absurd hcs (by simp [Cmd.isSchedule])

/-- Flushing the journaled post-clear schedules installs each of them —
slot `Alive`, handle enqueued — while leaving lengths, generations and
`issued` alone and preserving every slot they do not target. -/
theorem c5floop (all : List Op) :
    ∀ (todo : List (Int × EventDesc × EventID)) (w : Sched),
      (∀ x ∈ todo, (c5eid x).index < w.events.length) →
      (flushLoop all (todo.map c5op) w).events.length = w.events.length ∧
      (flushLoop all (todo.map c5op) w).gens = w.gens ∧
      (flushLoop all (todo.map c5op) w).issued = w.issued ∧
      (∀ e ∈ w.pq, e ∈ (flushLoop all (todo.map c5op) w).pq) ∧
      (∀ i, i ∉ todo.map (fun x => (c5eid x).index) →
        evGet (flushLoop all (todo.map c5op) w) i = evGet w i) ∧
      ((todo.map (fun x => (c5eid x).index)).Nodup →
        ∀ x ∈ todo,
          (evGet (flushLoop all (todo.map c5op) w) (c5eid x).index).status =
              .Alive ∧
          c5eid x ∈ (flushLoop all (todo.map c5op) w).pq) := by
  intro todo
  induction todo with
  | nil =>
    intro w hb
    exact ⟨rfl, rfl, rfl, fun e he => he, fun i hi => rfl,
      fun hN x hx => absurd hx (by simp)⟩
  | cons x rest ih =>
    intro w hb
    have hx0 : (c5eid x).index < w.events.length :=
      hb x (List.mem_cons_self _ _)
    have hstep : flushLoop all ((x :: rest).map c5op) w =
        flushLoop all (rest.map c5op) (set_event w x.1 x.2.1 x.2.2) := rfl
    have hlen1 : (set_event w x.1 x.2.1 x.2.2).events.length =
        w.events.length := by
      show (w.events.set (c5eid x).index _).length = w.events.length
      rw [List.length_set]
    have hev_ne : ∀ i, i ≠ (c5eid x).index →
        evGet (set_event w x.1 x.2.1 x.2.2) i = evGet w i := by
      intro i hi
      show (w.events.set (c5eid x).index _).getD i {} = _
      rw [getD_set_ne _ (fun hc => hi hc.symm)]
      rfl
    have hev_self : evGet (set_event w x.1 x.2.1 x.2.2) (c5eid x).index =
        { evGet w (c5eid x).index with
          desc := x.2.1
          status := .Alive
          next_fire := x.1 } := by
      show (w.events.set (c5eid x).index _).getD (c5eid x).index {} = _
      exact getD_set_self _ _ hx0 _ _
    obtain ⟨e1, e2, e3, e4, e5, e6⟩ := ih (set_event w x.1 x.2.1 x.2.2)
      (fun y hy => by
        rw [hlen1]
        exact hb y (List.mem_cons_of_mem _ hy))
    rw [hstep]
    refine ⟨e1.trans hlen1, e2, e3, ?_, ?_, ?_⟩
    · intro e he
      refine e4 e ?_
      show e ∈ w.pq ++ [c5eid x]
      exact List.mem_append_left _ he
    · intro i hi
      have hi1 : i ≠ (c5eid x).index := fun hc =>
        hi (by rw [hc]; exact List.mem_cons_self _ _)
      have hi2 : i ∉ rest.map (fun x => (c5eid x).index) := fun hc =>
        hi (List.mem_cons_of_mem _ hc)
      rw [e5 i hi2, hev_ne i hi1]
    · intro hN y hy
      rcases List.nodup_cons.mp hN with ⟨hxnot, hrest⟩
      rcases List.mem_cons.mp hy with hy1 | hy2
      · subst hy1
        refine ⟨?_, ?_⟩
        · rw [e5 _ hxnot, hev_self]
        · refine e4 _ ?_
          show c5eid y ∈ w.pq ++ [c5eid y]
          exact List.mem_append_right _ (List.mem_singleton.mpr rfl)
      · exact e6 hrest y hy2

/-- Exiting the dispatch window — flushing the journal and running `tick`'s
epilogue — installs and enqueues every post-clear handle and kills every
handle the clear covered. -/
theorem c5flush (s u : Sched) (J : List (Int × EventDesc × EventID))
    (hsg : GensLen s) (hI : C5Inv s u J) :
    (∀ h_ ∈ ({ flush_delay_ops u with pending_clear := 0, ticking := false } :
        Sched).issued.drop s.issued.length,
      is_alive ({ flush_delay_ops u with
          pending_clear := 0
          ticking := false } : Sched) h_ = true ∧
      h_ ∈ ({ flush_delay_ops u with pending_clear := 0, ticking := false } :
        Sched).pq) ∧
    (∀ h_ : EventID, h_.index < s.events.length →
      h_.gen ≤ genGet s h_.index + s.pending_clear →
      is_alive ({ flush_delay_ops u with
        pending_clear := 0
        ticking := false } : Sched) h_ = false) := by
  obtain ⟨i1, i2, i3, i4, i5, i6, i7, i8, i9, i10, i11⟩ := hI
  have hglen_u : u.gens.length = u.events.length := i3
  have hfl : flush_delay_ops u = flushLoop (Op.clear :: J.map c5op)
      (J.map c5op) (clear_in_tick { u with delay_ops := [] }
        (reservedIdxs (Op.clear :: J.map c5op))) := by
    show flushLoop u.delay_ops u.delay_ops { u with delay_ops := [] } = _
    rw [i8]
    rfl
  have hridx : reservedIdxs (Op.clear :: J.map c5op) =
      J.map (fun x => (c5eid x).index) := by
    show (J.map c5op).map Op.eidIdx = _
    rw [List.map_map]
    rfl
  rw [hfl, hridx]
  have hv1len : (clear_in_tick { u with delay_ops := [] }
      (J.map (fun x => (c5eid x).index))).events.length = u.events.length := by
    show (u.events.map _).length = _
    rw [List.length_map]
  have hbnds : ∀ x ∈ J, (c5eid x).index < (clear_in_tick
      { u with delay_ops := [] }
      (J.map (fun x => (c5eid x).index))).events.length := by
    intro x hx
    rw [hv1len]
    exact (i11 x hx).1
  obtain ⟨e1, e2, e3, e4, e5, e6⟩ := c5floop (Op.clear :: J.map c5op) J
    (clear_in_tick { u with delay_ops := [] }
      (J.map (fun x => (c5eid x).index))) hbnds
  have hlenF : (flushLoop (Op.clear :: J.map c5op) (J.map c5op)
      (clear_in_tick { u with delay_ops := [] }
        (J.map (fun x => (c5eid x).index)))).events.length =
      u.events.length := e1.trans hv1len
  have hissF : (flushLoop (Op.clear :: J.map c5op) (J.map c5op)
      (clear_in_tick { u with delay_ops := [] }
        (J.map (fun x => (c5eid x).index)))).issued =
      s.issued ++ J.map c5eid := e3.trans i9
  have hgenF : ∀ i, i < u.events.length →
      genGet (flushLoop (Op.clear :: J.map c5op) (J.map c5op)
        (clear_in_tick { u with delay_ops := [] }
          (J.map (fun x => (c5eid x).index)))) i =
      genGet u i + u.pending_clear := by
    intro i hi
    show (flushLoop (Op.clear :: J.map c5op) (J.map c5op)
      (clear_in_tick { u with delay_ops := [] }
        (J.map (fun x => (c5eid x).index)))).gens.getD i 0 = _
    rw [e2]
    show (u.gens.map (fun g => g + u.pending_clear)).getD i 0 = _
    exact getD_map_lt u.gens _ (by omega) 0 0
  constructor
  · intro h_ hh
    rw [show ({ flushLoop (Op.clear :: J.map c5op) (J.map c5op)
        (clear_in_tick { u with delay_ops := [] }
          (J.map (fun x => (c5eid x).index))) with
        pending_clear := 0, ticking := false } : Sched).issued =
      (flushLoop (Op.clear :: J.map c5op) (J.map c5op)
        (clear_in_tick { u with delay_ops := [] }
          (J.map (fun x => (c5eid x).index)))).issued from rfl,
      hissF, List.drop_left] at hh
    rcases List.mem_map.mp hh with ⟨x, hx, hxe⟩
    subst hxe
    obtain ⟨hstA, hpqA⟩ := e6 i10 x hx
    have hgenfin : genGet ({ flushLoop (Op.clear :: J.map c5op) (J.map c5op)
        (clear_in_tick { u with delay_ops := [] }
          (J.map (fun x => (c5eid x).index))) with
        pending_clear := 0, ticking := false } : Sched) (c5eid x).index =
        (c5eid x).gen := by
      show genGet (flushLoop (Op.clear :: J.map c5op) (J.map c5op)
        (clear_in_tick { u with delay_ops := [] }
          (J.map (fun x => (c5eid x).index)))) (c5eid x).index = _
      rw [hgenF _ (i11 x hx).1, i4, i2, (i11 x hx).2.2]
      omega
    constructor
    · unfold is_alive
      rw [if_neg (by
        show ¬(c5eid x).index ≥ ({ flushLoop (Op.clear :: J.map c5op)
          (J.map c5op) (clear_in_tick { u with delay_ops := [] }
            (J.map (fun x => (c5eid x).index))) with
          pending_clear := 0, ticking := false } : Sched).events.length
        have hli : (c5eid x).index < u.events.length := (i11 x hx).1
        have hleq : ({ flushLoop (Op.clear :: J.map c5op)
          (J.map c5op) (clear_in_tick { u with delay_ops := [] }
            (J.map (fun x => (c5eid x).index))) with
          pending_clear := 0, ticking := false } : Sched).events.length =
          u.events.length := hlenF
        omega)]
      rw [if_neg (not_not_intro hgenfin.symm)]
      exact decide_eq_true (show (evGet (flushLoop (Op.clear :: J.map c5op)
        (J.map c5op) (clear_in_tick { u with delay_ops := [] }
          (J.map (fun x => (c5eid x).index)))) (c5eid x).index).status =
        .Alive from hstA)
    · exact hpqA
  · intro h_ hidx hgen
    have hgenfin2 : genGet ({ flushLoop (Op.clear :: J.map c5op) (J.map c5op)
        (clear_in_tick { u with delay_ops := [] }
          (J.map (fun x => (c5eid x).index))) with
        pending_clear := 0, ticking := false } : Sched) h_.index =
        genGet s h_.index + s.pending_clear + 1 := by
      show genGet (flushLoop (Op.clear :: J.map c5op) (J.map c5op)
        (clear_in_tick { u with delay_ops := [] }
          (J.map (fun x => (c5eid x).index)))) h_.index = _
      rw [hgenF _ (by omega), i4, i2]
      omega
    unfold is_alive
    by_cases hb : h_.index ≥ ({ flushLoop (Op.clear :: J.map c5op)
        (J.map c5op) (clear_in_tick { u with delay_ops := [] }
          (J.map (fun x => (c5eid x).index))) with
        pending_clear := 0, ticking := false } : Sched).events.length
    · rw [if_pos hb]
    · rw [if_neg hb, if_pos (by rw [hgenfin2]; omega)]

/-- C5: inside a dispatch window, a callback that calls `clear()` and then
any sequence of `schedule_*` calls gets, once the window exits, exactly the
post-clear survivors: every handle issued after the clear is alive — its
record installed and its handle enqueued — while every handle the clear
covered (any event existing before the clear, the same window's earlier
schedules included) is not alive. -/
theorem c5_clear_then_schedules (s : Sched) (post : List Cmd)
    (h1 : s.ticking = true) (h2 : GensLen s) (h3 : s.fl.Nodup)
    (h4 : ∀ i ∈ s.fl, i < s.events.length)
    (h5 : ∀ c ∈ post, c.isSchedule = true) :
    (∀ h_ ∈ (c5exit s post).issued.drop s.issued.length,
      is_alive (c5exit s post) h_ = true ∧ h_ ∈ (c5exit s post).pq) ∧
    (∀ h_ : EventID, h_.index < s.events.length →
      h_.gen ≤ genGet s h_.index + s.pending_clear →
      is_alive (c5exit s post) h_ = false) := by
  obtain ⟨J, hI⟩ := c5inv_cmds s h2 post (execCmd s Cmd.clear) [] h5
    (c5inv_start s h1 h3 h4 h2)
  exact c5flush s (execCmds (execCmd s Cmd.clear) post) J h2 hI

/-- C5 witness: from the mid-window state with one free slot, `clear()`
then one `schedule_after(5, …)`; the hypotheses hold and the conclusion is
the theorem at this instance. -/
theorem c5_clear_then_schedules_witness :
    (c5wit.ticking = true ∧ GensLen c5wit ∧ c5wit.fl.Nodup ∧
      (∀ i ∈ c5wit.fl, i < c5wit.events.length) ∧
      (∀ c ∈ c5post0, c.isSchedule = true)) ∧
    ((∀ h_ ∈ (c5exit c5wit c5post0).issued.drop c5wit.issued.length,
        is_alive (c5exit c5wit c5post0) h_ = true ∧
        h_ ∈ (c5exit c5wit c5post0).pq) ∧
      (∀ h_ : EventID, h_.index < c5wit.events.length →
        h_.gen ≤ genGet c5wit h_.index + c5wit.pending_clear →
        is_alive (c5exit c5wit c5post0) h_ = false)) :=
  ⟨⟨rfl, by decide, by decide, by decide, by decide⟩,
    c5_clear_then_schedules c5wit c5post0 rfl (by decide) (by decide)
      (by decide) (by decide)⟩

set_option maxHeartbeats 2000000 in
/-- C5 step: with the bystander strictly later, the first loop iteration
fires the trigger — running its schedule/clear/schedule/schedule callback —
and retires its slot. -/
theorem c5_loop_fire (a b : Int) (fuel : Nat) (hab : a < b) :
    tickLoop (fuel + 1) (c5w1 a b) = tickLoop fuel (c5w2 a b) := by
  have hne : ¬ (a = b) := by omega
  have hngt : ¬ (a > b) := by omega
  simp [tickLoop, c5w1, c5w2, c5d0, c5d1, c5cb, try_pop_cancelled,
    try_skip_old, try_skip_repeat, fire_top, execCmds, execCmd,
    schedule_after, add_schedule, add_clear, clear, append, set_event,
    reuse, reschedule, is_alive, EventID.is_valid, EventID.invalid, U32M,
    pqTopGet, pqPop, pqPush, evGet, genGet, List.erase, decSize,
    EventPriority.rank, cmpAfter, tie_break, hne, hngt]

/-- C5 step: with the bystander strictly in the future the loop then
breaks at the due check. -/
theorem c5_loop_stop (a b : Int) (fuel : Nat) (hab : a < b) :
    tickLoop (fuel + 1) (c5w2 a b) = c5w2 a b := by
  simp [tickLoop, c5w2, c5d0, c5d1, try_pop_cancelled, try_skip_old,
    try_skip_repeat, pqTopGet, pqPop, pqPush, evGet, genGet,
    EventPriority.rank, hab]

/-- C5: a callback that calls `clear()` and then `schedule_*` — after the
window exits, the two post-clear handles `(3,1)` and `(4,1)` are alive and
installed, while the pre-clear in-window handle `(2,0)`, the pre-existing
bystander `(1,0)` and the trigger `(0,0)` are all dead; exactly the two
post-clear events survive, and only the trigger ever fired (the bystander
at `T + d` did not). -/
theorem c5_clear_inside_window (T d : Int) (hd : 0 < d) :
    (c5post T d).issued = [⟨0, 0⟩, ⟨1, 0⟩, ⟨2, 0⟩, ⟨3, 1⟩, ⟨4, 1⟩] ∧
    is_alive (c5post T d) ⟨3, 1⟩ = true ∧
    is_alive (c5post T d) ⟨4, 1⟩ = true ∧
    is_alive (c5post T d) ⟨2, 0⟩ = false ∧
    is_alive (c5post T d) ⟨1, 0⟩ = false ∧
    is_alive (c5post T d) ⟨0, 0⟩ = false ∧
    (c5post T d).alive = 2 ∧
    (c5post T d).log.map FireRec.index = [0] := by
  have hpre : c5pre T d = { c5w1 (0 + T) (0 + (T + d)) with
      ticking := false
      current := 0 } := rfl
  have hrun : c5post T d =
      { flush_delay_ops (tickLoop 3 (c5w1 (0 + T) (0 + (T + d)))) with
        pending_clear := 0
        ticking := false } := by
    unfold c5post tick try_update_pause
    rw [hpre]
    rw [if_neg (by simp), if_pos (by simp [c5w1])]
    dsimp only
    rw [if_neg Bool.false_ne_true]
    rfl
  have hab : (0 + T : Int) < 0 + (T + d) := by omega
  have hloop : tickLoop 3 (c5w1 (0 + T) (0 + (T + d))) =
      c5w2 (0 + T) (0 + (T + d)) := by
    rw [show (3 : Nat) = 2 + 1 from rfl, c5_loop_fire _ _ 2 hab,
      show (2 : Nat) = 1 + 1 from rfl, c5_loop_stop _ _ 1 hab]
  have hflush : flush_delay_ops (c5w2 (0 + T) (0 + (T + d))) =
      c5w3 (0 + T) (0 + (T + d)) := rfl
  rw [hrun, hloop, hflush]
  exact ⟨rfl, rfl, rfl, rfl, rfl, rfl, rfl, rfl⟩

/-- Witness for C5 at `T = 7`, `d = 4`. -/
theorem c5_clear_inside_window_witness :
    is_alive (c5post 7 4) ⟨3, 1⟩ = true ∧
    is_alive (c5post 7 4) ⟨2, 0⟩ = false ∧
    is_alive (c5post 7 4) ⟨1, 0⟩ = false :=
  ⟨(c5_clear_inside_window 7 4 (by decide)).2.1,
   (c5_clear_inside_window 7 4 (by decide)).2.2.2.1,
   (c5_clear_inside_window 7 4 (by decide)).2.2.2.2.1⟩

end ES
